import Mathlib

/-!
# Parking puzzle (`park.cc`): a shallow embedding and its verification

The C++ program solves sliding-block puzzles by breadth-first search.  This
file embeds `Figure`, `PlacedFigure`, `Board`, `BoardCache` and `SolveBoard`
as Lean definitions and proves properties of them.

Modelling conventions
* `int` is `Int`.  On the boards considered every computed value lies between
  `-1` and `width * length`, so no wrap-around is modelled.
* A `const Figure*` is a `Figure` value carrying its address `addr`; pointer
  comparison is comparison of `addr`.
* A `PlacedFigure*` into `figures_` is the index of the piece in `figures_`;
  `NULL` is `none`.  The capacity of `figures_` is not part of a `Board`:
  `AddFigure` is the method on an object in which `push_back` does not
  reallocate (`Board(int, int)` reserves `kMaxFigures`), and
  `AddFigureAtCapacity` takes the capacity as a parameter.
* A `const Board*` into the keys of the cache is the value of the key it points
  to (`std::map` never moves or changes a key); `NULL` is `none`.
* `assert` is active (debug build).  A failed assertion is `Fault.assertion`,
  an access outside a `std::vector`, or through `end()`, is `Fault.undefined`,
  and so is flowing off the end of `SolveBoard`, which is declared `int` and
  has no `return` statement: `SolveBoardBody` is the function up to its closing
  brace, `SolveBoard` the function.
* Loops that may run for ever take a fuel argument and yield `Fault.fuel` when
  it runs out: with fuel `n` every such loop is cut after `n` rounds.
* `fprintf` output is a list of `Event`s; `DebugPrint` is the event carrying
  the printed board.
-/

namespace Park

/-- Ways in which a run of the program fails to continue normally. -/
inductive Fault where
  | assertion
  | undefined
  | allocation
  | fuel
deriving DecidableEq, Repr

deriving instance DecidableEq for Except

inductive Orientation where
  | kHorizontal
  | kVertical
deriving DecidableEq, Repr

/-- The class `Figure`, together with the address of the object. -/
structure Figure where
  addr : Nat
  length : Int
  orient : Orientation
deriving DecidableEq, Repr

structure PlacedFigure where
  figure : Figure
  hor_pos : Int
  vert_pos : Int
deriving DecidableEq, Repr

def PlacedFigure.MoveTo (p : PlacedFigure) (hor_pos vert_pos : Int) : PlacedFigure :=
  { p with hor_pos := hor_pos, vert_pos := vert_pos }

/-- The method `PlacedFigure::operator<`. -/
def PlacedFigure.lt (a other : PlacedFigure) : Bool :=
  if a.figure.addr ≠ other.figure.addr then decide (a.figure.addr < other.figure.addr)
  else if a.hor_pos ≠ other.hor_pos then decide (a.hor_pos < other.hor_pos)
  else if a.vert_pos ≠ other.vert_pos then decide (a.vert_pos < other.vert_pos)
  else false

/-- The method `PlacedFigure::operator==`. -/
def PlacedFigure.eq (a other : PlacedFigure) : Bool :=
  decide (a.figure.addr = other.figure.addr) &&
  decide (a.hor_pos = other.hor_pos) &&
  decide (a.vert_pos = other.vert_pos)

structure Board where
  width : Int
  length : Int
  figures : List PlacedFigure
  figure_by_pos : List (Option Nat)
deriving DecidableEq, Repr

def kMaxFigures : Nat := 12

namespace Board

/-- The method `Board::GetFigureAtPos`: reads `figure_by_pos_[vert_pos * width_ + hor_pos]`. -/
def GetFigureAtPos (b : Board) (hor_pos vert_pos : Int) : Except Fault (Option Nat) :=
  let idx := vert_pos * b.width + hor_pos
  if 0 ≤ idx ∧ idx < b.figure_by_pos.length then
    .ok (b.figure_by_pos.getD idx.toNat none)
  else .error .undefined

/-- The method `Board::SetFigureAtPos`: the assertion evaluates `GetFigureAtPos` only when
`pfig` is not `NULL`. -/
def SetFigureAtPos (b : Board) (pfig : Option Nat) (hor_pos vert_pos : Int) :
    Except Fault Board := do
  if pfig.isSome then
    let cur ← b.GetFigureAtPos hor_pos vert_pos
    if cur.isSome then throw .assertion
  let idx := vert_pos * b.width + hor_pos
  if 0 ≤ idx ∧ idx < b.figure_by_pos.length then
    pure { b with figure_by_pos := b.figure_by_pos.set idx.toNat pfig }
  else throw .undefined

/-- The method `Board::AddFigureToPos` for the piece stored at index `k` of `figures_`. -/
def AddFigureToPos (b : Board) (k : Nat) : Except Fault Board :=
  match b.figures[k]? with
  | none => .error .undefined
  | some pfig =>
    (List.range pfig.figure.length.toNat).foldlM
      (fun (acc : Board) (i : Nat) =>
        if pfig.figure.orient = .kHorizontal then
          acc.SetFigureAtPos (some k) (pfig.hor_pos + i) pfig.vert_pos
        else
          acc.SetFigureAtPos (some k) pfig.hor_pos (pfig.vert_pos + i))
      b

/-- The method `Board::RecomputeFigureByPos`. -/
def RecomputeFigureByPos (b : Board) : Except Fault Board :=
  if b.width * b.length < 0 then .error .allocation
  else
    (List.range b.figures.length).foldlM
      (fun (acc : Board) (i : Nat) => acc.AddFigureToPos i)
      { b with figure_by_pos := List.replicate (b.width * b.length).toNat none }

/-- The constructor `Board(int w, int l)`. -/
def new (w l : Int) : Except Fault Board :=
  if w * l < 0 then .error .allocation
  else .ok { width := w, length := l, figures := [],
             figure_by_pos := List.replicate (w * l).toNat none }

/-- The copy constructor `Board(const Board& from)`. -/
def copy (src : Board) : Except Fault Board :=
  RecomputeFigureByPos
    { width := src.width, length := src.length, figures := src.figures, figure_by_pos := [] }

/-- The method `Board::operator=`. -/
def assign (b src : Board) : Except Fault Board :=
  RecomputeFigureByPos
    { width := src.width, length := src.length, figures := src.figures,
      figure_by_pos := b.figure_by_pos }

/-- The method `Board::AddFigure` on an object in which `push_back` finds room
in `figures_` without reallocating it, as on every board made by
`Board(int, int)`, which reserves `kMaxFigures`: the pointers held in
`figure_by_pos_`, here the indices of the pieces, stay valid.  The capacity of
`figures_` is not part of a `Board` value; `AddFigureAtCapacity` takes it as a
parameter. -/
def AddFigure (b : Board) (figure : Figure) (hor_pos vert_pos : Int) : Except Fault Board :=
  if b.figures.length < kMaxFigures then
    AddFigureToPos { b with figures := b.figures ++ [⟨figure, hor_pos, vert_pos⟩] }
      b.figures.length
  else .error .assertion

/-- The method `Board::CanMoveForward` for the piece at index `k`. -/
def CanMoveForward (b : Board) (k : Nat) : Except Fault Bool :=
  match b.figures[k]? with
  | none => .error .undefined
  | some pfig =>
    let hor_pos := pfig.hor_pos
    let vert_pos := pfig.vert_pos
    if pfig.figure.orient = .kHorizontal then
      if hor_pos + pfig.figure.length ≥ b.width then .ok false
      else do
        let c ← b.GetFigureAtPos (hor_pos + pfig.figure.length) vert_pos
        pure c.isNone
    else
      if vert_pos + pfig.figure.length ≥ b.length then .ok false
      else do
        let c ← b.GetFigureAtPos hor_pos (vert_pos + pfig.figure.length)
        pure c.isNone

/-- The method `Board::CanMoveBack` for the piece at index `k`. -/
def CanMoveBack (b : Board) (k : Nat) : Except Fault Bool :=
  match b.figures[k]? with
  | none => .error .undefined
  | some pfig =>
    let hor_pos := pfig.hor_pos
    let vert_pos := pfig.vert_pos
    if pfig.figure.orient = .kHorizontal then
      if hor_pos = 0 then .ok false
      else do
        let c ← b.GetFigureAtPos (hor_pos - 1) vert_pos
        pure c.isNone
    else
      if vert_pos = 0 then .ok false
      else do
        let c ← b.GetFigureAtPos hor_pos (vert_pos - 1)
        pure c.isNone

/-- The write `pfig->MoveTo(h, v)` on the piece at index `k`. -/
def moveFigureTo (b : Board) (k : Nat) (pfig : PlacedFigure) (hor_pos vert_pos : Int) : Board :=
  { b with figures := b.figures.set k (pfig.MoveTo hor_pos vert_pos) }

/-- The method `Board::MoveForward` for the piece at index `k`. -/
def MoveForward (b : Board) (k : Nat) : Except Fault Board :=
  match b.figures[k]? with
  | none => .error .undefined
  | some pfig => do
    let hor_pos := pfig.hor_pos
    let vert_pos := pfig.vert_pos
    let c ← b.GetFigureAtPos hor_pos vert_pos
    if c ≠ some k then throw .assertion
    let b1 ← b.SetFigureAtPos none hor_pos vert_pos
    if pfig.figure.orient = .kHorizontal then
      let b2 ← b1.SetFigureAtPos (some k) (hor_pos + pfig.figure.length) vert_pos
      pure (b2.moveFigureTo k pfig (hor_pos + 1) vert_pos)
    else
      let b2 ← b1.SetFigureAtPos (some k) hor_pos (vert_pos + pfig.figure.length)
      pure (b2.moveFigureTo k pfig hor_pos (vert_pos + 1))

/-- The method `Board::MoveBack` for the piece at index `k`. -/
def MoveBack (b : Board) (k : Nat) : Except Fault Board :=
  match b.figures[k]? with
  | none => .error .undefined
  | some pfig => do
    let hor_pos := pfig.hor_pos
    let vert_pos := pfig.vert_pos
    if pfig.figure.orient = .kHorizontal then
      let c ← b.GetFigureAtPos (hor_pos + pfig.figure.length - 1) vert_pos
      if c ≠ some k then throw .assertion
      let b1 ← b.SetFigureAtPos none (hor_pos + pfig.figure.length - 1) vert_pos
      let b2 ← b1.SetFigureAtPos (some k) (hor_pos - 1) vert_pos
      pure (b2.moveFigureTo k pfig (hor_pos - 1) vert_pos)
    else
      let c ← b.GetFigureAtPos hor_pos (vert_pos + pfig.figure.length - 1)
      if c ≠ some k then throw .assertion
      let b1 ← b.SetFigureAtPos none hor_pos (vert_pos + pfig.figure.length - 1)
      let b2 ← b1.SetFigureAtPos (some k) hor_pos (vert_pos - 1)
      pure (b2.moveFigureTo k pfig hor_pos (vert_pos - 1))

/-- The loop of `Board::operator<` over `figures_[i]` and `other.figures_[i]`,
`i` running over the indices of `figures_`. -/
def ltLoop : List PlacedFigure → List PlacedFigure → Except Fault Bool
  | [], _ => .ok false
  | _ :: _, [] => .error .undefined
  | x :: xs, y :: ys =>
    if x.eq y then ltLoop xs ys
    else if x.lt y then .ok true
    else .ok false

/-- The method `Board::operator<`. -/
def lt (b other : Board) : Except Fault Bool := ltLoop b.figures other.figures

/-- The loop of `Board::operator==`. -/
def eqLoop : List PlacedFigure → List PlacedFigure → Except Fault Bool
  | [], _ => .ok true
  | _ :: _, [] => .error .undefined
  | x :: xs, y :: ys => if x.eq y then eqLoop xs ys else .ok false

/-- The method `Board::operator==`. -/
def eq (b other : Board) : Except Fault Bool := eqLoop b.figures other.figures

/-- The method `Board::IsWin`. -/
def IsWin (b : Board) : Except Fault Bool :=
  match b.figures[0]? with
  | none => .error .undefined
  | some f => .ok (decide (f.hor_pos = b.width - f.figure.length))

end Board

/-- What the program prints. -/
inductive Event where
  | backTrace
  | move (n : Int) (b : Board)
  | movesInTotal (n : Int)
  | solved (analyzed : Int)
deriving DecidableEq, Repr

/-- The class `BoardCache`: the entries of the `std::map`, in insertion order.
A key is looked up by comparing it with the keys of the entries in turn, with
`Board::operator<` in both directions; this is what the search tree of
`std::map` computes whenever `operator<` is a strict weak order on the keys. -/
structure BoardCache where
  cache_ : List (Board × Option Board)
deriving DecidableEq, Repr

namespace BoardCache

/-- The constructor `BoardCache()`. -/
def new : BoardCache := ⟨[]⟩

/-- Whether two keys are equivalent for the map: neither is less than the other. -/
def equiv (a b : Board) : Except Fault Bool := do
  let x ← a.lt b
  let y ← b.lt a
  pure (!x && !y)

/-- The expression `cache_.find(board)`: the entry whose key is equivalent to `board`. -/
def findEntry : List (Board × Option Board) → Board → Except Fault (Option (Board × Option Board))
  | [], _ => .ok none
  | e :: rest, board => do
    if ← equiv e.1 board then pure (some e) else findEntry rest board

/-- The expression `cache_[board] = parent` on the entries: assigns to the entry of an
equivalent key, or inserts a copy of `board`. -/
def assignEntry : List (Board × Option Board) → Board → Option Board →
    Except Fault (List (Board × Option Board))
  | [], board, parent => do
    let key ← board.copy
    pure [(key, parent)]
  | e :: rest, board, parent => do
    if ← equiv e.1 board then pure ((e.1, parent) :: rest)
    else
      let rest ← assignEntry rest board parent
      pure (e :: rest)

/-- The method `BoardCache::AddBoard`. -/
def AddBoard (c : BoardCache) (board : Board) (parent : Option Board) :
    Except Fault BoardCache := do
  let entries ← assignEntry c.cache_ board parent
  pure ⟨entries⟩

/-- The method `BoardCache::IsBoardPresent`. -/
def IsBoardPresent (c : BoardCache) (board : Board) : Except Fault Bool := do
  let r ← findEntry c.cache_ board
  pure r.isSome

/-- The method `BoardCache::GetBoardRef`. -/
def GetBoardRef (c : BoardCache) (board : Board) : Except Fault Board := do
  match ← findEntry c.cache_ board with
  | none => throw .undefined
  | some e => pure e.1

/-- The method `BoardCache::GetParent`. -/
def GetParent (c : BoardCache) (board : Board) : Except Fault (Option Board) := do
  match ← findEntry c.cache_ board with
  | none => throw .undefined
  | some e => pure e.2

/-- The `do ... while` loop of `BoardCache::BackTrace`; returns what it prints
and the final value of `moves`. -/
def BackTraceLoop (c : BoardCache) : Nat → Board → Int → Except Fault (List Event × Int)
  | 0, _, _ => .error .fuel
  | fuel + 1, board, moves => do
    let moves := moves + 1
    match ← c.GetParent board with
    | none => pure ([.move moves board], moves)
    | some parent =>
      let (out, total) ← BackTraceLoop c fuel parent moves
      pure (.move moves board :: out, total)

/-- The method `BoardCache::BackTrace`: returns what it prints. -/
def BackTrace (c : BoardCache) (fuel : Nat) (board : Board) : Except Fault (List Event) := do
  let (out, moves) ← BackTraceLoop c fuel board 0
  pure (.backTrace :: out ++ [.movesInTotal (moves - 1)])

end BoardCache

/-- The variables of `SolveBoard`: the caller's `board`, `cache` and `states`. -/
structure SolveState where
  board : Board
  cache : BoardCache
  states : List Board
deriving DecidableEq, Repr

/-- The block `if (!cache.IsBoardPresent(board)) { AddBoard; push_back }`. -/
def recordBoard (parent : Board) (st : SolveState) : Except Fault SolveState := do
  if !(← st.cache.IsBoardPresent st.board) then
    let cache ← st.cache.AddBoard st.board (some parent)
    let snapshot ← st.board.copy
    pure { st with cache := cache, states := st.states ++ [snapshot] }
  else pure st

/-- The body of the inner loop of `SolveBoard` for the piece at index `k`. -/
def expandFigure (parent : Board) (st : SolveState) (k : Nat) : Except Fault SolveState := do
  let st ← (do
    if ← st.board.CanMoveForward k then
      let b ← st.board.MoveForward k
      let st ← recordBoard parent { st with board := b }
      let b ← st.board.MoveBack k
      pure { st with board := b }
    else pure st)
  if ← st.board.CanMoveBack k then
    let b ← st.board.MoveBack k
    let st ← recordBoard parent { st with board := b }
    let b ← st.board.MoveForward k
    pure { st with board := b }
  else pure st

/-- The inner loop of `SolveBoard` over all pieces. -/
def expandBoard (parent : Board) (st : SolveState) : Except Fault SolveState :=
  (List.range st.board.figures.length).foldlM (expandFigure parent) st

/-- The outer loop of `SolveBoard` from cursor `i`; returns the variables at
exit and what was printed.  Here `limit` is the fuel given to the loop of
`BackTrace`. -/
def solveLoop (limit : Nat) : Nat → Nat → SolveState → Except Fault (SolveState × List Event)
  | 0, _, _ => .error .fuel
  | fuel + 1, i, st =>
    match st.states[i]? with
    | none => .ok (st, [])
    | some s => do
      let board ← st.board.assign s
      let st := { st with board := board }
      if ← st.board.IsWin then
        let out ← st.cache.BackTrace limit st.board
        pure (st, out ++ [.solved i])
      else
        let parent ← st.cache.GetBoardRef st.board
        let st ← expandBoard parent st
        solveLoop limit fuel (i + 1) st

/-- The statements of `SolveBoard` from its opening brace up to, and not
including, its closing brace: the set-up of the cache and of the frontier and
the search loop.  The result is the variables when control arrives at the
closing brace (`board` is the board of the caller, passed by reference) and
what was printed up to there. -/
def SolveBoardBody (fuel : Nat) (board : Board) : Except Fault (SolveState × List Event) := do
  let cache ← BoardCache.new.AddBoard board none
  let snapshot ← board.copy
  solveLoop fuel fuel 0 { board := board, cache := cache, states := [snapshot] }

/-- The function `int SolveBoard(Board& board)`.  It has no `return` statement:
both exits of the search loop (the `break` of the success branch and the end of
the frontier) lead to the closing brace, and flowing off the end of a function
that is not `void` is undefined behaviour.  A normal return would give the
returned `int` and the board of the caller; no run of the function makes one. -/
def SolveBoard (fuel : Nat) (board : Board) : Except Fault (Int × Board) := do
  let _ ← SolveBoardBody fuel board
  throw .undefined

/-! ## Specification vocabulary -/

/-- The cells a piece of shape `figure` placed at `(hor_pos, vert_pos)` covers:
the cells `AddFigureToPos` marks, as pairs `(column, row)`. -/
def footprint (figure : Figure) (hor_pos vert_pos : Int) : List (Int × Int) :=
  (List.range figure.length.toNat).map fun (i : Nat) =>
    if figure.orient = .kHorizontal then (hor_pos + (i : Int), vert_pos)
    else (hor_pos, vert_pos + (i : Int))

/-- The cells a placed piece covers. -/
def PlacedFigure.cells (p : PlacedFigure) : List (Int × Int) :=
  footprint p.figure p.hor_pos p.vert_pos

/-- The lowest cell of a piece, the one at its stored position. -/
def PlacedFigure.headCell (p : PlacedFigure) : Int × Int := (p.hor_pos, p.vert_pos)

/-- The highest cell of a piece along its axis. -/
def PlacedFigure.tailCell (p : PlacedFigure) : Int × Int :=
  if p.figure.orient = .kHorizontal then (p.hor_pos + p.figure.length - 1, p.vert_pos)
  else (p.hor_pos, p.vert_pos + p.figure.length - 1)

/-- The piece one cell further along its axis. -/
def PlacedFigure.forward (p : PlacedFigure) : PlacedFigure :=
  if p.figure.orient = .kHorizontal then p.MoveTo (p.hor_pos + 1) p.vert_pos
  else p.MoveTo p.hor_pos (p.vert_pos + 1)

/-- The piece one cell back along its axis. -/
def PlacedFigure.back (p : PlacedFigure) : PlacedFigure :=
  if p.figure.orient = .kHorizontal then p.MoveTo (p.hor_pos - 1) p.vert_pos
  else p.MoveTo p.hor_pos (p.vert_pos - 1)

/-- The cell just past the high end of a piece along its axis. -/
def PlacedFigure.cellAhead (p : PlacedFigure) : Int × Int :=
  if p.figure.orient = .kHorizontal then (p.hor_pos + p.figure.length, p.vert_pos)
  else (p.hor_pos, p.vert_pos + p.figure.length)

/-- The cell just before the low end of a piece along its axis. -/
def PlacedFigure.cellBehind (p : PlacedFigure) : Int × Int :=
  if p.figure.orient = .kHorizontal then (p.hor_pos - 1, p.vert_pos)
  else (p.hor_pos, p.vert_pos - 1)

namespace Board

/-- The cell `c = (column, row)` lies inside the grid. -/
def InGrid (b : Board) (c : Int × Int) : Prop :=
  0 ≤ c.1 ∧ c.1 < b.width ∧ 0 ≤ c.2 ∧ c.2 < b.length

instance (b : Board) (c : Int × Int) : Decidable (b.InGrid c) := by
  unfold InGrid; infer_instance

/-- The entry of the occupancy index for the cell `c`. -/
def slot (b : Board) (c : Int × Int) : Option Nat :=
  b.figure_by_pos.getD (c.2 * b.width + c.1).toNat none

/-- The flat index of the cell `c` in the occupancy index. -/
def index (b : Board) (c : Int × Int) : Nat := (c.2 * b.width + c.1).toNat

/-- The board on which piece `k` has given up the cell `old`, taken the cell
`new`, and is stored as `p`. -/
def relocate (b : Board) (k : Nat) (old new : Int × Int) (p : PlacedFigure) : Board :=
  { b with
    figures := b.figures.set k p
    figure_by_pos := (b.figure_by_pos.set (b.index old) none).set (b.index new) (some k) }

/-- No piece covers the cell `c`. -/
def Free (b : Board) (c : Int × Int) : Prop := ∀ q ∈ b.figures, c ∉ q.cells

/-- Every piece has at least one cell and lies inside the grid. -/
def PiecesInGrid (b : Board) : Prop :=
  ∀ p ∈ b.figures, 1 ≤ p.figure.length ∧ ∀ c ∈ p.cells, b.InGrid c

/-- No two distinct pieces share a cell. -/
def NoOverlap (b : Board) : Prop :=
  b.figures.Pairwise fun p q => ∀ c ∈ p.cells, c ∉ q.cells

/-- The slot of the cell `c` holds a piece of the board, and it holds piece `k`
exactly when `c` is in the footprint of piece `k`. -/
def ConsistentAt (b : Board) (c : Int × Int) : Prop :=
  (∀ k ∈ b.slot c, k < b.figures.length) ∧
  ∀ k < b.figures.length, (b.slot c = some k ↔ ∃ p ∈ b.figures[k]?, c ∈ p.cells)

instance (b : Board) (c : Int × Int) : Decidable (b.ConsistentAt c) := by
  unfold ConsistentAt; infer_instance

/-- The occupancy index has one slot per cell, and the slot of every cell of the
grid holds piece `k` exactly when the cell is in the footprint of piece `k`
(it is empty when the cell is in no footprint). -/
def Consistent (b : Board) : Prop :=
  b.figure_by_pos.length = (b.width * b.length).toNat ∧
  ∀ x < b.width.toNat, ∀ y < b.length.toNat, b.ConsistentAt ((x : Int), (y : Int))

instance (b : Board) : Decidable b.Consistent := by
  unfold Consistent; infer_instance

/-- The first piece exists and is horizontal. -/
def FirstHorizontal (b : Board) : Prop :=
  ∃ p ∈ b.figures[0]?, p.figure.orient = .kHorizontal

/-- A well-formed board: pieces inside the grid, pairwise non-overlapping,
occupancy index consistent, first piece horizontal. -/
def WellFormed (b : Board) : Prop :=
  b.PiecesInGrid ∧ b.NoOverlap ∧ b.Consistent ∧ b.FirstHorizontal

instance (b : Board) : Decidable b.WellFormed := by
  unfold WellFormed PiecesInGrid NoOverlap FirstHorizontal; infer_instance

/-- One legal single-cell move leads from `s` to `t`. -/
def Step (s t : Board) : Prop :=
  ∃ k, (s.CanMoveForward k = .ok true ∧ s.MoveForward k = .ok t) ∨
       (s.CanMoveBack k = .ok true ∧ s.MoveBack k = .ok t)

/-- The board `t` is reached from `b` by exactly `n` legal single-cell moves. -/
inductive Reach (b : Board) : Nat → Board → Prop where
  | refl : Reach b 0 b
  | step {n : Nat} {s t : Board} : Reach b n s → Step s t → Reach b (n + 1) t

/-- The boards `s` and `b` have the same grid and the same pieces in the same order. -/
def SameShape (b s : Board) : Prop :=
  s.width = b.width ∧ s.length = b.length ∧
    s.figures.map PlacedFigure.figure = b.figures.map PlacedFigure.figure

/-- The board `s` is a well-formed placement of the pieces of `b` on the grid of `b`. -/
def Good (b s : Board) : Prop := s.WellFormed ∧ SameShape b s

/-- The boards the inner loop of `SolveBoard` offers to the cache for piece `k`:
the result of the forward move if it is legal, then that of the back move. -/
def moves (s : Board) (k : Nat) : List Board :=
  (match s.CanMoveForward k, s.MoveForward k with
    | .ok true, .ok t => [t]
    | _, _ => []) ++
  (match s.CanMoveBack k, s.MoveBack k with
    | .ok true, .ok t => [t]
    | _, _ => [])

/-- The boards the inner loop of `SolveBoard` offers to the cache, in order. -/
def successors (s : Board) : List Board :=
  (List.range s.figures.length).flatMap s.moves

end Board

/-- The entries of the cache after a board `t` reached from `parent` was
offered: `t` is appended with parent `parent` unless it is a key already. -/
def visit (parent : Board) (entries : List (Board × Option Board)) (t : Board) :
    List (Board × Option Board) :=
  if t ∈ entries.map Prod.fst then entries else entries ++ [(t, some parent)]

/-- The variables of `SolveBoard` when the working board is `s` and the cache
has the entries `entries`: `states` lists the keys in the order of insertion. -/
def SolveState.of (s : Board) (entries : List (Board × Option Board)) : SolveState :=
  { board := s, cache := ⟨entries⟩, states := entries.map Prod.fst }

/-- The invariant of the outer loop of `SolveBoard` at cursor `i`, for the
entries `E` of the cache, whose keys in order are the frontier `states`; `d`
gives the number of moves on the parent chain of each key. -/
structure SearchInv (b0 : Board) (i : Nat) (E : List (Board × Option Board))
    (d : Board → Nat) : Prop where
  nodup : (E.map Prod.fst).Nodup
  good : ∀ e ∈ E, Board.Good b0 e.1
  root : E[0]? = some (b0, none)
  droot : d b0 = 0
  parent : ∀ e ∈ E, e = (b0, none) ∨
    ∃ p, e.2 = some p ∧ p ∈ E.map Prod.fst ∧ d e.1 = d p + 1 ∧ Board.Step p e.1
  reach : ∀ e ∈ E, Board.Reach b0 (d e.1) e.1
  sorted : (E.map Prod.fst).Pairwise fun x y => d x ≤ d y
  front : ∀ x, (E.map Prod.fst)[i]? = some x → ∀ e ∈ E, d e.1 ≤ d x + 1
  closed : ∀ j < i, ∀ x, (E.map Prod.fst)[j]? = some x →
    ∀ t, Board.Step x t → t ∈ E.map Prod.fst ∧ d t ≤ d x + 1
  nowin : ∀ j < i, ∀ x, (E.map Prod.fst)[j]? = some x → x.IsWin = .ok false
  cursor : i ≤ E.length
  depth : ∀ j x, (E.map Prod.fst)[j]? = some x → d x ≤ j

/-- What the loop of `BackTrace` prints for the boards `bs` in this order when
its counter starts at `m`. -/
def moveEvents (m : Int) : List Board → List Event
  | [] => []
  | b :: bs => .move (m + 1) b :: moveEvents (m + 1) bs

/-- The parent links of the cache lead from `s` along the boards `l` (starting
with `s` itself) to a board without parent. -/
inductive BoardCache.ParentChain (c : BoardCache) : Board → List Board → Prop where
  | root {s : Board} : c.GetParent s = .ok none → ParentChain c s [s]
  | link {s p : Board} {l : List Board} :
      c.GetParent s = .ok (some p) → ParentChain c p l → ParentChain c s (s :: l)

/-- The flat index of the position of piece `k` of `s`, as a number below `m`. -/
def Board.positionCode (s : Board) (m : Nat) (hm : 0 < m) (k : Nat) : Fin m :=
  match s.figures[k]? with
  | some p => if h : s.index p.headCell < m then ⟨s.index p.headCell, h⟩ else ⟨0, hm⟩
  | none => ⟨0, hm⟩

/-- The number of ways to choose a cell of the grid for each piece of `b`: a
bound on the number of placements of the pieces of `b`. -/
def Board.placements (b : Board) : Nat :=
  (b.width * b.length).toNat ^ b.figures.length

/-- The object `figure1` of `RunTest`: piece A, of length 2, horizontal. -/
def testFigure1 : Figure := ⟨1, 2, .kHorizontal⟩

/-- The object `figure2` of `RunTest`: piece B, of length 3, vertical. -/
def testFigure2 : Figure := ⟨2, 3, .kVertical⟩

/-- The board of `RunTest`: a 4x4 grid, piece A of length 2 horizontal at
`(0,0)` and piece B of length 3 vertical at `(2,0)`. -/
def testBoard : Board :=
  { width := 4, length := 4,
    figures := [⟨testFigure1, 0, 0⟩, ⟨testFigure2, 2, 0⟩],
    figure_by_pos := [some 0, some 0, some 1, none,
                      none, none, some 1, none,
                      none, none, some 1, none,
                      none, none, none, none] }

/-- The construction of the board in `RunTest`. -/
def buildTestBoard : Except Fault Board := do
  let board ← Board.new 4 4
  let board ← board.AddFigure testFigure1 0 0
  board.AddFigure testFigure2 2 0

/-- The board of `RunTest` after `MoveForward(pfig2)`. -/
def testBoardB1 : Board :=
  { width := 4, length := 4,
    figures := [⟨testFigure1, 0, 0⟩, ⟨testFigure2, 2, 1⟩],
    figure_by_pos := [some 0, some 0, none, none,
                      none, none, some 1, none,
                      none, none, some 1, none,
                      none, none, some 1, none] }

/-- The board of `RunTest` after `MoveForward(pfig2)` and `MoveForward(pfig1)`. -/
def testBoardB2 : Board :=
  { width := 4, length := 4,
    figures := [⟨testFigure1, 1, 0⟩, ⟨testFigure2, 2, 1⟩],
    figure_by_pos := [none, some 0, some 0, none,
                      none, none, some 1, none,
                      none, none, some 1, none,
                      none, none, some 1, none] }

/-- The board of `RunTest` with piece A moved to the right edge. -/
def testBoardB3 : Board :=
  { width := 4, length := 4,
    figures := [⟨testFigure1, 2, 0⟩, ⟨testFigure2, 2, 1⟩],
    figure_by_pos := [none, none, some 0, some 0,
                      none, none, some 1, none,
                      none, none, some 1, none,
                      none, none, some 1, none] }

/-- The board of `RunTest` after the first `AddFigure`. -/
def testBoardA : Board :=
  { width := 4, length := 4,
    figures := [⟨testFigure1, 0, 0⟩],
    figure_by_pos := [some 0, some 0, none, none,
                      none, none, none, none,
                      none, none, none, none,
                      none, none, none, none] }

/-- A cache in which the board of `RunTest` is the root and the board after
`MoveForward(pfig2)` was recorded with the root as its parent. -/
def testCache : BoardCache := ⟨[(testBoard, none), (testBoardB1, some testBoard)]⟩

/-- A 3x2 board on which no piece can move: piece A of length 2 horizontal at
`(0,0)`, blocked by piece B of length 2 vertical at `(2,0)`. -/
def lockedBoard : Board :=
  { width := 3, length := 2,
    figures := [⟨⟨1, 2, .kHorizontal⟩, 0, 0⟩, ⟨⟨2, 2, .kVertical⟩, 2, 0⟩],
    figure_by_pos := [some 0, some 0, some 1,
                      none, none, some 1] }

/-- The board `testBoardB3` after `MoveForward(pfig1)`, called although piece A
touches the right edge: A is stored at `(3,0)` and holds the slot of `(0,1)`. -/
def overEdgeBoard : Board :=
  { width := 4, length := 4,
    figures := [⟨testFigure1, 3, 0⟩, ⟨testFigure2, 2, 1⟩],
    figure_by_pos := [none, none, none, some 0,
                      some 0, none, some 1, none,
                      none, none, some 1, none,
                      none, none, some 1, none] }

/-- The triple that `PlacedFigure::operator<` and `PlacedFigure::operator==`
compare: figure identity, `hor_pos`, `vert_pos`. -/
def PlacedFigure.key (p : PlacedFigure) : Nat × Int × Int :=
  (p.figure.addr, p.hor_pos, p.vert_pos)

/-- The lexicographic order on triples (figure identity, `hor_pos`, `vert_pos`). -/
def keyLt (x y : Nat × Int × Int) : Prop :=
  x.1 < y.1 ∨ (x.1 = y.1 ∧ (x.2.1 < y.2.1 ∨ (x.2.1 = y.2.1 ∧ x.2.2 < y.2.2)))

instance : IsStrictTotalOrder (Nat × Int × Int) keyLt where
  trichotomous := by
    rintro ⟨a, b, c⟩ ⟨d, e, f⟩
    simp only [keyLt, Prod.mk.injEq]
    omega
  irrefl := by
    rintro ⟨a, b, c⟩
    simp only [keyLt]
    omega
  trans := by
    rintro ⟨a, b, c⟩ ⟨d, e, f⟩ ⟨g, h, i⟩
    simp only [keyLt]
    omega

/-- The sequence of triples of the pieces of a board. -/
def Board.keys (b : Board) : List (Nat × Int × Int) := b.figures.map PlacedFigure.key

/-- The boards `a` and `b` hold the same number of pieces, with the same figure
identity at each index. -/
def Board.SameIdentity (a b : Board) : Prop :=
  a.figures.map (fun p => p.figure.addr) = b.figures.map (fun p => p.figure.addr)

instance (a b : Board) : Decidable (a.SameIdentity b) := by
  unfold Board.SameIdentity; infer_instance

/-- Every cell of every piece lies inside the grid. -/
def Board.CellsInGrid (b : Board) : Prop := ∀ p ∈ b.figures, ∀ c ∈ p.cells, b.InGrid c

instance (b : Board) : Decidable b.CellsInGrid := by
  unfold Board.CellsInGrid; infer_instance

/-- The call `MoveForward(k)` with its precondition checked first: a call made
when `CanMoveForward(k)` does not hold is a failed assertion. -/
def Board.MoveForwardChecked (b : Board) (k : Nat) : Except Fault Board := do
  if ← b.CanMoveForward k then b.MoveForward k else throw .assertion

/-- The call `MoveBack(k)` with its precondition checked first: a call made
when `CanMoveBack(k)` does not hold is a failed assertion. -/
def Board.MoveBackChecked (b : Board) (k : Nat) : Except Fault Board := do
  if ← b.CanMoveBack k then b.MoveBack k else throw .assertion

/-- The body of the inner loop of `SolveBoard` in which each of the four move
calls, the two undo calls included, checks its precondition. -/
def expandFigureChecked (parent : Board) (st : SolveState) (k : Nat) :
    Except Fault SolveState := do
  let st ← (do
    if ← st.board.CanMoveForward k then
      let b ← st.board.MoveForwardChecked k
      let st ← recordBoard parent { st with board := b }
      let b ← st.board.MoveBackChecked k
      pure { st with board := b }
    else pure st)
  if ← st.board.CanMoveBack k then
    let b ← st.board.MoveBackChecked k
    let st ← recordBoard parent { st with board := b }
    let b ← st.board.MoveForwardChecked k
    pure { st with board := b }
  else pure st

/-- The inner loop of `SolveBoard` with checked move calls. -/
def expandBoardChecked (parent : Board) (st : SolveState) : Except Fault SolveState :=
  (List.range st.board.figures.length).foldlM (expandFigureChecked parent) st

/-- The outer loop of `SolveBoard` with checked move calls. -/
def solveLoopChecked (limit : Nat) :
    Nat → Nat → SolveState → Except Fault (SolveState × List Event)
  | 0, _, _ => .error .fuel
  | fuel + 1, i, st =>
    match st.states[i]? with
    | none => .ok (st, [])
    | some s => do
      let board ← st.board.assign s
      let st := { st with board := board }
      if ← st.board.IsWin then
        let out ← st.cache.BackTrace limit st.board
        pure (st, out ++ [.solved i])
      else
        let parent ← st.cache.GetBoardRef st.board
        let st ← expandBoardChecked parent st
        solveLoopChecked limit fuel (i + 1) st

/-- The statements of `SolveBoard` up to its closing brace, with checked move
calls: they run as `SolveBoardBody` does, except that a `MoveForward` or
`MoveBack` call made in a state where the matching `CanMove*` does not hold
stops the run with a failed assertion. -/
def SolveBoardBodyChecked (fuel : Nat) (board : Board) :
    Except Fault (SolveState × List Event) := do
  let cache ← BoardCache.new.AddBoard board none
  let snapshot ← board.copy
  solveLoopChecked fuel fuel 0 { board := board, cache := cache, states := [snapshot] }

end Park

namespace Park

/-! ## Footprints and cell indices -/

theorem mem_cells_mk (p : PlacedFigure) (a b : Int) :
    (a, b) ∈ p.cells ↔
      if p.figure.orient = .kHorizontal then
        b = p.vert_pos ∧ p.hor_pos ≤ a ∧ a < p.hor_pos + p.figure.length
      else
        a = p.hor_pos ∧ p.vert_pos ≤ b ∧ b < p.vert_pos + p.figure.length := by
  simp only [PlacedFigure.cells, footprint, List.mem_map, List.mem_range]
  by_cases ho : p.figure.orient = .kHorizontal
  · simp only [ho, if_true, Prod.mk.injEq]
    constructor
    · rintro ⟨i, hi, h⟩
      omega
    · rintro ⟨h1, h2, h3⟩
      exact ⟨(a - p.hor_pos).toNat, by omega, by omega, by omega⟩
  · simp only [ho, if_false, Prod.mk.injEq]
    constructor
    · rintro ⟨i, hi, h⟩
      omega
    · rintro ⟨h1, h2, h3⟩
      exact ⟨(b - p.vert_pos).toNat, by omega, by omega, by omega⟩

theorem mem_cells_iff (p : PlacedFigure) (c : Int × Int) :
    c ∈ p.cells ↔
      if p.figure.orient = .kHorizontal then
        c.2 = p.vert_pos ∧ p.hor_pos ≤ c.1 ∧ c.1 < p.hor_pos + p.figure.length
      else
        c.1 = p.hor_pos ∧ p.vert_pos ≤ c.2 ∧ c.2 < p.vert_pos + p.figure.length :=
  mem_cells_mk p c.1 c.2

namespace Board

/-- The flat index of a cell of the grid is inside the occupancy index. -/
theorem index_range {b : Board} {c : Int × Int} (hc : b.InGrid c) :
    0 ≤ c.2 * b.width + c.1 ∧ c.2 * b.width + c.1 < b.width * b.length := by
  obtain ⟨h1, h2, h3, h4⟩ := hc
  have hw : 0 < b.width := by omega
  constructor
  · have := mul_nonneg h3 hw.le
    omega
  · have h5 : c.2 + 1 ≤ b.length := by omega
    have := mul_le_mul_of_nonneg_right h5 hw.le
    nlinarith

/-- Distinct cells of the grid have distinct flat indices. -/
theorem index_inj {b : Board} {c d : Int × Int} (hc : b.InGrid c) (hd : b.InGrid d)
    (h : c.2 * b.width + c.1 = d.2 * b.width + d.1) : c = d := by
  obtain ⟨h1, h2, h3, h4⟩ := hc
  obtain ⟨g1, g2, g3, g4⟩ := hd
  have hw : 0 < b.width := by omega
  have e1 : (c.2 * b.width + c.1) / b.width = c.2 := by
    rw [add_comm, Int.add_mul_ediv_right _ _ hw.ne.symm, Int.ediv_eq_zero_of_lt h1 h2]; simp
  have e2 : (d.2 * b.width + d.1) / b.width = d.2 := by
    rw [add_comm, Int.add_mul_ediv_right _ _ hw.ne.symm, Int.ediv_eq_zero_of_lt g1 g2]; simp
  have e3 : c.2 = d.2 := by rw [← e1, ← e2, h]
  rw [e3] at h
  exact Prod.ext (by omega) e3

theorem GetFigureAtPos_inGrid {b : Board}
    (hlen : b.figure_by_pos.length = (b.width * b.length).toNat) {h v : Int}
    (hc : b.InGrid (h, v)) : b.GetFigureAtPos h v = .ok (b.slot (h, v)) := by
  obtain ⟨h1, h2⟩ := index_range hc
  simp only at h1 h2
  have h3 : v * b.width + h < (b.figure_by_pos.length : Int) := by
    rw [hlen]; omega
  simp only [GetFigureAtPos, slot, h1, h3, and_self, if_true]

theorem Consistent.consistentAt {b : Board} (hb : b.Consistent) {c : Int × Int}
    (hc : b.InGrid c) : b.ConsistentAt c := by
  obtain ⟨h1, h2, h3, h4⟩ := hc
  have := hb.2 c.1.toNat (by omega) c.2.toNat (by omega)
  rwa [Int.toNat_of_nonneg h1, Int.toNat_of_nonneg h3] at this

theorem Consistent.slot_eq_some {b : Board} (hb : b.Consistent) {c : Int × Int}
    (hc : b.InGrid c) (k : Nat) :
    b.slot c = some k ↔ ∃ p, b.figures[k]? = some p ∧ c ∈ p.cells := by
  obtain ⟨h1, h2⟩ := hb.consistentAt hc
  constructor
  · intro h
    have hk := h1 k (by simp [h])
    simpa using (h2 k hk).1 h
  · rintro ⟨p, hp, hcp⟩
    have hk : k < b.figures.length := (List.getElem?_eq_some_iff.1 hp).1
    exact (h2 k hk).2 ⟨p, by simpa using hp, hcp⟩

theorem Consistent.slot_eq_none {b : Board} (hb : b.Consistent) {c : Int × Int}
    (hc : b.InGrid c) : b.slot c = none ↔ b.Free c := by
  constructor
  · intro h q hq hcq
    obtain ⟨k, hk, rfl⟩ := List.getElem_of_mem hq
    have := (hb.slot_eq_some hc k).2 ⟨_, List.getElem?_eq_getElem hk, hcq⟩
    rw [h] at this
    cases this
  · intro h
    cases hs : b.slot c with
    | none => rfl
    | some k =>
      obtain ⟨p, hp, hcp⟩ := (hb.slot_eq_some hc k).1 hs
      exact absurd hcp (h p (List.getElem?_mem hp))

theorem PiecesInGrid.bounds {b : Board} (hb : b.PiecesInGrid) {p : PlacedFigure}
    (hp : p ∈ b.figures) :
    1 ≤ p.figure.length ∧ 0 ≤ p.hor_pos ∧ 0 ≤ p.vert_pos ∧
      (if p.figure.orient = .kHorizontal then
        p.hor_pos + p.figure.length ≤ b.width ∧ p.vert_pos < b.length
      else p.hor_pos < b.width ∧ p.vert_pos + p.figure.length ≤ b.length) := by
  obtain ⟨h1, h2⟩ := hb p hp
  by_cases ho : p.figure.orient = .kHorizontal
  · have a1 := h2 (p.hor_pos, p.vert_pos) (by rw [mem_cells_mk, if_pos ho]; omega)
    have a2 := h2 (p.hor_pos + p.figure.length - 1, p.vert_pos)
      (by rw [mem_cells_mk, if_pos ho]; omega)
    simp only [InGrid] at a1 a2
    simp only [ho, if_true]
    omega
  · have a1 := h2 (p.hor_pos, p.vert_pos) (by rw [mem_cells_mk, if_neg ho]; omega)
    have a2 := h2 (p.hor_pos, p.vert_pos + p.figure.length - 1)
      (by rw [mem_cells_mk, if_neg ho]; omega)
    simp only [InGrid] at a1 a2
    simp only [ho, if_false]
    omega

/-- On a board with a consistent index and pieces inside the grid,
`CanMoveForward` tests the cell ahead of the piece. -/
theorem CanMoveForward_eq {b : Board} (hg : b.PiecesInGrid) (hc : b.Consistent) {k : Nat}
    {p : PlacedFigure} (hp : b.figures[k]? = some p) :
    b.CanMoveForward k =
      .ok (decide (b.InGrid p.cellAhead) && (b.slot p.cellAhead).isNone) := by
  have hb := hg.bounds (List.getElem?_mem hp)
  unfold CanMoveForward
  rw [hp]
  by_cases ho : p.figure.orient = .kHorizontal
  · simp only [ho, if_true, PlacedFigure.cellAhead] at hb ⊢
    by_cases hw : p.hor_pos + p.figure.length ≥ b.width
    · have : ¬ b.InGrid (p.hor_pos + p.figure.length, p.vert_pos) := by
        simp only [InGrid]; omega
      simp [hw, this]
    · have hin : b.InGrid (p.hor_pos + p.figure.length, p.vert_pos) := by
        simp only [InGrid]; omega
      rw [if_neg hw, GetFigureAtPos_inGrid hc.1 hin]
      simp [hin]
  · simp only [ho, if_false, PlacedFigure.cellAhead] at hb ⊢
    by_cases hw : p.vert_pos + p.figure.length ≥ b.length
    · have : ¬ b.InGrid (p.hor_pos, p.vert_pos + p.figure.length) := by
        simp only [InGrid]; omega
      simp [hw, this]
    · have hin : b.InGrid (p.hor_pos, p.vert_pos + p.figure.length) := by
        simp only [InGrid]; omega
      rw [if_neg hw, GetFigureAtPos_inGrid hc.1 hin]
      simp [hin]

/-- On a board with a consistent index and pieces inside the grid,
`CanMoveBack` tests the cell behind the piece. -/
theorem CanMoveBack_eq {b : Board} (hg : b.PiecesInGrid) (hc : b.Consistent) {k : Nat}
    {p : PlacedFigure} (hp : b.figures[k]? = some p) :
    b.CanMoveBack k =
      .ok (decide (b.InGrid p.cellBehind) && (b.slot p.cellBehind).isNone) := by
  have hb := hg.bounds (List.getElem?_mem hp)
  unfold CanMoveBack
  rw [hp]
  by_cases ho : p.figure.orient = .kHorizontal
  · simp only [ho, if_true, PlacedFigure.cellBehind] at hb ⊢
    by_cases hw : p.hor_pos = 0
    · have : ¬ b.InGrid (p.hor_pos - 1, p.vert_pos) := by
        simp only [InGrid]; omega
      rw [if_pos hw]
      simp [this]
    · have hin : b.InGrid (p.hor_pos - 1, p.vert_pos) := by
        simp only [InGrid]; omega
      rw [if_neg hw, GetFigureAtPos_inGrid hc.1 hin]
      simp [hin]
  · simp only [ho, if_false, PlacedFigure.cellBehind] at hb ⊢
    by_cases hw : p.vert_pos = 0
    · have : ¬ b.InGrid (p.hor_pos, p.vert_pos - 1) := by
        simp only [InGrid]; omega
      rw [if_pos hw]
      simp [this]
    · have hin : b.InGrid (p.hor_pos, p.vert_pos - 1) := by
        simp only [InGrid]; omega
      rw [if_neg hw, GetFigureAtPos_inGrid hc.1 hin]
      simp [hin]

/-! ## Moving a piece -/

theorem SetFigureAtPos_none {b : Board}
    (hlen : b.figure_by_pos.length = (b.width * b.length).toNat) {h v : Int}
    (hc : b.InGrid (h, v)) :
    b.SetFigureAtPos none h v =
      .ok { b with figure_by_pos := b.figure_by_pos.set (b.index (h, v)) none } := by
  obtain ⟨h1, h2⟩ := index_range hc
  simp only at h1 h2
  have h3 : v * b.width + h < (b.figure_by_pos.length : Int) := by
    rw [hlen]; omega
  simp [SetFigureAtPos, index, h1, h3, bind, Except.bind, pure, Except.pure]

theorem SetFigureAtPos_some {b : Board}
    (hlen : b.figure_by_pos.length = (b.width * b.length).toNat) {h v : Int}
    (hc : b.InGrid (h, v)) (k : Nat) :
    b.SetFigureAtPos (some k) h v =
      if (b.slot (h, v)).isSome then .error .assertion
      else .ok { b with figure_by_pos := b.figure_by_pos.set (b.index (h, v)) (some k) } := by
  obtain ⟨h1, h2⟩ := index_range hc
  simp only at h1 h2
  have h3 : v * b.width + h < (b.figure_by_pos.length : Int) := by
    rw [hlen]; omega
  simp only [SetFigureAtPos, GetFigureAtPos_inGrid hlen hc, index, h1, h3, bind, Except.bind,
    pure, Except.pure, Option.isSome_some, if_true, and_self]

theorem index_lt {b : Board} (hlen : b.figure_by_pos.length = (b.width * b.length).toNat)
    {c : Int × Int} (hc : b.InGrid c) : b.index c < b.figure_by_pos.length := by
  obtain ⟨h1, h2⟩ := index_range hc
  rw [hlen, index]
  omega

theorem index_ne {b : Board} {c d : Int × Int} (hc : b.InGrid c) (hd : b.InGrid d)
    (h : c ≠ d) : b.index c ≠ b.index d := by
  intro e
  apply h
  apply index_inj hc hd
  have h1 := (index_range hc).1
  have h2 := (index_range hd).1
  simp only [index] at e
  omega

theorem slot_eq_getElem? (b : Board) (c : Int × Int) :
    b.slot c = (b.figure_by_pos[b.index c]?).getD none := by
  simp [slot, index, List.getD_eq_getElem?_getD]

/-- The slots of a relocated board. -/
theorem relocate_slot {b : Board}
    (hlen : b.figure_by_pos.length = (b.width * b.length).toNat) (k : Nat)
    {old new c : Int × Int} (ho : b.InGrid old) (hn : b.InGrid new) (hc : b.InGrid c)
    (p : PlacedFigure) :
    (b.relocate k old new p).slot c =
      if c = new then some k else if c = old then none else b.slot c := by
  have e1 : (b.relocate k old new p).index c = b.index c := rfl
  have lo := index_lt hlen ho
  have ln := index_lt hlen hn
  rw [slot_eq_getElem?, e1, slot_eq_getElem?]
  simp only [relocate, List.getElem?_set, List.length_set]
  by_cases h1 : c = new
  · subst h1; simp [ln]
  · have := index_ne hc hn h1
    rw [if_neg (Ne.symm this), if_neg h1]
    by_cases h2 : c = old
    · subst h2; simp [lo]
    · have := index_ne hc ho h2
      rw [if_neg (Ne.symm this), if_neg h2]

/-- Clearing the slot of `old` and then marking the slot of `new`, as both
moves do. -/
theorem clear_then_mark {b : Board}
    (hlen : b.figure_by_pos.length = (b.width * b.length).toNat) (k : Nat)
    {old new : Int × Int} (ho : b.InGrid old) (hn : b.InGrid new)
    (so : b.slot old = some k) (sn : b.slot new = none) :
    (b.SetFigureAtPos none old.1 old.2 >>= fun b1 => b1.SetFigureAtPos (some k) new.1 new.2) =
      .ok { b with figure_by_pos :=
              (b.figure_by_pos.set (b.index old) none).set (b.index new) (some k) } := by
  have hne : new ≠ old := by
    rintro rfl; rw [so] at sn; cases sn
  rw [SetFigureAtPos_none hlen ho]
  simp only [bind, Except.bind]
  have hlen1 : (b.figure_by_pos.set (b.index old) none).length = (b.width * b.length).toNat := by
    rw [List.length_set, hlen]
  rw [SetFigureAtPos_some (b := { b with figure_by_pos := b.figure_by_pos.set (b.index old) none })
    hlen1 hn k]
  have : (slot { b with figure_by_pos := b.figure_by_pos.set (b.index old) none } new) = none := by
    have e : index { b with figure_by_pos := b.figure_by_pos.set (b.index old) none } new
        = b.index new := rfl
    rw [slot_eq_getElem?, e]
    simp only [List.getElem?_set]
    rw [if_neg (Ne.symm (index_ne hn ho hne)), ← slot_eq_getElem?, sn]
  rw [this]
  rfl

theorem MoveForward_of_slots {b : Board}
    (hlen : b.figure_by_pos.length = (b.width * b.length).toNat) {k : Nat} {p : PlacedFigure}
    (hp : b.figures[k]? = some p) (hh : b.InGrid p.headCell) (ha : b.InGrid p.cellAhead)
    (sh : b.slot p.headCell = some k) (sa : b.slot p.cellAhead = none) :
    b.MoveForward k = .ok (b.relocate k p.headCell p.cellAhead p.forward) := by
  have key := clear_then_mark hlen k hh ha sh sa
  unfold MoveForward
  rw [hp]
  simp only [PlacedFigure.headCell] at hh sh key
  simp only [GetFigureAtPos_inGrid hlen hh, sh, bind, Except.bind, ne_eq, not_true_eq_false,
    if_false, pure, Except.pure] at key ⊢
  by_cases ho : p.figure.orient = .kHorizontal
  · simp only [PlacedFigure.cellAhead, ho, if_true] at key ha sa ⊢
    cases h1 : b.SetFigureAtPos none p.hor_pos p.vert_pos with
    | error e => rw [h1] at key; cases key
    | ok b1 =>
      rw [h1] at key
      simp only at key ⊢
      rw [key]
      simp [relocate, moveFigureTo, PlacedFigure.forward, ho, PlacedFigure.headCell]
  · simp only [PlacedFigure.cellAhead, ho, if_false] at key ha sa ⊢
    cases h1 : b.SetFigureAtPos none p.hor_pos p.vert_pos with
    | error e => rw [h1] at key; cases key
    | ok b1 =>
      rw [h1] at key
      simp only at key ⊢
      rw [key]
      simp [relocate, moveFigureTo, PlacedFigure.forward, ho, PlacedFigure.headCell]

theorem MoveBack_of_slots {b : Board}
    (hlen : b.figure_by_pos.length = (b.width * b.length).toNat) {k : Nat} {p : PlacedFigure}
    (hp : b.figures[k]? = some p) (ht : b.InGrid p.tailCell) (hb : b.InGrid p.cellBehind)
    (st : b.slot p.tailCell = some k) (sb : b.slot p.cellBehind = none) :
    b.MoveBack k = .ok (b.relocate k p.tailCell p.cellBehind p.back) := by
  have key := clear_then_mark hlen k ht hb st sb
  unfold MoveBack
  rw [hp]
  by_cases ho : p.figure.orient = .kHorizontal
  · simp only [PlacedFigure.tailCell, PlacedFigure.cellBehind, ho, if_true] at key ht hb st sb ⊢
    simp only [GetFigureAtPos_inGrid hlen ht, st, bind, Except.bind, ne_eq, not_true_eq_false,
      if_false, pure, Except.pure] at key ⊢
    cases h1 : b.SetFigureAtPos none (p.hor_pos + p.figure.length - 1) p.vert_pos with
    | error e => rw [h1] at key; cases key
    | ok b1 =>
      rw [h1] at key
      simp only at key ⊢
      rw [key]
      simp [relocate, moveFigureTo, PlacedFigure.back, ho, PlacedFigure.tailCell,
        PlacedFigure.cellBehind]
  · simp only [PlacedFigure.tailCell, PlacedFigure.cellBehind, ho, if_false] at key ht hb st sb ⊢
    simp only [GetFigureAtPos_inGrid hlen ht, st, bind, Except.bind, ne_eq, not_true_eq_false,
      if_false, pure, Except.pure] at key ⊢
    cases h1 : b.SetFigureAtPos none p.hor_pos (p.vert_pos + p.figure.length - 1) with
    | error e => rw [h1] at key; cases key
    | ok b1 =>
      rw [h1] at key
      simp only at key ⊢
      rw [key]
      simp [relocate, moveFigureTo, PlacedFigure.back, ho, PlacedFigure.tailCell,
        PlacedFigure.cellBehind]

/-! ## Well-formedness is preserved by relocation -/

theorem consistent_iff (b : Board) :
    b.Consistent ↔ b.figure_by_pos.length = (b.width * b.length).toNat ∧
      ∀ c, b.InGrid c → b.ConsistentAt c := by
  constructor
  · intro h
    exact ⟨h.1, fun c hc => h.consistentAt hc⟩
  · rintro ⟨h1, h2⟩
    refine ⟨h1, fun x hx y hy => h2 _ ?_⟩
    simp only [InGrid]
    omega

/-- Pieces of a board with a consistent index do not overlap. -/
theorem Consistent.cells_disjoint {b : Board} (hg : b.PiecesInGrid) (hc : b.Consistent)
    {i j : Nat} {p q : PlacedFigure} (hp : b.figures[i]? = some p) (hq : b.figures[j]? = some q)
    {c : Int × Int} (h1 : c ∈ p.cells) (h2 : c ∈ q.cells) : i = j := by
  have hin : b.InGrid c := (hg p (List.getElem?_mem hp)).2 c h1
  have e1 := (hc.slot_eq_some hin i).2 ⟨p, hp, h1⟩
  have e2 := (hc.slot_eq_some hin j).2 ⟨q, hq, h2⟩
  rw [e1] at e2
  exact Option.some.inj e2

theorem Consistent.noOverlap {b : Board} (hg : b.PiecesInGrid) (hc : b.Consistent) :
    b.NoOverlap := by
  rw [NoOverlap, List.pairwise_iff_getElem]
  intro i j hi hj hij c h1 h2
  have := hc.cells_disjoint hg (List.getElem?_eq_getElem hi) (List.getElem?_eq_getElem hj) h1 h2
  omega

theorem relocate_piecesInGrid {b : Board} (hg : b.PiecesInGrid) {k : Nat}
    {p q : PlacedFigure} (hp : b.figures[k]? = some p) (hfig : q.figure = p.figure)
    {old new : Int × Int} (hn : b.InGrid new)
    (hcells : ∀ c, c ∈ q.cells ↔ (c ∈ p.cells ∧ c ≠ old) ∨ c = new) :
    (b.relocate k old new q).PiecesInGrid := by
  intro r hr
  rcases List.mem_or_eq_of_mem_set hr with h | h
  · exact hg r h
  · subst h
    obtain ⟨h1, h2⟩ := hg p (List.getElem?_mem hp)
    refine ⟨by rw [hfig]; exact h1, fun c hc => ?_⟩
    rcases (hcells c).1 hc with ⟨h3, _⟩ | h3
    · exact h2 c h3
    · subst h3; exact hn

theorem relocate_consistent {b : Board} (hg : b.PiecesInGrid) (hc : b.Consistent) {k : Nat}
    {p q : PlacedFigure} (hp : b.figures[k]? = some p)
    {old new : Int × Int} (ho : old ∈ p.cells) (hn : b.InGrid new) (hfree : b.Free new)
    (hcells : ∀ c, c ∈ q.cells ↔ (c ∈ p.cells ∧ c ≠ old) ∨ c = new) :
    (b.relocate k old new q).Consistent := by
  have hk : k < b.figures.length := (List.getElem?_eq_some_iff.1 hp).1
  have hoin : b.InGrid old := (hg p (List.getElem?_mem hp)).2 old ho
  have hone : old ≠ new := by
    rintro rfl; exact hfree p (List.getElem?_mem hp) ho
  have sold : b.slot old = some k := (hc.slot_eq_some hoin k).2 ⟨p, hp, ho⟩
  rw [consistent_iff]
  refine ⟨by simp only [relocate, List.length_set]; exact hc.1, fun c hcin => ?_⟩
  have hcin0 : b.InGrid c := hcin
  have hs := relocate_slot hc.1 k hoin hn hcin0 q
  have hfigs : ∀ j, (b.relocate k old new q).figures[j]? =
      if k = j then some q else b.figures[j]? := by
    intro j
    simp only [relocate, List.getElem?_set, hk, if_true]
  refine ⟨?_, ?_⟩
  · intro j hj
    rw [hs] at hj
    simp only [relocate, List.length_set]
    by_cases h1 : c = new
    · rw [if_pos h1] at hj; cases hj; exact hk
    · rw [if_neg h1] at hj
      by_cases h2 : c = old
      · rw [if_pos h2] at hj; cases hj
      · rw [if_neg h2] at hj
        exact (hc.consistentAt hcin0).1 j hj
  · intro j _
    rw [hs, hfigs]
    simp only [Option.mem_def]
    by_cases hjk : k = j
    · subst hjk
      simp only [if_true, Option.some.injEq, exists_eq_left']
      rw [hcells]
      by_cases h1 : c = new
      · simp [h1]
      · simp only [if_neg h1, h1, or_false]
        by_cases h2 : c = old
        · simp [h2]
        · simp only [h2, ne_eq, not_false_eq_true, and_true, if_false]
          rw [hc.slot_eq_some hcin0 k]
          simp [hp]
    · simp only [if_neg hjk]
      by_cases h1 : c = new
      · subst h1
        simp only [if_true, Option.some.injEq, hjk, false_iff, not_exists, not_and]
        intro r hr
        exact hfree r (List.getElem?_mem hr)
      · rw [if_neg h1]
        by_cases h2 : c = old
        · subst h2
          rw [if_pos rfl]
          constructor
          · intro h; cases h
          · rintro ⟨r, hr, hcr⟩
            exact absurd (hc.cells_disjoint hg hp hr ho hcr) hjk
        · rw [if_neg h2]
          exact hc.slot_eq_some hcin0 j

theorem relocate_firstHorizontal {b : Board} (hf : b.FirstHorizontal) {k : Nat}
    {p q : PlacedFigure} (hp : b.figures[k]? = some p) (hfig : q.figure = p.figure)
    (old new : Int × Int) : (b.relocate k old new q).FirstHorizontal := by
  have hk : k < b.figures.length := (List.getElem?_eq_some_iff.1 hp).1
  obtain ⟨r, hr, hor⟩ := hf
  simp only [FirstHorizontal, relocate, List.getElem?_set, hk, if_true, Option.mem_def] at hr ⊢
  by_cases h0 : k = 0
  · subst h0
    rw [hp] at hr
    cases hr
    exact ⟨q, by simp, by rw [hfig]; exact hor⟩
  · exact ⟨r, by simp [h0, hr], hor⟩

theorem relocate_wellFormed {b : Board} (hwf : b.WellFormed) {k : Nat}
    {p q : PlacedFigure} (hp : b.figures[k]? = some p) (hfig : q.figure = p.figure)
    {old new : Int × Int} (ho : old ∈ p.cells) (hn : b.InGrid new) (hfree : b.Free new)
    (hcells : ∀ c, c ∈ q.cells ↔ (c ∈ p.cells ∧ c ≠ old) ∨ c = new) :
    (b.relocate k old new q).WellFormed := by
  obtain ⟨hg, _, hc, hf⟩ := hwf
  have hg1 := relocate_piecesInGrid hg hp hfig hn hcells
  have hc1 := relocate_consistent hg hc hp ho hn hfree hcells
  exact ⟨hg1, hc1.noOverlap hg1, hc1, relocate_firstHorizontal hf hp hfig old new⟩

/-- Relocating a piece and relocating it back restores the board. -/
theorem relocate_relocate {b : Board}
    (hlen : b.figure_by_pos.length = (b.width * b.length).toNat) {k : Nat}
    {p : PlacedFigure} (hp : b.figures[k]? = some p) (q : PlacedFigure)
    {old new : Int × Int} (ho : b.InGrid old) (hn : b.InGrid new)
    (so : b.slot old = some k) (sn : b.slot new = none) :
    (b.relocate k old new q).relocate k new old p = b := by
  have hk : k < b.figures.length := (List.getElem?_eq_some_iff.1 hp).1
  have hne : new ≠ old := by
    rintro rfl; rw [so] at sn; cases sn
  have hi := index_ne hn ho hne
  have lo := index_lt hlen ho
  have ln := index_lt hlen hn
  have e1 : ∀ c, (b.relocate k old new q).index c = b.index c := fun _ => rfl
  rw [slot_eq_getElem?] at so sn
  simp only [relocate, index] at *
  cases b with
  | mk w l figs fbp =>
    simp only [Board.mk.injEq, true_and] at *
    constructor
    · rw [List.set_set]
      apply List.ext_getElem? 
      intro j
      rw [List.getElem?_set]
      by_cases hj : k = j
      · subst hj; simp [hk, hp]
      · simp [hj]
    · apply List.ext_getElem?
      intro j
      simp only [List.getElem?_set, List.length_set]
      by_cases h1 : (old.2 * w + old.1).toNat = j
      · subst h1
        rw [if_pos rfl, if_pos lo]
        rw [List.getElem?_eq_getElem lo] at so ⊢
        simpa using so.symm
      · rw [if_neg h1]
        by_cases h2 : (new.2 * w + new.1).toNat = j
        · subst h2
          rw [if_pos rfl, if_pos ln]
          rw [List.getElem?_eq_getElem ln] at sn ⊢
          simpa using sn.symm
        · rw [if_neg h2, if_neg h2, if_neg h1]

end Board

/-! ## The cells of a piece before and after a move -/

namespace PlacedFigure

theorem forward_figure (p : PlacedFigure) : p.forward.figure = p.figure := by
  unfold forward; split <;> rfl

theorem back_figure (p : PlacedFigure) : p.back.figure = p.figure := by
  unfold back; split <;> rfl

theorem forward_back (p : PlacedFigure) : p.forward.back = p := by
  cases p with
  | mk f h v =>
    by_cases ho : f.orient = .kHorizontal <;> simp [forward, back, MoveTo, ho]

theorem back_forward (p : PlacedFigure) : p.back.forward = p := by
  cases p with
  | mk f h v =>
    by_cases ho : f.orient = .kHorizontal <;> simp [forward, back, MoveTo, ho]

theorem tailCell_forward (p : PlacedFigure) : p.forward.tailCell = p.cellAhead := by
  cases p with
  | mk f h v =>
    by_cases ho : f.orient = .kHorizontal <;>
      simp [forward, tailCell, cellAhead, MoveTo, ho] <;> omega

theorem cellBehind_forward (p : PlacedFigure) : p.forward.cellBehind = p.headCell := by
  cases p with
  | mk f h v =>
    by_cases ho : f.orient = .kHorizontal <;>
      simp [forward, cellBehind, headCell, MoveTo, ho]

theorem headCell_back (p : PlacedFigure) : p.back.headCell = p.cellBehind := by
  cases p with
  | mk f h v =>
    by_cases ho : f.orient = .kHorizontal <;>
      simp [back, cellBehind, headCell, MoveTo, ho]

theorem cellAhead_back (p : PlacedFigure) : p.back.cellAhead = p.tailCell := by
  cases p with
  | mk f h v =>
    by_cases ho : f.orient = .kHorizontal <;>
      simp [back, tailCell, cellAhead, MoveTo, ho] <;> omega

theorem headCell_mem {p : PlacedFigure} (h : 1 ≤ p.figure.length) : p.headCell ∈ p.cells := by
  rw [headCell, mem_cells_mk]
  split <;> omega

theorem tailCell_mem {p : PlacedFigure} (h : 1 ≤ p.figure.length) : p.tailCell ∈ p.cells := by
  by_cases ho : p.figure.orient = .kHorizontal
  · rw [tailCell, if_pos ho, mem_cells_mk, if_pos ho]; omega
  · rw [tailCell, if_neg ho, mem_cells_mk, if_neg ho]; omega

theorem cells_forward {p : PlacedFigure} (h : 1 ≤ p.figure.length) (c : Int × Int) :
    c ∈ p.forward.cells ↔ (c ∈ p.cells ∧ c ≠ p.headCell) ∨ c = p.cellAhead := by
  obtain ⟨a, b⟩ := c
  cases p with
  | mk f x y =>
    simp only at h
    by_cases ho : f.orient = .kHorizontal
    · simp only [mem_cells_mk, forward, MoveTo, headCell, cellAhead, ho, if_true, ne_eq,
        Prod.mk.injEq]
      omega
    · simp only [mem_cells_mk, forward, MoveTo, headCell, cellAhead, ho, if_false, ne_eq,
        Prod.mk.injEq]
      omega

theorem cells_back {p : PlacedFigure} (h : 1 ≤ p.figure.length) (c : Int × Int) :
    c ∈ p.back.cells ↔ (c ∈ p.cells ∧ c ≠ p.tailCell) ∨ c = p.cellBehind := by
  obtain ⟨a, b⟩ := c
  cases p with
  | mk f x y =>
    simp only at h
    by_cases ho : f.orient = .kHorizontal
    · simp only [mem_cells_mk, back, MoveTo, tailCell, cellBehind, ho, if_true, ne_eq,
        Prod.mk.injEq]
      omega
    · simp only [mem_cells_mk, back, MoveTo, tailCell, cellBehind, ho, if_false, ne_eq,
        Prod.mk.injEq]
      omega

end PlacedFigure

namespace Board

theorem sameShape_relocate (b : Board) {k : Nat} {p q : PlacedFigure}
    (hp : b.figures[k]? = some p) (hfig : q.figure = p.figure) (old new : Int × Int) :
    SameShape b (b.relocate k old new q) := by
  refine ⟨rfl, rfl, ?_⟩
  simp only [relocate, List.map_set]
  apply List.ext_getElem?
  intro j
  rw [List.getElem?_set]
  by_cases hj : k = j
  · subst hj
    obtain ⟨hk, e⟩ := List.getElem?_eq_some_iff.1 hp
    simp [hfig, hk, e]
  · rw [if_neg hj]

/-- What `MoveForward` does on a well-formed board when `CanMoveForward` holds. -/
theorem forward_facts {b : Board} (hwf : b.WellFormed) {k : Nat} {p : PlacedFigure}
    (hp : b.figures[k]? = some p) (hcan : b.CanMoveForward k = .ok true) :
    b.MoveForward k = .ok (b.relocate k p.headCell p.cellAhead p.forward) ∧
    (b.relocate k p.headCell p.cellAhead p.forward).WellFormed ∧
    (b.relocate k p.headCell p.cellAhead p.forward).CanMoveBack k = .ok true ∧
    (b.relocate k p.headCell p.cellAhead p.forward).MoveBack k = .ok b := by
  obtain ⟨hg, hno, hc, hf⟩ := hwf
  have hk : k < b.figures.length := (List.getElem?_eq_some_iff.1 hp).1
  obtain ⟨hl, hcells⟩ := hg p (List.getElem?_mem hp)
  rw [CanMoveForward_eq hg hc hp] at hcan
  simp only [Except.ok.injEq, Bool.and_eq_true, decide_eq_true_eq, Option.isNone_iff_eq_none]
    at hcan
  obtain ⟨ha, sa⟩ := hcan
  have hh : b.InGrid p.headCell := hcells _ (PlacedFigure.headCell_mem hl)
  have sh : b.slot p.headCell = some k :=
    (hc.slot_eq_some hh k).2 ⟨p, hp, PlacedFigure.headCell_mem hl⟩
  have hne : p.headCell ≠ p.cellAhead := by
    intro e; rw [e, sa] at sh; cases sh
  have hwf1 : (b.relocate k p.headCell p.cellAhead p.forward).WellFormed :=
    relocate_wellFormed ⟨hg, hno, hc, hf⟩ hp p.forward_figure (PlacedFigure.headCell_mem hl) ha
      ((hc.slot_eq_none ha).1 sa) (PlacedFigure.cells_forward hl)
  have hp1 : (b.relocate k p.headCell p.cellAhead p.forward).figures[k]? = some p.forward := by
    simp [relocate, hk]
  have s1 : (b.relocate k p.headCell p.cellAhead p.forward).slot p.forward.tailCell = some k := by
    rw [PlacedFigure.tailCell_forward, relocate_slot hc.1 k hh ha ha, if_pos rfl]
  have s2 : (b.relocate k p.headCell p.cellAhead p.forward).slot p.forward.cellBehind = none := by
    rw [PlacedFigure.cellBehind_forward, relocate_slot hc.1 k hh ha hh, if_neg hne, if_pos rfl]
  have i1 : (b.relocate k p.headCell p.cellAhead p.forward).InGrid p.forward.tailCell := by
    rw [PlacedFigure.tailCell_forward]; exact ha
  have i2 : (b.relocate k p.headCell p.cellAhead p.forward).InGrid p.forward.cellBehind := by
    rw [PlacedFigure.cellBehind_forward]; exact hh
  refine ⟨MoveForward_of_slots hc.1 hp hh ha sh sa, hwf1, ?_, ?_⟩
  · rw [CanMoveBack_eq hwf1.1 hwf1.2.2.1 hp1, s2]
    simp [i2]
  · rw [MoveBack_of_slots hwf1.2.2.1.1 hp1 i1 i2 s1 s2, PlacedFigure.tailCell_forward,
      PlacedFigure.cellBehind_forward, PlacedFigure.forward_back,
      relocate_relocate hc.1 hp p.forward hh ha sh sa]

/-- What `MoveBack` does on a well-formed board when `CanMoveBack` holds. -/
theorem back_facts {b : Board} (hwf : b.WellFormed) {k : Nat} {p : PlacedFigure}
    (hp : b.figures[k]? = some p) (hcan : b.CanMoveBack k = .ok true) :
    b.MoveBack k = .ok (b.relocate k p.tailCell p.cellBehind p.back) ∧
    (b.relocate k p.tailCell p.cellBehind p.back).WellFormed ∧
    (b.relocate k p.tailCell p.cellBehind p.back).CanMoveForward k = .ok true ∧
    (b.relocate k p.tailCell p.cellBehind p.back).MoveForward k = .ok b := by
  obtain ⟨hg, hno, hc, hf⟩ := hwf
  have hk : k < b.figures.length := (List.getElem?_eq_some_iff.1 hp).1
  obtain ⟨hl, hcells⟩ := hg p (List.getElem?_mem hp)
  rw [CanMoveBack_eq hg hc hp] at hcan
  simp only [Except.ok.injEq, Bool.and_eq_true, decide_eq_true_eq, Option.isNone_iff_eq_none]
    at hcan
  obtain ⟨ha, sa⟩ := hcan
  have hh : b.InGrid p.tailCell := hcells _ (PlacedFigure.tailCell_mem hl)
  have sh : b.slot p.tailCell = some k :=
    (hc.slot_eq_some hh k).2 ⟨p, hp, PlacedFigure.tailCell_mem hl⟩
  have hne : p.tailCell ≠ p.cellBehind := by
    intro e; rw [e, sa] at sh; cases sh
  have hwf1 : (b.relocate k p.tailCell p.cellBehind p.back).WellFormed :=
    relocate_wellFormed ⟨hg, hno, hc, hf⟩ hp p.back_figure (PlacedFigure.tailCell_mem hl) ha
      ((hc.slot_eq_none ha).1 sa) (PlacedFigure.cells_back hl)
  have hp1 : (b.relocate k p.tailCell p.cellBehind p.back).figures[k]? = some p.back := by
    simp [relocate, hk]
  have s1 : (b.relocate k p.tailCell p.cellBehind p.back).slot p.back.headCell = some k := by
    rw [PlacedFigure.headCell_back, relocate_slot hc.1 k hh ha ha, if_pos rfl]
  have s2 : (b.relocate k p.tailCell p.cellBehind p.back).slot p.back.cellAhead = none := by
    rw [PlacedFigure.cellAhead_back, relocate_slot hc.1 k hh ha hh, if_neg hne, if_pos rfl]
  have i1 : (b.relocate k p.tailCell p.cellBehind p.back).InGrid p.back.headCell := by
    rw [PlacedFigure.headCell_back]; exact ha
  have i2 : (b.relocate k p.tailCell p.cellBehind p.back).InGrid p.back.cellAhead := by
    rw [PlacedFigure.cellAhead_back]; exact hh
  refine ⟨MoveBack_of_slots hc.1 hp hh ha sh sa, hwf1, ?_, ?_⟩
  · rw [CanMoveForward_eq hwf1.1 hwf1.2.2.1 hp1, s2]
    simp [i2]
  · rw [MoveForward_of_slots hwf1.2.2.1.1 hp1 i1 i2 s1 s2, PlacedFigure.headCell_back,
      PlacedFigure.cellAhead_back, PlacedFigure.back_forward,
      relocate_relocate hc.1 hp p.back hh ha sh sa]

/-! ## Rebuilding the occupancy index -/

theorem slot_set {b : Board} (hlen : b.figure_by_pos.length = (b.width * b.length).toNat)
    {c d : Int × Int} (hc : b.InGrid c) (hd : b.InGrid d) (v : Option Nat) :
    slot { b with figure_by_pos := b.figure_by_pos.set (b.index c) v } d =
      if d = c then v else b.slot d := by
  have e : index { b with figure_by_pos := b.figure_by_pos.set (b.index c) v } d = b.index d :=
    rfl
  rw [slot_eq_getElem?, e, slot_eq_getElem?]
  simp only [List.getElem?_set]
  by_cases h : d = c
  · subst h; simp [index_lt hlen hd]
  · rw [if_neg (Ne.symm (index_ne hd hc h)), if_neg h]

theorem cells_nodup (p : PlacedFigure) : p.cells.Nodup := by
  unfold PlacedFigure.cells footprint
  apply List.Nodup.map _ (List.nodup_range _)
  intro i j h
  by_cases ho : p.figure.orient = .kHorizontal
  · simp only [ho, if_true, Prod.mk.injEq] at h; omega
  · simp only [ho, if_false, Prod.mk.injEq] at h; omega

/-- The loop of `AddFigureToPos` runs over the cells of the piece. -/
theorem AddFigureToPos_eq {b : Board} {k : Nat} {p : PlacedFigure}
    (hp : b.figures[k]? = some p) :
    b.AddFigureToPos k =
      p.cells.foldlM (fun (acc : Board) c => acc.SetFigureAtPos (some k) c.1 c.2) b := by
  unfold AddFigureToPos
  rw [hp]
  simp only [PlacedFigure.cells, footprint, List.foldlM_map]
  congr 1
  funext acc i
  split <;> rfl

/-- Marking a list of distinct empty cells of the grid for piece `k` succeeds
and changes exactly the slots of these cells. -/
theorem mark_cells (k : Nat) : ∀ (cs : List (Int × Int)) (a : Board),
    a.figure_by_pos.length = (a.width * a.length).toNat →
    (∀ c ∈ cs, a.InGrid c) → cs.Nodup → (∀ c ∈ cs, a.slot c = none) →
    ∃ F : List (Option Nat),
      cs.foldlM (fun (acc : Board) c => acc.SetFigureAtPos (some k) c.1 c.2) a =
        .ok { a with figure_by_pos := F } ∧
      F.length = a.figure_by_pos.length ∧
      ∀ d, a.InGrid d →
        slot { a with figure_by_pos := F } d = if d ∈ cs then some k else a.slot d := by
  intro cs
  induction cs with
  | nil =>
    intro a _ _ _ _
    exact ⟨a.figure_by_pos, rfl, rfl, fun d _ => by simp⟩
  | cons c cs ih =>
    intro a hlen hin hnd hfree
    have hc : a.InGrid c := hin c (List.mem_cons_self _ _)
    have hnd1 := List.nodup_cons.1 hnd
    have h1 : a.SetFigureAtPos (some k) c.1 c.2 =
        .ok { a with figure_by_pos := a.figure_by_pos.set (a.index c) (some k) } := by
      rw [SetFigureAtPos_some hlen hc k, hfree c (List.mem_cons_self _ _)]
      rfl
    have hlen1 : (a.figure_by_pos.set (a.index c) (some k)).length =
        (a.width * a.length).toNat := by rw [List.length_set, hlen]
    obtain ⟨F, hF, hFlen, hFslot⟩ :=
      ih { a with figure_by_pos := a.figure_by_pos.set (a.index c) (some k) } hlen1
        (fun d hd => hin d (List.mem_cons_of_mem _ hd)) hnd1.2
        (fun d hd => by
          have hdin : a.InGrid d := hin d (List.mem_cons_of_mem _ hd)
          rw [slot_set hlen hc hdin, if_neg (by rintro rfl; exact hnd1.1 hd)]
          exact hfree d (List.mem_cons_of_mem _ hd))
    refine ⟨F, ?_, by rw [hFlen, List.length_set], fun d hd => ?_⟩
    · rw [List.foldlM_cons, h1]
      exact hF
    · have := hFslot d hd
      simp only at this
      rw [this, slot_set hlen hc hd]
      by_cases h : d = c
      · subst h; simp
      · simp [h]

/-- After the first `j` rounds of the loop of `RecomputeFigureByPos` the index
holds exactly the pieces below `j`. -/
theorem rebuild_upto {b : Board} (hg : b.PiecesInGrid) (hc : b.Consistent) :
    ∀ j ≤ b.figures.length, ∃ F : List (Option Nat),
      (List.range j).foldlM (fun (acc : Board) (i : Nat) => acc.AddFigureToPos i)
          { b with figure_by_pos := List.replicate (b.width * b.length).toNat none } =
        .ok { b with figure_by_pos := F } ∧
      F.length = (b.width * b.length).toNat ∧
      ∀ d, b.InGrid d →
        slot { b with figure_by_pos := F } d = (b.slot d).filter (fun i => decide (i < j)) := by
  intro j
  induction j with
  | zero =>
    intro _
    refine ⟨_, rfl, List.length_replicate _ _, fun d _ => ?_⟩
    rw [slot_eq_getElem?]
    simp only [List.getElem?_replicate]
    cases b.slot d <;> simp [Option.filter] <;> split <;> rfl
  | succ j ih =>
    intro hj
    obtain ⟨F, hF, hFlen, hFslot⟩ := ih (by omega)
    have hjlt : j < b.figures.length := by omega
    have hp : b.figures[j]? = some b.figures[j] := List.getElem?_eq_getElem hjlt
    obtain ⟨hl, hcells⟩ := hg _ (List.getElem?_mem hp)
    have hfree : ∀ c ∈ (b.figures[j]).cells, slot { b with figure_by_pos := F } c = none := by
      intro c hcm
      have hin := hcells c hcm
      rw [hFslot c hin, (hc.slot_eq_some hin j).2 ⟨_, hp, hcm⟩]
      simp [Option.filter]
    obtain ⟨F1, hF1, hF1len, hF1slot⟩ :=
      mark_cells j (b.figures[j]).cells { b with figure_by_pos := F } hFlen hcells
        (cells_nodup _) hfree
    refine ⟨F1, ?_, by rw [hF1len]; exact hFlen, fun d hd => ?_⟩
    · rw [List.range_succ, List.foldlM_append, hF]
      simp only [bind, Except.bind, List.foldlM_cons, List.foldlM_nil]
      rw [AddFigureToPos_eq (b := { b with figure_by_pos := F }) hp, hF1]
      rfl
    · have := hF1slot d hd
      simp only at this
      rw [this, hFslot d hd]
      by_cases hm : d ∈ (b.figures[j]).cells
      · rw [if_pos hm, (hc.slot_eq_some hd j).2 ⟨_, hp, hm⟩]
        simp [Option.filter]
      · rw [if_neg hm]
        cases hs : b.slot d with
        | none => rfl
        | some i =>
          have hij : i ≠ j := by
            rintro rfl
            obtain ⟨q, hq, hqm⟩ := (hc.slot_eq_some hd i).1 hs
            rw [hp] at hq
            cases hq
            exact hm hqm
          simp only [Option.filter]
          by_cases h1 : i < j
          · simp [h1, Nat.lt_succ_of_lt h1]
          · have : ¬ i < j + 1 := by omega
            simp [h1, this]

/-- Every index below `width * length` is the flat index of a cell of the grid. -/
theorem exists_cell_of_index {b : Board} (hw : 0 < b.width) {t : Nat}
    (ht : t < (b.width * b.length).toNat) : ∃ c, b.InGrid c ∧ b.index c = t := by
  have h1 : (t : Int) < b.width * b.length := by omega
  have h2 : (t : Int) < b.length * b.width := by rw [mul_comm]; exact h1
  refine ⟨((t : Int) % b.width, (t : Int) / b.width), ⟨?_, ?_, ?_, ?_⟩, ?_⟩
  · exact Int.emod_nonneg _ hw.ne.symm
  · exact Int.emod_lt_of_pos _ hw
  · exact Int.ediv_nonneg (by omega) hw.le
  · exact Int.ediv_lt_of_lt_mul hw h2
  · simp only [index, Int.ediv_add_emod']
    omega

/-- Two boards with the same grid and pieces and consistent indices are equal. -/
theorem eq_of_consistent {a b : Board} (hw : 0 < b.width) (h1 : a.width = b.width)
    (h2 : a.length = b.length) (h3 : a.figures = b.figures)
    (hlen : a.figure_by_pos.length = b.figure_by_pos.length)
    (hb : b.figure_by_pos.length = (b.width * b.length).toNat)
    (hs : ∀ d, b.InGrid d → a.slot d = b.slot d) : a = b := by
  cases a with
  | mk wa la fa Fa =>
    cases b with
    | mk wb lb fb Fb =>
      simp only at h1 h2 h3 hlen hb hw
      subst h1 h2 h3
      simp only [Board.mk.injEq, true_and]
      apply List.ext_getElem hlen
      intro t ht1 ht2
      obtain ⟨c, hc, hct⟩ := exists_cell_of_index (b := ⟨wa, la, fa, Fb⟩) hw (hb ▸ ht2)
      have := hs c hc
      rw [slot_eq_getElem?, slot_eq_getElem?] at this
      have e : index ⟨wa, la, fa, Fa⟩ c = t := hct
      rw [e, hct] at this
      simpa [List.getElem?_eq_getElem ht1, List.getElem?_eq_getElem ht2] using this

/-- Rebuilding the index of a board whose pieces are inside the grid and whose
index is consistent gives back the board, whatever the index was set to. -/
theorem RecomputeFigureByPos_eq {b : Board} (hg : b.PiecesInGrid) (hc : b.Consistent)
    (hw : 0 < b.width) (hl : 0 < b.length) (G : List (Option Nat)) :
    RecomputeFigureByPos { b with figure_by_pos := G } = .ok b := by
  obtain ⟨F, hF, hFlen, hFslot⟩ := rebuild_upto hg hc b.figures.length le_rfl
  have hpos : ¬ b.width * b.length < 0 := by
    have := mul_pos hw hl
    omega
  unfold RecomputeFigureByPos
  simp only [hpos, if_false]
  rw [hF]
  congr 1
  refine eq_of_consistent (a := { b with figure_by_pos := F }) (b := b) hw rfl rfl rfl
    (by rw [hFlen, hc.1]) hc.1 ?_
  intro d hd
  rw [hFslot d hd]
  cases hs : b.slot d with
  | none => rfl
  | some i =>
    have := (hc.consistentAt hd).1 i (by simp [hs])
    simp [Option.filter, this]

theorem WellFormed.dims_pos {b : Board} (h : b.WellFormed) : 0 < b.width ∧ 0 < b.length := by
  obtain ⟨hg, _, _, p, hp, ho⟩ := h
  have := hg.bounds (List.getElem?_mem (Option.mem_def.1 hp))
  rw [if_pos ho] at this
  omega

theorem copy_eq {b : Board} (h : b.WellFormed) : b.copy = .ok b :=
  RecomputeFigureByPos_eq h.1 h.2.2.1 h.dims_pos.1 h.dims_pos.2 []

theorem assign_eq (a : Board) {b : Board} (h : b.WellFormed) : a.assign b = .ok b :=
  RecomputeFigureByPos_eq h.1 h.2.2.1 h.dims_pos.1 h.dims_pos.2 a.figure_by_pos

/-- Well-formed boards with the same grid and the same piece list are equal. -/
theorem eq_of_figures_eq {a b : Board} (ha : a.WellFormed) (hb : b.WellFormed)
    (h1 : a.width = b.width) (h2 : a.length = b.length) (h3 : a.figures = b.figures) :
    a = b := by
  have hca := ha.2.2.1
  have hcb := hb.2.2.1
  refine eq_of_consistent hb.dims_pos.1 h1 h2 h3 (by rw [hca.1, hcb.1, h1, h2]) hcb.1 ?_
  intro d hd
  have hda : a.InGrid d := by
    simp only [InGrid, h1, h2]; exact hd
  cases hs : b.slot d with
  | none =>
    rw [hca.slot_eq_none hda]
    have := (hcb.slot_eq_none hd).1 hs
    simp only [Free, h3]; exact this
  | some k =>
    rw [hca.slot_eq_some hda k, h3]
    exact (hcb.slot_eq_some hd k).1 hs

/-! ## The order on boards and the cache -/

theorem eq_of_figure_eq {x y : PlacedFigure} (h : x.figure = y.figure) :
    x.eq y = decide (x = y) := by
  cases x with
  | mk f a b =>
    cases y with
    | mk g c d =>
      simp only at h
      subst h
      simp [PlacedFigure.eq, Bool.and_comm]

theorem lt_or_lt_of_ne {x y : PlacedFigure} (h : x.figure = y.figure) (hne : x ≠ y) :
    (x.lt y = true ∨ y.lt x = true) := by
  cases x with
  | mk f a b =>
    cases y with
    | mk g c d =>
      simp only at h
      subst h
      simp only [ne_eq, PlacedFigure.mk.injEq, true_and, not_and] at hne
      simp only [PlacedFigure.lt, ne_eq, not_true_eq_false, if_false]
      by_cases h1 : a = c
      · have h2 : b ≠ d := hne h1
        have h3 : d ≠ b := Ne.symm h2
        subst h1
        simp only [not_true_eq_false, if_false, h2, h3, not_false_eq_true, if_true,
          decide_eq_true_eq]
        omega
      · have h3 : c ≠ a := Ne.symm h1
        simp only [h1, h3, not_false_eq_true, if_true, decide_eq_true_eq]
        omega

/-- On piece lists with the same figure at each index the two comparisons
succeed, and neither holds exactly when the lists are equal. -/
theorem ltLoop_same_figures : ∀ (xs ys : List PlacedFigure),
    xs.map PlacedFigure.figure = ys.map PlacedFigure.figure →
    ∃ r1 r2, ltLoop xs ys = .ok r1 ∧ ltLoop ys xs = .ok r2 ∧
      ((!r1 && !r2) = decide (xs = ys)) := by
  intro xs
  induction xs with
  | nil =>
    intro ys h
    cases ys with
    | nil => exact ⟨false, false, rfl, rfl, by simp⟩
    | cons y ys => simp at h
  | cons x xs ih =>
    intro ys h
    cases ys with
    | nil => simp at h
    | cons y ys =>
      simp only [List.map_cons, List.cons.injEq] at h
      obtain ⟨hf, ht⟩ := h
      obtain ⟨r1, r2, h1, h2, h3⟩ := ih ys ht
      simp only [ltLoop, eq_of_figure_eq hf, eq_of_figure_eq hf.symm]
      by_cases hxy : x = y
      · subst hxy
        simp only [decide_True, if_true]
        exact ⟨r1, r2, h1, h2, by simp [h3]⟩
      · have hyx : ¬ y = x := fun e => hxy e.symm
        simp only [hxy, hyx, decide_False, Bool.false_eq_true, if_false]
        rcases lt_or_lt_of_ne hf hxy with h4 | h4
        · by_cases h5 : y.lt x = true
          · exact ⟨true, true, by simp [h4], by simp [h5], by simp [hxy]⟩
          · exact ⟨true, false, by simp [h4], by simp [h5], by simp [hxy]⟩
        · by_cases h5 : x.lt y = true
          · exact ⟨true, true, by simp [h5], by simp [h4], by simp [hxy]⟩
          · exact ⟨false, true, by simp [h5], by simp [h4], by simp [hxy]⟩

end Board

namespace BoardCache

open Board

/-- For well-formed placements of the same pieces, equivalence of keys is equality. -/
theorem equiv_good {b0 a b : Board} (ha : Good b0 a) (hb : Good b0 b) :
    equiv a b = .ok (decide (a = b)) := by
  obtain ⟨r1, r2, h1, h2, h3⟩ := ltLoop_same_figures a.figures b.figures
    (by rw [ha.2.2.2, hb.2.2.2])
  simp only [equiv, Board.lt, h1, h2, bind, Except.bind, pure, Except.pure, h3]
  congr 1
  by_cases h : a = b
  · subst h; simp
  · have : a.figures ≠ b.figures := fun e =>
      h (eq_of_figures_eq ha.1 hb.1 (by rw [ha.2.1, hb.2.1]) (by rw [ha.2.2.1, hb.2.2.1]) e)
    simp [h, this]

theorem findEntry_good {b0 : Board} : ∀ (E : List (Board × Option Board)) (s : Board),
    (∀ e ∈ E, Good b0 e.1) → Good b0 s →
    findEntry E s = .ok (E.find? (fun e => decide (e.1 = s))) := by
  intro E
  induction E with
  | nil => intro s _ _; rfl
  | cons e E ih =>
    intro s hE hs
    simp only [findEntry, equiv_good (hE e (List.mem_cons_self _ _)) hs, bind, Except.bind,
      pure, Except.pure, List.find?_cons]
    by_cases h : e.1 = s
    · simp [h]
    · simp only [h, decide_False, Bool.false_eq_true, if_false]
      exact ih s (fun x hx => hE x (List.mem_cons_of_mem _ hx)) hs

theorem assignEntry_new {b0 : Board} : ∀ (E : List (Board × Option Board)) (s : Board)
    (parent : Option Board), (∀ e ∈ E, Good b0 e.1) → Good b0 s → s ∉ E.map Prod.fst →
    assignEntry E s parent = .ok (E ++ [(s, parent)]) := by
  intro E
  induction E with
  | nil =>
    intro s parent _ hs _
    simp [assignEntry, copy_eq hs.1, bind, Except.bind, pure, Except.pure]
  | cons e E ih =>
    intro s parent hE hs hnot
    simp only [List.map_cons, List.mem_cons, not_or] at hnot
    have h : ¬ e.1 = s := fun h => hnot.1 h.symm
    simp only [assignEntry, equiv_good (hE e (List.mem_cons_self _ _)) hs, bind, Except.bind,
      pure, Except.pure, h, decide_False, Bool.false_eq_true, if_false]
    rw [ih s parent (fun x hx => hE x (List.mem_cons_of_mem _ hx)) hs hnot.2]
    rfl

end BoardCache

namespace Board

/-! ## Legal moves keep a board a well-formed placement of the same pieces -/

theorem figure_of_CanMoveForward {s : Board} {k : Nat} {r : Bool}
    (h : s.CanMoveForward k = .ok r) : ∃ p, s.figures[k]? = some p := by
  unfold CanMoveForward at h
  cases hp : s.figures[k]? with
  | none => rw [hp] at h; cases h
  | some p => exact ⟨p, rfl⟩

theorem figure_of_CanMoveBack {s : Board} {k : Nat} {r : Bool}
    (h : s.CanMoveBack k = .ok r) : ∃ p, s.figures[k]? = some p := by
  unfold CanMoveBack at h
  cases hp : s.figures[k]? with
  | none => rw [hp] at h; cases h
  | some p => exact ⟨p, rfl⟩

theorem SameShape.trans {a b c : Board} (h1 : SameShape a b) (h2 : SameShape b c) :
    SameShape a c :=
  ⟨h2.1.trans h1.1, h2.2.1.trans h1.2.1, h2.2.2.trans h1.2.2⟩

theorem Good.forward {b0 s : Board} (hs : Good b0 s) {k : Nat} {p : PlacedFigure}
    (hp : s.figures[k]? = some p) (hcan : s.CanMoveForward k = .ok true) :
    Good b0 (s.relocate k p.headCell p.cellAhead p.forward) :=
  ⟨(forward_facts hs.1 hp hcan).2.1,
    hs.2.trans (sameShape_relocate s hp p.forward_figure _ _)⟩

theorem Good.back {b0 s : Board} (hs : Good b0 s) {k : Nat} {p : PlacedFigure}
    (hp : s.figures[k]? = some p) (hcan : s.CanMoveBack k = .ok true) :
    Good b0 (s.relocate k p.tailCell p.cellBehind p.back) :=
  ⟨(back_facts hs.1 hp hcan).2.1,
    hs.2.trans (sameShape_relocate s hp p.back_figure _ _)⟩

theorem Good.step {b0 s t : Board} (hs : Good b0 s) (h : Step s t) : Good b0 t := by
  obtain ⟨k, ⟨h1, h2⟩ | ⟨h1, h2⟩⟩ := h
  · obtain ⟨p, hp⟩ := figure_of_CanMoveForward h1
    rw [(forward_facts hs.1 hp h1).1] at h2
    cases h2
    exact hs.forward hp h1
  · obtain ⟨p, hp⟩ := figure_of_CanMoveBack h1
    rw [(back_facts hs.1 hp h1).1] at h2
    cases h2
    exact hs.back hp h1

theorem Good.refl {b : Board} (h : b.WellFormed) : Good b b := ⟨h, rfl, rfl, rfl⟩

theorem mem_moves {s t : Board} {k : Nat} :
    t ∈ s.moves k ↔
      (s.CanMoveForward k = .ok true ∧ s.MoveForward k = .ok t) ∨
      (s.CanMoveBack k = .ok true ∧ s.MoveBack k = .ok t) := by
  unfold moves
  rw [List.mem_append]
  apply or_congr
  · split
    · next h1 h2 => simp [h1, h2, eq_comm]
    · next h =>
      simp only [List.not_mem_nil, false_iff, not_and]
      intro h1 h2
      exact h t h1 h2
  · split
    · next h1 h2 => simp [h1, h2, eq_comm]
    · next h =>
      simp only [List.not_mem_nil, false_iff, not_and]
      intro h1 h2
      exact h t h1 h2

theorem mem_successors {s t : Board} : t ∈ s.successors ↔ Step s t := by
  unfold successors Step
  rw [List.mem_flatMap]
  constructor
  · rintro ⟨k, _, h⟩
    exact ⟨k, mem_moves.1 h⟩
  · rintro ⟨k, h⟩
    refine ⟨k, ?_, mem_moves.2 h⟩
    rw [List.mem_range]
    rcases h with ⟨h1, _⟩ | ⟨h1, _⟩
    · obtain ⟨p, hp⟩ := figure_of_CanMoveForward h1
      exact (List.getElem?_eq_some_iff.1 hp).1
    · obtain ⟨p, hp⟩ := figure_of_CanMoveBack h1
      exact (List.getElem?_eq_some_iff.1 hp).1

end Board

/-! ## The inner loop of `SolveBoard` -/

open Board

theorem visit_good {b0 parent t : Board} {E : List (Board × Option Board)}
    (hE : ∀ e ∈ E, Good b0 e.1) (ht : Good b0 t) : ∀ e ∈ visit parent E t, Good b0 e.1 := by
  intro e he
  unfold visit at he
  split at he
  · exact hE e he
  · rcases List.mem_append.1 he with h | h
    · exact hE e h
    · simp only [List.mem_singleton] at h
      subst h
      exact ht

theorem foldl_visit_good {b0 parent : Board} : ∀ (ts : List Board)
    (E : List (Board × Option Board)), (∀ e ∈ E, Good b0 e.1) → (∀ t ∈ ts, Good b0 t) →
    ∀ e ∈ ts.foldl (visit parent) E, Good b0 e.1 := by
  intro ts
  induction ts with
  | nil => intro E hE _; exact hE
  | cons t ts ih =>
    intro E hE hts
    exact ih _ (visit_good hE (hts t (List.mem_cons_self _ _)))
      (fun x hx => hts x (List.mem_cons_of_mem _ hx))

theorem recordBoard_good {b0 t : Board} (parent : Board) {E : List (Board × Option Board)}
    (hE : ∀ e ∈ E, Good b0 e.1) (ht : Good b0 t) :
    recordBoard parent (SolveState.of t E) = .ok (SolveState.of t (visit parent E t)) := by
  have hfind : (E.find? (fun e => decide (e.1 = t))).isSome = decide (t ∈ E.map Prod.fst) := by
    by_cases h : t ∈ E.map Prod.fst
    · simp only [h, decide_True, List.find?_isSome]
      obtain ⟨e, he, rfl⟩ := List.mem_map.1 h
      exact ⟨e, he, by simp⟩
    · simp only [h, decide_False]
      rw [Bool.eq_false_iff]
      intro hh
      obtain ⟨e, he, hh⟩ := List.find?_isSome.1 hh
      exact h (List.mem_map.2 ⟨e, he, by simpa using hh⟩)
  simp only [recordBoard, SolveState.of, BoardCache.IsBoardPresent,
    BoardCache.findEntry_good E t hE ht, bind, Except.bind, pure, Except.pure, hfind]
  by_cases h : t ∈ E.map Prod.fst
  · simp [h, visit]
  · simp [h, visit, BoardCache.AddBoard, BoardCache.assignEntry_new E t (some parent) hE ht h,
      copy_eq ht.1, bind, Except.bind, pure, Except.pure]

theorem moves_good {b0 s : Board} (hs : Good b0 s) (k : Nat) : ∀ t ∈ s.moves k, Good b0 t :=
  fun _ ht => hs.step ⟨k, mem_moves.1 ht⟩

theorem expandFigure_good {b0 parent s : Board} {E : List (Board × Option Board)}
    (hE : ∀ e ∈ E, Good b0 e.1) (hs : Good b0 s) {k : Nat} (hk : k < s.figures.length) :
    expandFigure parent (SolveState.of s E) k =
      .ok (SolveState.of s ((s.moves k).foldl (visit parent) E)) := by
  have hp : s.figures[k]? = some s.figures[k] := List.getElem?_eq_getElem hk
  have hcf := CanMoveForward_eq hs.1.1 hs.1.2.2.1 hp
  have hcb := CanMoveBack_eq hs.1.1 hs.1.2.2.1 hp
  -- the forward half
  have half1 : ∃ E1, (∀ e ∈ E1, Good b0 e.1) ∧
      (do
        if ← (SolveState.of s E).board.CanMoveForward k then
          let b ← (SolveState.of s E).board.MoveForward k
          let st ← recordBoard parent { SolveState.of s E with board := b }
          let b ← st.board.MoveBack k
          pure { st with board := b }
        else pure (SolveState.of s E) : Except Fault SolveState) = .ok (SolveState.of s E1) ∧
      E1 = (match s.CanMoveForward k, s.MoveForward k with
              | .ok true, .ok t => [t]
              | _, _ => []).foldl (visit parent) E := by
    cases hc : (decide (s.InGrid (s.figures[k]).cellAhead) &&
        (s.slot (s.figures[k]).cellAhead).isNone) with
    | false =>
      rw [hc] at hcf
      refine ⟨E, hE, ?_, ?_⟩
      · simp [SolveState.of, hcf, bind, Except.bind, pure, Except.pure]
      · simp [hcf]
    | true =>
      rw [hc] at hcf
      obtain ⟨f1, f2, f3, f4⟩ := forward_facts hs.1 hp hcf
      have hg := hs.forward hp hcf
      refine ⟨visit parent E _, visit_good hE hg, ?_, ?_⟩
      · have := recordBoard_good parent hE hg
        simp only [SolveState.of] at this
        simp only [SolveState.of, hcf, f1, bind, Except.bind, pure, Except.pure, if_true, this,
          f4]
      · simp [hcf, f1]
  obtain ⟨E1, hE1, h1, e1⟩ := half1
  have half2 : (do
        if ← (SolveState.of s E1).board.CanMoveBack k then
          let b ← (SolveState.of s E1).board.MoveBack k
          let st ← recordBoard parent { SolveState.of s E1 with board := b }
          let b ← st.board.MoveForward k
          pure { st with board := b }
        else pure (SolveState.of s E1) : Except Fault SolveState) =
      .ok (SolveState.of s ((match s.CanMoveBack k, s.MoveBack k with
              | .ok true, .ok t => [t]
              | _, _ => []).foldl (visit parent) E1)) := by
    cases hc : (decide (s.InGrid (s.figures[k]).cellBehind) &&
        (s.slot (s.figures[k]).cellBehind).isNone) with
    | false =>
      rw [hc] at hcb
      simp [SolveState.of, hcb, bind, Except.bind, pure, Except.pure]
    | true =>
      rw [hc] at hcb
      obtain ⟨f1, f2, f3, f4⟩ := back_facts hs.1 hp hcb
      have hg := hs.back hp hcb
      have := recordBoard_good parent hE1 hg
      simp only [SolveState.of] at this
      simp only [SolveState.of, hcb, f1, bind, Except.bind, pure, Except.pure, if_true, this,
        f4, List.foldl_cons, List.foldl_nil]
  unfold expandFigure
  rw [show (s.moves k).foldl (visit parent) E = (match s.CanMoveBack k, s.MoveBack k with
              | .ok true, .ok t => [t]
              | _, _ => []).foldl (visit parent) E1 by rw [e1, moves, List.foldl_append]]
  rw [← half2]
  simp only [bind, Except.bind] at h1 ⊢
  rw [h1]

theorem expandFigures_good {b0 parent s : Board} (hs : Good b0 s) : ∀ (ks : List Nat)
    (E : List (Board × Option Board)), (∀ e ∈ E, Good b0 e.1) →
    (∀ k ∈ ks, k < s.figures.length) →
    ks.foldlM (expandFigure parent) (SolveState.of s E) =
      .ok (SolveState.of s ((ks.flatMap s.moves).foldl (visit parent) E)) := by
  intro ks
  induction ks with
  | nil => intro E _ _; rfl
  | cons k ks ih =>
    intro E hE hks
    rw [List.foldlM_cons, expandFigure_good hE hs (hks k (List.mem_cons_self _ _))]
    simp only [bind, Except.bind, List.flatMap_cons, List.foldl_append]
    exact ih _ (foldl_visit_good _ _ hE (moves_good hs k))
      (fun x hx => hks x (List.mem_cons_of_mem _ hx))

theorem expandBoard_good {b0 s : Board} (parent : Board) (hs : Good b0 s)
    {E : List (Board × Option Board)} (hE : ∀ e ∈ E, Good b0 e.1) :
    expandBoard parent (SolveState.of s E) =
      .ok (SolveState.of s (s.successors.foldl (visit parent) E)) :=
  expandFigures_good hs _ E hE (fun _ hk => List.mem_range.1 hk)

/-! ## The invariant of the search -/

theorem getElem?_keys_append {E X : List (Board × Option Board)} {j : Nat} {x : Board}
    (h : (E.map Prod.fst)[j]? = some x) : ((E ++ X).map Prod.fst)[j]? = some x := by
  have hj : j < (E.map Prod.fst).length := (List.getElem?_eq_some_iff.1 h).1
  rw [List.map_append, List.getElem?_append_left hj]
  exact h

theorem getElem?_keys_of_append {E X : List (Board × Option Board)} {j : Nat} {x : Board}
    (hj : j < E.length) (h : ((E ++ X).map Prod.fst)[j]? = some x) :
    (E.map Prod.fst)[j]? = some x := by
  rw [List.map_append, List.getElem?_append_left (by simpa using hj)] at h
  exact h

/-- Offering a successor of the state under the cursor keeps the invariant. -/
theorem visit_inv {b0 s t : Board} {i : Nat} {E : List (Board × Option Board)}
    {d : Board → Nat} (inv : SearchInv b0 i E d) (hs : (E.map Prod.fst)[i]? = some s)
    (hst : Step s t) :
    ∃ d' X, visit s E t = E ++ X ∧ SearchInv b0 i (visit s E t) d' ∧
      (∀ x ∈ E.map Prod.fst, d' x = d x) ∧
      t ∈ (visit s E t).map Prod.fst ∧ d' t ≤ d' s + 1 := by
  have hsmem : s ∈ E.map Prod.fst := List.getElem?_mem hs
  have hi : i < E.length := by
    simpa using (List.getElem?_eq_some_iff.1 hs).1
  by_cases ht : t ∈ E.map Prod.fst
  · have hv : visit s E t = E := by simp [visit, ht]
    refine ⟨d, [], by simp [hv], by rw [hv]; exact inv, fun _ _ => rfl,
      by rw [hv]; exact ht, ?_⟩
    obtain ⟨e, he, rfl⟩ := List.mem_map.1 ht
    exact inv.front s hs e he
  · have hv : visit s E t = E ++ [(t, some s)] := by simp [visit, ht]
    have hd : ∀ x ∈ E.map Prod.fst, Function.update d t (d s + 1) x = d x := by
      intro x hx
      exact Function.update_noteq (by rintro rfl; exact ht hx) _ _
    have hdt : Function.update d t (d s + 1) t = d s + 1 := Function.update_same _ _ _
    have hde : ∀ e ∈ E, Function.update d t (d s + 1) e.1 = d e.1 :=
      fun e he => hd _ (List.mem_map_of_mem _ he)
    have hb0 : b0 ∈ E.map Prod.fst := by
      have := List.getElem?_mem inv.root
      exact List.mem_map.2 ⟨_, this, rfl⟩
    obtain ⟨es, hes, hes1⟩ := List.mem_map.1 hsmem
    refine ⟨Function.update d t (d s + 1), [(t, some s)], hv, ?_, hd, ?_, ?_⟩
    · rw [hv]
      constructor
      · rw [List.map_append, List.map_singleton]
        refine List.Nodup.append inv.nodup (List.nodup_singleton _) ?_
        intro a ha hb
        simp only [List.mem_singleton] at hb
        subst hb
        exact ht ha
      · intro e he
        rcases List.mem_append.1 he with h | h
        · exact inv.good e h
        · simp only [List.mem_singleton] at h
          subst h
          exact (hes1 ▸ inv.good es hes).step hst
      · rw [List.getElem?_append_left (by omega)]
        exact inv.root
      · rw [hd b0 hb0]; exact inv.droot
      · intro e he
        rcases List.mem_append.1 he with h | h
        · rcases inv.parent e h with h1 | ⟨p, h1, h2, h3, h4⟩
          · exact Or.inl h1
          · refine Or.inr ⟨p, h1, ?_, ?_, h4⟩
            · rw [List.map_append]; exact List.mem_append_left _ h2
            · rw [hde e h, hd p h2]; exact h3
        · simp only [List.mem_singleton] at h
          subst h
          refine Or.inr ⟨s, rfl, ?_, ?_, hst⟩
          · rw [List.map_append]; exact List.mem_append_left _ hsmem
          · simp only [hdt, hd s hsmem]
      · intro e he
        rcases List.mem_append.1 he with h | h
        · rw [hde e h]; exact inv.reach e h
        · simp only [List.mem_singleton] at h
          subst h
          simp only [hdt]
          exact Reach.step (hes1 ▸ inv.reach es hes) hst
      · rw [List.map_append, List.map_singleton, List.pairwise_append]
        refine ⟨?_, List.pairwise_singleton _ _, ?_⟩
        · refine List.Pairwise.imp_of_mem ?_ inv.sorted
          intro a b ha hb hab
          rw [hd a ha, hd b hb]; exact hab
        · intro x hx y hy
          simp only [List.mem_singleton] at hy
          subst hy
          rw [hd x hx, hdt]
          obtain ⟨e, he, rfl⟩ := List.mem_map.1 hx
          exact inv.front s hs e he
      · intro x hx e he
        have hx1 := getElem?_keys_of_append hi hx
        rw [hs] at hx1
        cases hx1
        rw [hd _ hsmem]
        rcases List.mem_append.1 he with h | h
        · rw [hde e h]; exact inv.front _ hs e h
        · simp only [List.mem_singleton] at h
          subst h
          simp only [hdt]; exact le_rfl
      · intro j hj x hx u hu
        have hx1 := getElem?_keys_of_append (by omega) hx
        obtain ⟨h1, h2⟩ := inv.closed j hj x hx1 u hu
        refine ⟨by rw [List.map_append]; exact List.mem_append_left _ h1, ?_⟩
        rw [hd u h1, hd x (List.getElem?_mem hx1)]
        exact h2
      · intro j hj x hx
        exact inv.nowin j hj x (getElem?_keys_of_append (by omega) hx)
      · simp only [List.length_append, List.length_singleton]
        have := inv.cursor
        omega
      · intro j x hx
        by_cases hj : j < E.length
        · have hx1 := getElem?_keys_of_append hj hx
          rw [hd x (List.getElem?_mem hx1)]
          exact inv.depth j x hx1
        · have hjl := (List.getElem?_eq_some_iff.1 hx).1
          simp only [List.map_append, List.length_append, List.length_map, List.map_singleton,
            List.length_singleton] at hjl
          have hj2 : j = E.length := by omega
          subst hj2
          simp only [List.map_append, List.map_singleton] at hx
          rw [List.getElem?_append_right (by simp)] at hx
          simp only [List.length_map, Nat.sub_self, List.getElem?_cons_zero,
            Option.some.injEq] at hx
          subst hx
          rw [hdt]
          have := inv.depth i s hs
          omega
    · rw [hv, List.map_append]
      exact List.mem_append_right _ (by simp)
    · rw [hdt, hd s hsmem]

/-- Offering a list of successors of the state under the cursor keeps the
invariant and leaves every one of them among the keys. -/
theorem foldl_visit_inv {b0 s : Board} {i : Nat} : ∀ (ts : List Board)
    (E : List (Board × Option Board)) (d : Board → Nat), SearchInv b0 i E d →
    (E.map Prod.fst)[i]? = some s → (∀ t ∈ ts, Step s t) →
    ∃ d' X, ts.foldl (visit s) E = E ++ X ∧ SearchInv b0 i (E ++ X) d' ∧
      (∀ x ∈ E.map Prod.fst, d' x = d x) ∧
      ∀ t ∈ ts, t ∈ (E ++ X).map Prod.fst ∧ d' t ≤ d' s + 1 := by
  intro ts
  induction ts with
  | nil =>
    intro E d inv _ _
    exact ⟨d, [], by simp, by simpa using inv, fun _ _ => rfl, by simp⟩
  | cons t ts ih =>
    intro E d inv hs hts
    obtain ⟨d1, X1, hv1, inv1, hd1, ht1, hle1⟩ :=
      visit_inv inv hs (hts t (List.mem_cons_self _ _))
    rw [hv1] at inv1 ht1
    obtain ⟨d2, X2, hv2, inv2, hd2, hts2⟩ :=
      ih (E ++ X1) d1 inv1 (getElem?_keys_append hs)
        (fun x hx => hts x (List.mem_cons_of_mem _ hx))
    have hsub : ∀ x ∈ E.map Prod.fst, x ∈ (E ++ X1).map Prod.fst := by
      intro x hx
      rw [List.map_append]; exact List.mem_append_left _ hx
    have hsmem : s ∈ E.map Prod.fst := List.getElem?_mem hs
    refine ⟨d2, X1 ++ X2, ?_, ?_, ?_, ?_⟩
    · rw [List.foldl_cons, hv1, hv2, List.append_assoc]
    · rw [← List.append_assoc]; exact inv2
    · intro x hx
      rw [hd2 x (hsub x hx), hd1 x hx]
    · intro x hx
      rw [← List.append_assoc]
      rcases List.mem_cons.1 hx with h | h
      · subst h
        refine ⟨by rw [List.map_append]; exact List.mem_append_left _ ht1, ?_⟩
        rw [hd2 x ht1, hd2 s (hsub s hsmem)]
        exact hle1
      · exact hts2 x h

/-- Expanding the state under the cursor and advancing the cursor keeps the invariant. -/
theorem expand_inv {b0 s : Board} {i : Nat} {E : List (Board × Option Board)}
    {d : Board → Nat} (inv : SearchInv b0 i E d) (hs : (E.map Prod.fst)[i]? = some s)
    (hw : s.IsWin = .ok false) :
    ∃ d' X, s.successors.foldl (visit s) E = E ++ X ∧ SearchInv b0 (i + 1) (E ++ X) d' := by
  obtain ⟨d', X, hv, inv', _, hts⟩ :=
    foldl_visit_inv s.successors E d inv hs (fun t ht => mem_successors.1 ht)
  have hs' := getElem?_keys_append (X := X) hs
  have hi : i < E.length := by
    simpa using (List.getElem?_eq_some_iff.1 hs).1
  refine ⟨d', X, hv, ?_⟩
  constructor
  · exact inv'.nodup
  · exact inv'.good
  · exact inv'.root
  · exact inv'.droot
  · exact inv'.parent
  · exact inv'.reach
  · exact inv'.sorted
  · intro x hx e he
    have h1 := inv'.front s hs' e he
    obtain ⟨h2, h3⟩ := List.getElem?_eq_some_iff.1 hx
    obtain ⟨h4, h5⟩ := List.getElem?_eq_some_iff.1 hs'
    have := List.pairwise_iff_getElem.1 inv'.sorted i (i + 1) h4 h2 (Nat.lt_succ_self _)
    rw [h3, h5] at this
    omega
  · intro j hj x hx t hxt
    by_cases hji : j < i
    · exact inv'.closed j hji x hx t hxt
    · have : j = i := by omega
      subst this
      rw [hs'] at hx
      cases hx
      exact hts t (mem_successors.2 hxt)
  · intro j hj x hx
    by_cases hji : j < i
    · exact inv'.nowin j hji x hx
    · have : j = i := by omega
      subst this
      rw [hs'] at hx
      cases hx
      exact hw
  · simp only [List.length_append]
    omega
  · exact inv'.depth

/-- The invariant holds at the start of the search. -/
theorem init_inv {b0 : Board} (hwf : b0.WellFormed) :
    SearchInv b0 0 [(b0, none)] (fun _ => 0) := by
  constructor
  · simp
  · intro e he
    simp only [List.mem_singleton] at he
    subst he
    exact Good.refl hwf
  · rfl
  · rfl
  · intro e he
    simp only [List.mem_singleton] at he
    exact Or.inl he
  · intro e he
    simp only [List.mem_singleton] at he
    subst he
    exact Reach.refl
  · simp
  · intro x _ e _
    omega
  · intro j hj
    omega
  · intro j hj
    omega
  · simp
  · intro j x _
    omega

/-- Every reachable board is a key at no greater depth than the length of the
path to it, unless a key at or after the cursor is nearer to the start. -/
theorem reach_cases {b0 : Board} {i : Nat} {E : List (Board × Option Board)}
    {d : Board → Nat} (inv : SearchInv b0 i E d) {m : Nat} {t : Board}
    (h : Reach b0 m t) :
    (t ∈ E.map Prod.fst ∧ d t ≤ m) ∨
      ∃ j x, i ≤ j ∧ (E.map Prod.fst)[j]? = some x ∧ d x < m := by
  induction h with
  | refl =>
    left
    refine ⟨List.mem_map.2 ⟨_, List.getElem?_mem inv.root, rfl⟩, ?_⟩
    rw [inv.droot]
  | step hr hst ih =>
    rename_i n u v
    rcases ih with ⟨h1, h2⟩ | ⟨j, x, h1, h2, h3⟩
    · obtain ⟨j, hj⟩ := List.getElem?_of_mem h1
      by_cases hji : j < i
      · obtain ⟨h3, h4⟩ := inv.closed j hji u hj v hst
        left
        exact ⟨h3, by omega⟩
      · right
        exact ⟨j, u, by omega, hj, by omega⟩
    · right
      exact ⟨j, x, h1, h2, by omega⟩

/-- When the cursor has passed every key, no winning state is reachable. -/
theorem exhausted_no_win {b0 : Board} {E : List (Board × Option Board)}
    {d : Board → Nat} (inv : SearchInv b0 E.length E d) {m : Nat} {t : Board}
    (h : Reach b0 m t) : t.IsWin = .ok false := by
  rcases reach_cases inv h with ⟨h1, _⟩ | ⟨j, x, h1, h2, _⟩
  · obtain ⟨j, hj⟩ := List.getElem?_of_mem h1
    have hjl := (List.getElem?_eq_some_iff.1 hj).1
    exact inv.nowin j (by simpa using hjl) t hj
  · have hjl := (List.getElem?_eq_some_iff.1 h2).1
    simp only [List.length_map] at hjl
    omega

/-! ## Following parent links -/

namespace BoardCache

theorem ParentChain.head {c : BoardCache} {s : Board} {l : List Board}
    (h : ParentChain c s l) : ∃ l', l = s :: l' := by
  cases h with
  | root _ => exact ⟨[], rfl⟩
  | link _ _ => exact ⟨_, rfl⟩

/-- Along a parent chain the loop of `BackTrace` prints the boards of the chain
in order, starting with the board it is called with, and counts them. -/
theorem BackTraceLoop_chain {c : BoardCache} {s : Board} {l : List Board}
    (h : ParentChain c s l) : ∀ (fuel : Nat) (m : Int), l.length ≤ fuel →
    c.BackTraceLoop fuel s m = .ok (moveEvents m l, m + l.length) := by
  induction h with
  | root hp =>
    intro fuel m hf
    cases fuel with
    | zero => simp at hf
    | succ fuel =>
      simp [BackTraceLoop, hp, bind, Except.bind, pure, Except.pure, moveEvents]
  | link hp _ ih =>
    intro fuel m hf
    cases fuel with
    | zero => simp at hf
    | succ fuel =>
      simp only [List.length_cons, Nat.add_le_add_iff_right] at hf
      simp only [BackTraceLoop, hp, bind, Except.bind, ih fuel (m + 1) hf, pure, Except.pure,
        moveEvents, List.length_cons, Nat.cast_add, Nat.cast_one]
      congr 2
      omega

theorem BackTrace_chain {c : BoardCache} {s : Board} {l : List Board}
    (h : ParentChain c s l) {fuel : Nat} (hf : l.length ≤ fuel) :
    c.BackTrace fuel s =
      .ok (.backTrace :: moveEvents 0 l ++ [.movesInTotal ((l.length : Int) - 1)]) := by
  simp [BackTrace, BackTraceLoop_chain h fuel 0 hf, bind, Except.bind, pure, Except.pure]

end BoardCache

theorem find?_of_nodup_keys : ∀ (E : List (Board × Option Board)), (E.map Prod.fst).Nodup →
    ∀ e ∈ E, E.find? (fun x => decide (x.1 = e.1)) = some e := by
  intro E
  induction E with
  | nil => intro _ e he; cases he
  | cons a E ih =>
    intro hnd e he
    simp only [List.map_cons, List.nodup_cons] at hnd
    rw [List.find?_cons]
    rcases List.mem_cons.1 he with h | h
    · subst h; simp
    · have : ¬ a.1 = e.1 := by
        intro h1
        exact hnd.1 (h1 ▸ List.mem_map_of_mem _ h)
      simp only [this, decide_False]
      exact ih hnd.2 e h

theorem GetParent_of_inv {b0 : Board} {i : Nat} {E : List (Board × Option Board)}
    {d : Board → Nat} (inv : SearchInv b0 i E d) {e : Board × Option Board} (he : e ∈ E) :
    BoardCache.GetParent ⟨E⟩ e.1 = .ok e.2 := by
  simp [BoardCache.GetParent, BoardCache.findEntry_good E e.1 inv.good (inv.good e he),
    find?_of_nodup_keys E inv.nodup e he, bind, Except.bind, pure, Except.pure]

theorem GetBoardRef_of_inv {b0 : Board} {i : Nat} {E : List (Board × Option Board)}
    {d : Board → Nat} (inv : SearchInv b0 i E d) {s : Board} (hs : s ∈ E.map Prod.fst) :
    BoardCache.GetBoardRef ⟨E⟩ s = .ok s := by
  obtain ⟨e, he, rfl⟩ := List.mem_map.1 hs
  simp [BoardCache.GetBoardRef, BoardCache.findEntry_good E e.1 inv.good (inv.good e he),
    find?_of_nodup_keys E inv.nodup e he, bind, Except.bind, pure, Except.pure]

/-- Only the initial board has no parent. -/
theorem root_of_no_parent {b0 : Board} {i : Nat} {E : List (Board × Option Board)}
    {d : Board → Nat} (inv : SearchInv b0 i E d) {e : Board × Option Board} (he : e ∈ E) :
    e.2 = none ↔ e.1 = b0 := by
  constructor
  · intro h
    rcases inv.parent e he with h1 | ⟨p, h1, _⟩
    · rw [h1]
    · rw [h] at h1; cases h1
  · intro h
    have h0 : (b0, (none : Option Board)) ∈ E := List.getElem?_mem inv.root
    have e1 := find?_of_nodup_keys E inv.nodup e he
    have e2 := find?_of_nodup_keys E inv.nodup _ h0
    simp only [h] at e1
    rw [e1] at e2
    cases e2
    rfl

/-- The parent links lead from every key back to the initial board, by legal
moves, in as many steps as `d` says. -/
theorem chain_of_inv {b0 : Board} {i : Nat} {E : List (Board × Option Board)}
    {d : Board → Nat} (inv : SearchInv b0 i E d) : ∀ (n : Nat) (s : Board),
    s ∈ E.map Prod.fst → d s = n →
    ∃ path, BoardCache.ParentChain ⟨E⟩ s path ∧ path.length = n + 1 ∧
      path.getLast? = some b0 ∧ path.Chain' (fun x y => Step y x) ∧
      ∀ x ∈ path, x ∈ E.map Prod.fst := by
  intro n
  induction n with
  | zero =>
    intro s hs hd
    obtain ⟨e, he, rfl⟩ := List.mem_map.1 hs
    rcases inv.parent e he with h1 | ⟨p, _, _, h3, _⟩
    · refine ⟨[e.1], .root ?_, rfl, by rw [h1]; rfl, List.chain'_singleton _, ?_⟩
      · rw [GetParent_of_inv inv he, h1]
      · intro x hx
        simp only [List.mem_singleton] at hx
        rw [hx]; exact hs
    · omega
  | succ n ih =>
    intro s hs hd
    obtain ⟨e, he, rfl⟩ := List.mem_map.1 hs
    rcases inv.parent e he with h1 | ⟨p, h1, h2, h3, h4⟩
    · rw [h1] at hd
      simp only at hd
      rw [inv.droot] at hd
      omega
    · obtain ⟨path, c1, c2, c3, c4, c5⟩ := ih p h2 (by omega)
      obtain ⟨l', rfl⟩ := c1.head
      refine ⟨e.1 :: p :: l', .link ?_ c1, by simp at c2 ⊢; omega, ?_, ?_, ?_⟩
      · rw [GetParent_of_inv inv he, h1]
      · rw [List.getLast?_cons_cons]; exact c3
      · exact List.chain'_cons.2 ⟨h4, c4⟩
      · intro x hx
        rcases List.mem_cons.1 hx with h | h
        · rw [h]; exact hs
        · exact c5 x h

/-! ## There are finitely many placements -/

namespace Board

theorem Good.length_figures {b0 s : Board} (h : Good b0 s) :
    s.figures.length = b0.figures.length := by
  have := congrArg List.length h.2.2.2
  simpa using this

theorem Good.figure_eq {b0 x y : Board} (hx : Good b0 x) (hy : Good b0 y) {k : Nat}
    {p q : PlacedFigure} (hp : x.figures[k]? = some p) (hq : y.figures[k]? = some q) :
    p.figure = q.figure := by
  have e : x.figures.map PlacedFigure.figure = y.figures.map PlacedFigure.figure := by
    rw [hx.2.2.2, hy.2.2.2]
  have := congrArg (fun l => l[k]?) e
  simpa [List.getElem?_map, hp, hq] using this

/-- A well-formed placement is determined by the flat indices of the positions
of its pieces. -/
theorem Good.eq_of_positionCode {b0 x y : Board} (hx : Good b0 x) (hy : Good b0 y)
    (hm : 0 < (b0.width * b0.length).toNat)
    (h : ∀ k < b0.figures.length,
      x.positionCode (b0.width * b0.length).toNat hm k =
        y.positionCode (b0.width * b0.length).toNat hm k) : x = y := by
  have hwx := hx.2.1
  have hlx := hx.2.2.1
  have hwy := hy.2.1
  have hly := hy.2.2.1
  apply eq_of_figures_eq hx.1 hy.1 (by rw [hwx, hwy]) (by rw [hlx, hly])
  apply List.ext_getElem (by rw [hx.length_figures, hy.length_figures])
  intro k hk1 hk2
  have hp : x.figures[k]? = some x.figures[k] := List.getElem?_eq_getElem hk1
  have hq : y.figures[k]? = some y.figures[k] := List.getElem?_eq_getElem hk2
  have hfig := hx.figure_eq hy hp hq
  obtain ⟨l1, c1⟩ := hx.1.1 _ (List.getElem?_mem hp)
  obtain ⟨l2, c2⟩ := hy.1.1 _ (List.getElem?_mem hq)
  have i1 : x.InGrid (x.figures[k]).headCell := c1 _ (PlacedFigure.headCell_mem l1)
  have i2 : y.InGrid (y.figures[k]).headCell := c2 _ (PlacedFigure.headCell_mem l2)
  have i2x : x.InGrid (y.figures[k]).headCell := by
    simp only [InGrid, hwx, hlx]
    simp only [InGrid, hwy, hly] at i2
    exact i2
  have b1 : x.index (x.figures[k]).headCell < (b0.width * b0.length).toNat := by
    have := index_lt hx.1.2.2.1.1 i1
    rwa [hx.1.2.2.1.1, hwx, hlx] at this
  have b2 : y.index (y.figures[k]).headCell < (b0.width * b0.length).toNat := by
    have := index_lt hy.1.2.2.1.1 i2
    rwa [hy.1.2.2.1.1, hwy, hly] at this
  have hkk := h k (by rw [← hx.length_figures]; exact hk1)
  simp only [positionCode, hp, hq, b1, b2, dif_pos, Fin.mk.injEq] at hkk
  have e2 : y.index (y.figures[k]).headCell = x.index (y.figures[k]).headCell := by
    simp only [index, hwx, hwy]
  rw [e2] at hkk
  have hhead : (x.figures[k]).headCell = (y.figures[k]).headCell := by
    by_contra hne
    exact index_ne i1 i2x hne hkk
  simp only [PlacedFigure.headCell, Prod.mk.injEq] at hhead
  cases hxk : x.figures[k] with
  | mk f a b =>
    cases hyk : y.figures[k] with
    | mk g c e =>
      rw [hxk, hyk] at hhead hfig
      simp only at hhead hfig
      rw [hfig, hhead.1, hhead.2]

/-- A list of distinct well-formed placements of the pieces of `b0` on its grid
is no longer than the number of ways to choose a cell for each piece. -/
theorem good_length_le {b0 : Board} (hwf : b0.WellFormed) {L : List Board}
    (hg : ∀ s ∈ L, Good b0 s) (hnd : L.Nodup) :
    L.length ≤ (b0.width * b0.length).toNat ^ b0.figures.length := by
  have hm : 0 < (b0.width * b0.length).toNat := by
    have := mul_pos hwf.dims_pos.1 hwf.dims_pos.2
    omega
  have hinj : ∀ x ∈ L, ∀ y ∈ L,
      (fun (s : Board) (k : Fin b0.figures.length) =>
        s.positionCode (b0.width * b0.length).toNat hm k.1) x =
      (fun (s : Board) (k : Fin b0.figures.length) =>
        s.positionCode (b0.width * b0.length).toNat hm k.1) y → x = y := by
    intro x hx y hy hxy
    apply (hg x hx).eq_of_positionCode (hg y hy) hm
    intro k hk
    exact congrFun hxy ⟨k, hk⟩
  have := (List.Nodup.map_on hinj hnd).length_le_card
  simpa using this

end Board

/-! ## The outer loop of `SolveBoard` -/

theorem IsWin_ok {s : Board} (h : s.WellFormed) : ∃ r, s.IsWin = .ok r := by
  obtain ⟨p, hp, _⟩ := h.2.2.2
  rw [Option.mem_def] at hp
  exact ⟨decide (p.hor_pos = s.width - p.figure.length), by simp only [IsWin, hp]⟩

/-- From a state satisfying the invariant, with enough fuel, the outer loop is
left: either the cursor has passed every key and nothing is printed,
or it stands on a winning key whose parent chain is printed. -/
theorem solveLoop_spec {b0 : Board} (hwf : b0.WellFormed) (limit : Nat)
    (hlimit : b0.placements ≤ limit) : ∀ (fuel i : Nat) (E : List (Board × Option Board))
    (d : Board → Nat) (brd : Board), SearchInv b0 i E d → b0.placements + 1 ≤ fuel + i →
    (∀ j, i = j + 1 → (E.map Prod.fst)[j]? = some brd) →
    ∃ i' E' d' brd' out,
      solveLoop limit fuel i (SolveState.of brd E) = .ok (SolveState.of brd' E', out) ∧
      SearchInv b0 i' E' d' ∧
      ((i' = E'.length ∧ out = [] ∧ (∀ j, i' = j + 1 → (E'.map Prod.fst)[j]? = some brd')) ∨
       ((E'.map Prod.fst)[i']? = some brd' ∧ brd'.IsWin = .ok true ∧
        ∃ path, BoardCache.ParentChain ⟨E'⟩ brd' path ∧ path.length = d' brd' + 1 ∧
          path.getLast? = some b0 ∧ path.Chain' (fun x y => Step y x) ∧
          out = .backTrace :: moveEvents 0 path ++
            [.movesInTotal (d' brd'), .solved i'])) := by
  intro fuel
  induction fuel with
  | zero =>
    intro i E d brd inv hf _
    have h1 := good_length_le hwf
      (fun s hs => by obtain ⟨e, he, rfl⟩ := List.mem_map.1 hs; exact inv.good e he) inv.nodup
    have h2 := inv.cursor
    simp only [List.length_map] at h1
    simp only [placements] at hf
    omega
  | succ fuel ih =>
    intro i E d brd inv hf hb
    cases hs : (E.map Prod.fst)[i]? with
    | none =>
      refine ⟨i, E, d, brd, [], ?_, inv, Or.inl ⟨?_, rfl, hb⟩⟩
      · simp [solveLoop, SolveState.of, hs]
      · have := List.getElem?_eq_none_iff.1 hs
        have := inv.cursor
        simp only [List.length_map] at *
        omega
    | some s =>
      have hsmem : s ∈ E.map Prod.fst := List.getElem?_mem hs
      obtain ⟨e, he, he1⟩ := List.mem_map.1 hsmem
      have hgood : Good b0 s := he1 ▸ inv.good e he
      have hi : i < E.length := by
        simpa using (List.getElem?_eq_some_iff.1 hs).1
      obtain ⟨r, hr⟩ := IsWin_ok hgood.1
      cases r with
      | true =>
        obtain ⟨path, c1, c2, c3, c4, _⟩ := chain_of_inv inv (d s) s hsmem rfl
        have hlen : path.length ≤ limit := by
          have h1 := good_length_le hwf
            (fun s hs => by obtain ⟨e, he, rfl⟩ := List.mem_map.1 hs; exact inv.good e he)
            inv.nodup
          have h2 := inv.depth i s hs
          simp only [List.length_map] at h1
          simp only [placements] at hlimit
          omega
        refine ⟨i, E, d, s, _, ?_, inv, Or.inr ⟨hs, hr, path, c1, c2, c3, c4, rfl⟩⟩
        have hbt := BoardCache.BackTrace_chain c1 hlen
        simp only [SolveState.of] at hs ⊢
        simp only [solveLoop, hs, assign_eq brd hgood.1, bind, Except.bind, hr, if_true, hbt,
          pure, Except.pure, c2]
        simp
      | false =>
        obtain ⟨d', X, hv, inv'⟩ := expand_inv inv hs hr
        obtain ⟨i', E', d'', brd', out, h1, h2, h3⟩ :=
          ih (i + 1) (E ++ X) d' s inv' (by omega)
            (fun j hj => by
              have : j = i := by omega
              subst this
              exact getElem?_keys_append hs)
        refine ⟨i', E', d'', brd', out, ?_, h2, h3⟩
        have hexp := expandBoard_good s hgood inv.good
        rw [hv] at hexp
        simp only [SolveState.of] at hs hexp h1 ⊢
        simp only [solveLoop, hs, assign_eq brd hgood.1, bind, Except.bind, hr,
          Bool.false_eq_true, if_false, GetBoardRef_of_inv inv hsmem, hexp]
        exact h1

/-! ## More fuel does not change a result -/

theorem BackTraceLoop_mono (c : BoardCache) : ∀ (fuel : Nat) (s : Board) (m : Int)
    (r : List Event × Int), c.BackTraceLoop fuel s m = .ok r →
    ∀ fuel', fuel ≤ fuel' → c.BackTraceLoop fuel' s m = .ok r := by
  intro fuel
  induction fuel with
  | zero => intro s m r h; cases h
  | succ fuel ih =>
    intro s m r h fuel' hf
    cases fuel' with
    | zero => omega
    | succ fuel' =>
      simp only [BoardCache.BackTraceLoop, bind, Except.bind] at h ⊢
      cases hp : c.GetParent s with
      | error e => rw [hp] at h; cases h
      | ok o =>
        rw [hp] at h
        cases o with
        | none => exact h
        | some p =>
          simp only at h ⊢
          cases hr : c.BackTraceLoop fuel p (m + 1) with
          | error e => rw [hr] at h; cases h
          | ok r1 =>
            rw [hr] at h
            rw [ih p (m + 1) r1 hr fuel' (by omega)]
            exact h

theorem BackTrace_mono (c : BoardCache) {fuel : Nat} {s : Board} {r : List Event}
    (h : c.BackTrace fuel s = .ok r) {fuel' : Nat} (hf : fuel ≤ fuel') :
    c.BackTrace fuel' s = .ok r := by
  simp only [BoardCache.BackTrace, bind, Except.bind] at h ⊢
  cases hr : c.BackTraceLoop fuel s 0 with
  | error e => rw [hr] at h; cases h
  | ok r1 =>
    rw [hr] at h
    rw [BackTraceLoop_mono c fuel s 0 r1 hr fuel' hf]
    exact h

theorem solveLoop_mono {limit limit' : Nat} (hl : limit ≤ limit') : ∀ (fuel i : Nat)
    (st : SolveState) (r : SolveState × List Event), solveLoop limit fuel i st = .ok r →
    ∀ fuel', fuel ≤ fuel' → solveLoop limit' fuel' i st = .ok r := by
  intro fuel
  induction fuel with
  | zero => intro i st r h; cases h
  | succ fuel ih =>
    intro i st r h fuel' hf
    cases fuel' with
    | zero => omega
    | succ fuel' =>
      simp only [solveLoop] at h ⊢
      cases hs : st.states[i]? with
      | none => rw [hs] at h; exact h
      | some s =>
        rw [hs] at h
        simp only [bind, Except.bind] at h ⊢
        cases ha : st.board.assign s with
        | error e => rw [ha] at h; cases h
        | ok board =>
          rw [ha] at h
          simp only at h ⊢
          cases hw : board.IsWin with
          | error e => rw [hw] at h; cases h
          | ok w =>
            rw [hw] at h
            cases w with
            | true =>
              simp only [if_true] at h ⊢
              cases hb : st.cache.BackTrace limit board with
              | error e => rw [hb] at h; cases h
              | ok out =>
                rw [hb] at h
                rw [BackTrace_mono st.cache hb hl]
                exact h
            | false =>
              simp only [Bool.false_eq_true, if_false] at h ⊢
              cases hg : st.cache.GetBoardRef board with
              | error e => rw [hg] at h; cases h
              | ok parent =>
                rw [hg] at h
                simp only at h ⊢
                cases he : expandBoard parent { st with board := board } with
                | error e => rw [he] at h; cases h
                | ok st' =>
                  rw [he] at h
                  exact ih (i + 1) st' r h fuel' (by omega)

theorem SolveBoardBody_mono {fuel fuel' : Nat} (hf : fuel ≤ fuel') {b : Board}
    {r : SolveState × List Event} (h : SolveBoardBody fuel b = .ok r) :
    SolveBoardBody fuel' b = .ok r := by
  simp only [SolveBoardBody, bind, Except.bind] at h ⊢
  cases hc : BoardCache.new.AddBoard b none with
  | error e => rw [hc] at h; cases h
  | ok cache =>
    rw [hc] at h
    simp only at h ⊢
    cases hs : b.copy with
    | error e => rw [hs] at h; cases h
    | ok snapshot =>
      rw [hs] at h
      exact solveLoop_mono hf fuel 0 _ r h fuel' hf

/-- The search on a well-formed board: with enough fuel control arrives at the
closing brace of `SolveBoard`, in a state satisfying the invariant, either with
the cursor past every key and nothing printed, or on a winning key with its
chain printed. -/
theorem SolveBoardBody_spec {b0 : Board} (hwf : b0.WellFormed) {fuel : Nat}
    (hf : b0.placements + 1 ≤ fuel) :
    ∃ i' E' d' brd' out,
      SolveBoardBody fuel b0 = .ok (SolveState.of brd' E', out) ∧
      SearchInv b0 i' E' d' ∧
      ((i' = E'.length ∧ out = [] ∧ (∀ j, i' = j + 1 → (E'.map Prod.fst)[j]? = some brd')) ∨
       ((E'.map Prod.fst)[i']? = some brd' ∧ brd'.IsWin = .ok true ∧
        ∃ path, BoardCache.ParentChain ⟨E'⟩ brd' path ∧ path.length = d' brd' + 1 ∧
          path.getLast? = some b0 ∧ path.Chain' (fun x y => Step y x) ∧
          out = .backTrace :: moveEvents 0 path ++
            [.movesInTotal (d' brd'), .solved i'])) := by
  have h := solveLoop_spec hwf fuel (by omega) fuel 0 [(b0, none)] (fun _ => 0) b0
    (init_inv hwf) (by omega) (fun j hj => by omega)
  have e : SolveBoardBody fuel b0 = solveLoop fuel fuel 0 (SolveState.of b0 [(b0, none)]) := by
    simp [SolveBoardBody, BoardCache.AddBoard, BoardCache.new, BoardCache.assignEntry,
      copy_eq hwf, bind, Except.bind, pure, Except.pure, SolveState.of]
  rw [e]
  exact h

/-! ## The claims -/

theorem eqLoop_self : ∀ (xs : List PlacedFigure), eqLoop xs xs = .ok true := by
  intro xs
  induction xs with
  | nil => rfl
  | cons x xs ih => simp [eqLoop, PlacedFigure.eq, ih]

/-- C3: `MoveForward` and `MoveBack` are mutual inverses.  On a well-formed board,
for the piece at index `k`: if `CanMoveForward` holds, `MoveForward` followed by
`MoveBack` succeeds and yields exactly the board before, piece positions and
occupancy index alike, so that `operator==` holds between the two; and if
`CanMoveBack` holds, `MoveBack` followed by `MoveForward` does likewise. -/
theorem MoveForward_MoveBack_inverse (b : Board) (hwf : b.WellFormed) (k : Nat) :
    (b.CanMoveForward k = .ok true →
      ∃ t r, b.MoveForward k = .ok t ∧ t.MoveBack k = .ok r ∧
        r.figures = b.figures ∧ r.figure_by_pos = b.figure_by_pos ∧ r = b ∧
        r.eq b = .ok true) ∧
    (b.CanMoveBack k = .ok true →
      ∃ t r, b.MoveBack k = .ok t ∧ t.MoveForward k = .ok r ∧
        r.figures = b.figures ∧ r.figure_by_pos = b.figure_by_pos ∧ r = b ∧
        r.eq b = .ok true) := by
  constructor
  · intro h
    obtain ⟨p, hp⟩ := figure_of_CanMoveForward h
    obtain ⟨f1, _, _, f4⟩ := forward_facts hwf hp h
    exact ⟨_, b, f1, f4, rfl, rfl, rfl, eqLoop_self _⟩
  · intro h
    obtain ⟨p, hp⟩ := figure_of_CanMoveBack h
    obtain ⟨f1, _, _, f4⟩ := back_facts hwf hp h
    exact ⟨_, b, f1, f4, rfl, rfl, rfl, eqLoop_self _⟩

/-- The inverse law on the board of `RunTest`, whose piece B can move forward,
and on the board after that move, whose piece B can move back. -/
theorem MoveForward_MoveBack_inverse_witness :
    testBoard.WellFormed ∧ testBoard.CanMoveForward 1 = .ok true ∧
    testBoardB1.CanMoveBack 1 = .ok true ∧
    ((testBoard.CanMoveForward 1 = .ok true →
      ∃ t r, testBoard.MoveForward 1 = .ok t ∧ t.MoveBack 1 = .ok r ∧
        r.figures = testBoard.figures ∧ r.figure_by_pos = testBoard.figure_by_pos ∧
        r = testBoard ∧ r.eq testBoard = .ok true) ∧
    (testBoard.CanMoveBack 1 = .ok true →
      ∃ t r, testBoard.MoveBack 1 = .ok t ∧ t.MoveForward 1 = .ok r ∧
        r.figures = testBoard.figures ∧ r.figure_by_pos = testBoard.figure_by_pos ∧
        r = testBoard ∧ r.eq testBoard = .ok true)) :=
  ⟨by decide, by decide, by decide, MoveForward_MoveBack_inverse testBoard (by decide) 1⟩

/-- C6: On a well-formed board `CanMoveForward` of the piece `p` at index `k`
returns true exactly when the cell just past the highest cell of `p` along its
axis (column `hor_pos + length` for a horizontal piece, row `vert_pos + length`
for a vertical one) lies inside the grid and is unoccupied: no piece covers it,
which is the same as its slot of the occupancy index being empty. -/
theorem CanMoveForward_iff (b : Board) (hwf : b.WellFormed) (k : Nat) (p : PlacedFigure)
    (hp : b.figures[k]? = some p) :
    p.cellAhead =
      (if p.figure.orient = .kHorizontal then (p.hor_pos + p.figure.length, p.vert_pos)
       else (p.hor_pos, p.vert_pos + p.figure.length)) ∧
    ∃ r, b.CanMoveForward k = .ok r ∧
      (r = true ↔ b.InGrid p.cellAhead ∧ b.Free p.cellAhead) ∧
      (r = true ↔ b.InGrid p.cellAhead ∧ b.slot p.cellAhead = none) := by
  refine ⟨rfl, _, CanMoveForward_eq hwf.1 hwf.2.2.1 hp, ?_, ?_⟩
  · simp only [Bool.and_eq_true, decide_eq_true_eq, Option.isNone_iff_eq_none]
    constructor
    · rintro ⟨h1, h2⟩
      exact ⟨h1, (hwf.2.2.1.slot_eq_none h1).1 h2⟩
    · rintro ⟨h1, h2⟩
      exact ⟨h1, (hwf.2.2.1.slot_eq_none h1).2 h2⟩
  · simp only [Bool.and_eq_true, decide_eq_true_eq, Option.isNone_iff_eq_none]

/-- The scenario of `RunTest`: on the 4x4 board with A (length 2, horizontal) at
`(0,0)` and B (length 3, vertical) at `(2,0)`, `CanMoveForward(A)` is false and
`CanMoveForward(B)` is true; after `MoveForward(B)`, `CanMoveForward(A)` is true
and `CanMoveForward(B)` is false. -/
theorem CanMoveForward_iff_witness :
    buildTestBoard = .ok testBoard ∧ testBoard.WellFormed ∧
    testBoard.figures[1]? = some ⟨testFigure2, 2, 0⟩ ∧
    testBoard.CanMoveForward 0 = .ok false ∧ testBoard.CanMoveForward 1 = .ok true ∧
    testBoard.MoveForward 1 = .ok testBoardB1 ∧
    testBoardB1.CanMoveForward 0 = .ok true ∧ testBoardB1.CanMoveForward 1 = .ok false ∧
    ∃ r, testBoard.CanMoveForward 1 = .ok r ∧
      (r = true ↔ testBoard.InGrid (2, 3) ∧ testBoard.Free (2, 3)) ∧
      (r = true ↔ testBoard.InGrid (2, 3) ∧ testBoard.slot (2, 3) = none) :=
  ⟨by decide, by decide, by decide, by decide, by decide, by decide, by decide, by decide,
    (CanMoveForward_iff testBoard (by decide) 1 ⟨testFigure2, 2, 0⟩ (by decide)).2⟩

/-- C7: On a well-formed board `CanMoveBack` of the piece `p` at index `k` returns
true exactly when the cell just before the lowest cell of `p` along its axis
(column `hor_pos - 1` for a horizontal piece, row `vert_pos - 1` for a vertical
one) lies inside the grid and is unoccupied: no piece covers it, which is the
same as its slot of the occupancy index being empty. -/
theorem CanMoveBack_iff (b : Board) (hwf : b.WellFormed) (k : Nat) (p : PlacedFigure)
    (hp : b.figures[k]? = some p) :
    p.cellBehind =
      (if p.figure.orient = .kHorizontal then (p.hor_pos - 1, p.vert_pos)
       else (p.hor_pos, p.vert_pos - 1)) ∧
    ∃ r, b.CanMoveBack k = .ok r ∧
      (r = true ↔ b.InGrid p.cellBehind ∧ b.Free p.cellBehind) ∧
      (r = true ↔ b.InGrid p.cellBehind ∧ b.slot p.cellBehind = none) := by
  refine ⟨rfl, _, CanMoveBack_eq hwf.1 hwf.2.2.1 hp, ?_, ?_⟩
  · simp only [Bool.and_eq_true, decide_eq_true_eq, Option.isNone_iff_eq_none]
    constructor
    · rintro ⟨h1, h2⟩
      exact ⟨h1, (hwf.2.2.1.slot_eq_none h1).1 h2⟩
    · rintro ⟨h1, h2⟩
      exact ⟨h1, (hwf.2.2.1.slot_eq_none h1).2 h2⟩
  · simp only [Bool.and_eq_true, decide_eq_true_eq, Option.isNone_iff_eq_none]

/-- The scenario of `RunTest`: on the 4x4 board with A at `(0,0)` and B at
`(2,0)`, `CanMoveBack(A)` and `CanMoveBack(B)` are both false; after
`MoveForward(B)`, `CanMoveBack(B)` is true. -/
theorem CanMoveBack_iff_witness :
    buildTestBoard = .ok testBoard ∧ testBoardB1.WellFormed ∧
    testBoardB1.figures[1]? = some ⟨testFigure2, 2, 1⟩ ∧
    testBoard.CanMoveBack 0 = .ok false ∧ testBoard.CanMoveBack 1 = .ok false ∧
    testBoard.MoveForward 1 = .ok testBoardB1 ∧
    testBoardB1.CanMoveBack 0 = .ok false ∧ testBoardB1.CanMoveBack 1 = .ok true ∧
    ∃ r, testBoardB1.CanMoveBack 1 = .ok r ∧
      (r = true ↔ testBoardB1.InGrid (2, 0) ∧ testBoardB1.Free (2, 0)) ∧
      (r = true ↔ testBoardB1.InGrid (2, 0) ∧ testBoardB1.slot (2, 0) = none) :=
  ⟨by decide, by decide, by decide, by decide, by decide, by decide, by decide, by decide,
    (CanMoveBack_iff testBoardB1 (by decide) 1 ⟨testFigure2, 2, 1⟩ (by decide)).2⟩

theorem keys_good {b0 : Board} {i : Nat} {E : List (Board × Option Board)}
    {d : Board → Nat} (inv : SearchInv b0 i E d) : ∀ s ∈ E.map Prod.fst, Good b0 s := by
  intro s hs
  obtain ⟨e, he, rfl⟩ := List.mem_map.1 hs
  exact inv.good e he

/-- When the statements of `SolveBoard` up to its closing brace have printed
something on a well-formed board, what they printed is the chain of states
obtained by following the parent links of the cache from the winning state the
loop stopped on: the chain starts with that state, which satisfies `IsWin`, it
ends with the initial board, which is the only key without parent, and every
state of the chain but the last is obtained from the next one, its parent, by
one legal `MoveForward` or `MoveBack` of one piece. -/
theorem SolveBoardBody_chain_valid (b : Board) (hwf : b.WellFormed) (fuel : Nat)
    (st : SolveState) (out : List Event) (h : SolveBoardBody fuel b = .ok (st, out))
    (hout : out ≠ []) :
    ∃ (path : List Board) (analyzed : Nat),
      out = .backTrace :: moveEvents 0 path ++
        [.movesInTotal ((path.length : Int) - 1), .solved analyzed] ∧
      BoardCache.ParentChain st.cache st.board path ∧
      path.head? = some st.board ∧ st.board.IsWin = .ok true ∧
      path.getLast? = some b ∧
      (∀ e ∈ st.cache.cache_, e.2 = none ↔ e.1 = b) ∧
      path.Chain' (fun s parent => Step parent s) := by
  have hmono := SolveBoardBody_mono (Nat.le_max_left fuel (b.placements + 1)) h
  obtain ⟨i', E', d', brd', out', h1, inv, h2⟩ :=
    SolveBoardBody_spec hwf (Nat.le_max_right fuel (b.placements + 1))
  rw [hmono] at h1
  simp only [Except.ok.injEq, Prod.mk.injEq] at h1
  obtain ⟨rfl, rfl⟩ := h1
  rcases h2 with ⟨_, h3, _⟩ | ⟨h3, h4, path, c1, c2, c3, c4, c5⟩
  · exact absurd h3 hout
  · refine ⟨path, i', ?_, c1, ?_, h4, c3, fun e he => root_of_no_parent inv he, c4⟩
    · rw [c5, c2]; simp
    · obtain ⟨l', rfl⟩ := c1.head
      rfl

/-- The search loop of `SolveBoard` ends on every well-formed board, solvable
or not: with fuel above the number of placements control arrives at the closing
brace, in a state that does not depend on the fuel.  The frontier `states`
holds no state twice, every state in it is a well-formed placement of the same
pieces on the same grid, and its length is at most `(width * length) ^ pieces`,
a bound on the number of such placements. -/
theorem SolveBoardBody_terminates (b : Board) (hwf : b.WellFormed) :
    ∃ (st : SolveState) (out : List Event),
      (∀ fuel, b.placements + 1 ≤ fuel → SolveBoardBody fuel b = .ok (st, out)) ∧
      st.states.Nodup ∧
      (∀ s ∈ st.states, s.WellFormed ∧ SameShape b s) ∧
      st.states.length ≤ (b.width * b.length).toNat ^ b.figures.length := by
  obtain ⟨i', E', d', brd', out, h1, inv, _⟩ := SolveBoardBody_spec hwf (le_refl (b.placements + 1))
  exact ⟨SolveState.of brd' E', out, fun fuel hf => SolveBoardBody_mono hf h1, inv.nodup,
    keys_good inv, good_length_le hwf (keys_good inv) inv.nodup⟩

theorem lockedBoard_reach {n : Nat} {t : Board} (h : Reach lockedBoard n t) :
    t = lockedBoard := by
  induction h with
  | refl => rfl
  | step _ hst ih =>
    subst ih
    have h1 := mem_successors.2 hst
    have h2 : lockedBoard.successors = [] := by decide
    rw [h2] at h1
    cases h1

/-- C4, amended: `SolveBoard` makes no report of an exhausted frontier.  On
every well-formed board its search loop ends (with enough fuel control arrives
at the closing brace of the function), and up to there nothing has been printed
exactly when no state satisfying `IsWin` is reachable by legal moves; in that
case the frontier holds every reachable state.  An unsolvable instance differs
from a solved one only in that the output of `BackTrace` and the line `Solved!`
are absent.  The statement ends at the closing brace: what follows it is not
part of it (see `SolveBoard`). -/
theorem SolveBoardBody_silent_iff_unsolvable (b : Board) (hwf : b.WellFormed) :
    ∃ (st : SolveState) (out : List Event),
      (∀ fuel, b.placements + 1 ≤ fuel → SolveBoardBody fuel b = .ok (st, out)) ∧
      (out = [] ↔ ∀ n t, Reach b n t → t.IsWin ≠ .ok true) ∧
      (out = [] → ∀ n t, Reach b n t → t ∈ st.states) := by
  obtain ⟨i', E', d', brd', out, h1, inv, h2⟩ := SolveBoardBody_spec hwf (le_refl (b.placements + 1))
  refine ⟨SolveState.of brd' E', out, fun fuel hf => SolveBoardBody_mono hf h1, ?_, ?_⟩
  · rcases h2 with ⟨h3, h4, _⟩ | ⟨h3, h4, path, _, _, _, _, c5⟩
    · subst h3
      refine ⟨fun _ n t hr => ?_, fun _ => h4⟩
      rw [exhausted_no_win inv hr]
      decide
    · constructor
      · intro h; rw [h] at c5; cases c5
      · intro h
        obtain ⟨e, he, he1⟩ := List.mem_map.1 (List.getElem?_mem h3)
        exact absurd h4 (h _ _ (he1 ▸ inv.reach e he))
  · intro hout n t hr
    rcases h2 with ⟨h3, _, _⟩ | ⟨_, _, path, _, _, _, _, c5⟩
    · subst h3
      rcases reach_cases inv hr with ⟨h4, _⟩ | ⟨j, x, h4, h5, _⟩
      · exact h4
      · have := (List.getElem?_eq_some_iff.1 h5).1
        simp only [List.length_map] at this
        omega
    · rw [hout] at c5; cases c5

/-- Assigning to the entry of a key that is present replaces the stored parent
of the entry `find` returns and nothing else. -/
theorem assignEntry_present : ∀ (E : List (Board × Option Board)) (s : Board)
    (q : Option Board) (e : Board × Option Board),
    BoardCache.findEntry E s = .ok (some e) →
    ∃ pre post, E = pre ++ e :: post ∧
      BoardCache.assignEntry E s q = .ok (pre ++ (e.1, q) :: post) ∧
      BoardCache.findEntry (pre ++ (e.1, q) :: post) s = .ok (some (e.1, q)) := by
  intro E
  induction E with
  | nil => intro s q e h; cases h
  | cons a E ih =>
    intro s q e h
    simp only [BoardCache.findEntry, bind, Except.bind] at h
    cases heq : BoardCache.equiv a.1 s with
    | error x => rw [heq] at h; cases h
    | ok r =>
      rw [heq] at h
      cases r with
      | true =>
        simp only [if_true, pure, Except.pure, Except.ok.injEq, Option.some.injEq] at h
        subst h
        refine ⟨[], E, rfl, ?_, ?_⟩
        · simp [BoardCache.assignEntry, heq, bind, Except.bind, pure, Except.pure]
        · simp [BoardCache.findEntry, heq, bind, Except.bind, pure, Except.pure]
      | false =>
        simp only [Bool.false_eq_true, if_false] at h
        obtain ⟨pre, post, h1, h2, h3⟩ := ih s q e h
        refine ⟨a :: pre, post, by rw [h1]; rfl, ?_, ?_⟩
        · simp [BoardCache.assignEntry, heq, bind, Except.bind, pure, Except.pure, h2]
        · simp only [List.cons_append, BoardCache.findEntry, heq, bind, Except.bind,
            Bool.false_eq_true, if_false]
          exact h3

/-- C8, as stated, fails: in the cache holding the board of `RunTest` with no
parent, `AddBoard` of the same board with another parent changes the cache: the
parent stored afterwards is the new one. -/
theorem AddBoard_overwrites_parent :
    (BoardCache.mk [(testBoard, none)]).IsBoardPresent testBoard = .ok true ∧
    (BoardCache.mk [(testBoard, none)]).GetParent testBoard = .ok none ∧
    (BoardCache.mk [(testBoard, none)]).AddBoard testBoard (some testBoardB1) =
      .ok ⟨[(testBoard, some testBoardB1)]⟩ ∧
    (BoardCache.mk [(testBoard, some testBoardB1)]).GetParent testBoard =
      .ok (some testBoardB1) ∧
    BoardCache.mk [(testBoard, some testBoardB1)] ≠ BoardCache.mk [(testBoard, none)] := by
  decide

/-- C8, amended: `AddBoard` assigns.  When the cache holds a key equivalent to
`s`, with parent `p`, then `AddBoard(s, q)` keeps the keys, their order and all
other entries, and replaces the parent stored for `s` by `q`: the last recorder
wins.  (`SolveBoard` calls `AddBoard` only after `IsBoardPresent` was false.) -/
theorem AddBoard_present (c : BoardCache) (s : Board) (p q : Option Board)
    (h : c.GetParent s = .ok p) :
    ∃ c' pre key post, c.AddBoard s q = .ok c' ∧
      c.cache_ = pre ++ (key, p) :: post ∧ c'.cache_ = pre ++ (key, q) :: post ∧
      c'.cache_.map Prod.fst = c.cache_.map Prod.fst ∧
      c'.IsBoardPresent s = .ok true ∧ c'.GetParent s = .ok q := by
  simp only [BoardCache.GetParent, bind, Except.bind] at h
  cases hf : BoardCache.findEntry c.cache_ s with
  | error x => rw [hf] at h; cases h
  | ok o =>
    rw [hf] at h
    cases o with
    | none => cases h
    | some e =>
      simp only [pure, Except.pure, Except.ok.injEq] at h
      obtain ⟨pre, post, h1, h2, h3⟩ := assignEntry_present c.cache_ s q e hf
      refine ⟨⟨pre ++ (e.1, q) :: post⟩, pre, e.1, post, ?_, ?_, rfl, ?_, ?_, ?_⟩
      · simp [BoardCache.AddBoard, h2, bind, Except.bind, pure, Except.pure]
      · rw [h1, ← h]
      · rw [h1]; simp
      · simp [BoardCache.IsBoardPresent, h3, bind, Except.bind, pure, Except.pure]
      · simp [BoardCache.GetParent, h3, bind, Except.bind, pure, Except.pure]

/-- The amended C8 on the cache holding the board of `RunTest` as root. -/
theorem AddBoard_present_witness :
    (BoardCache.mk [(testBoard, none)]).GetParent testBoard = .ok none ∧
    ∃ c' pre key post,
      (BoardCache.mk [(testBoard, none)]).AddBoard testBoard (some testBoardB1) = .ok c' ∧
      (BoardCache.mk [(testBoard, none)]).cache_ = pre ++ (key, none) :: post ∧
      c'.cache_ = pre ++ (key, some testBoardB1) :: post ∧
      c'.cache_.map Prod.fst = (BoardCache.mk [(testBoard, none)]).cache_.map Prod.fst ∧
      c'.IsBoardPresent testBoard = .ok true ∧
      c'.GetParent testBoard = .ok (some testBoardB1) :=
  ⟨by decide, AddBoard_present ⟨[(testBoard, none)]⟩ testBoard none (some testBoardB1)
    (by decide)⟩

/-- C9, as stated, fails: in the test cache the parent link of the board after
`MoveForward(pfig2)` leads to the root, the board of `RunTest`; `BackTrace`
from that board prints the board itself first and the root last. -/
theorem BackTrace_starts_at_from :
    testCache.GetParent testBoardB1 = .ok (some testBoard) ∧
    testCache.GetParent testBoard = .ok none ∧
    testCache.BackTrace 5 testBoardB1 =
      .ok [.backTrace, .move 1 testBoardB1, .move 2 testBoard, .movesInTotal 1] ∧
    testBoardB1 ≠ testBoard := by
  decide

/-- C9, amended: when the parent links of the cache lead from `from` along the
chain `l` to a state without parent, `BackTrace` (with fuel for the length of
the chain) prints the states of the chain in the order of the walk: the first
state printed is `from`, the last one is the root, the state without parent;
and it reports the number of states minus one as the number of moves. -/
theorem BackTrace_order (c : BoardCache) (s : Board) (l : List Board)
    (h : BoardCache.ParentChain c s l) (fuel : Nat) (hf : l.length ≤ fuel) :
    c.BackTrace fuel s =
      .ok (.backTrace :: moveEvents 0 l ++ [.movesInTotal ((l.length : Int) - 1)]) ∧
    l.head? = some s ∧
    ∃ root, l.getLast? = some root ∧ c.GetParent root = .ok none := by
  refine ⟨BoardCache.BackTrace_chain h hf, ?_, ?_⟩
  · obtain ⟨l', rfl⟩ := h.head
    rfl
  · induction h with
    | root hp => exact ⟨_, rfl, hp⟩
    | link _ hc ih =>
      obtain ⟨l', rfl⟩ := hc.head
      obtain ⟨r, h1, h2⟩ := ih (by simp at hf ⊢; omega)
      exact ⟨r, by rw [List.getLast?_cons_cons]; exact h1, h2⟩

/-- The amended C9 on the test cache. -/
theorem BackTrace_order_witness :
    BoardCache.ParentChain testCache testBoardB1 [testBoardB1, testBoard] ∧
    testCache.BackTrace 5 testBoardB1 =
      .ok (.backTrace :: moveEvents 0 [testBoardB1, testBoard] ++
        [.movesInTotal ((([testBoardB1, testBoard] : List Board).length : Int) - 1)]) ∧
    ([testBoardB1, testBoard] : List Board).head? = some testBoardB1 ∧
    ∃ root, ([testBoardB1, testBoard] : List Board).getLast? = some root ∧
      testCache.GetParent root = .ok none :=
  have hc : BoardCache.ParentChain testCache testBoardB1 [testBoardB1, testBoard] :=
    .link (by decide) (.root (by decide))
  ⟨hc, BackTrace_order testCache testBoardB1 [testBoardB1, testBoard] hc 5 (by decide)⟩

/-- Marking a list of distinct cells of the grid one of which is occupied
fails at the assertion of `SetFigureAtPos`. -/
theorem mark_cells_occupied (k : Nat) : ∀ (cs : List (Int × Int)) (a : Board),
    a.figure_by_pos.length = (a.width * a.length).toNat →
    (∀ c ∈ cs, a.InGrid c) → cs.Nodup → (∃ c ∈ cs, a.slot c ≠ none) →
    cs.foldlM (fun (acc : Board) c => acc.SetFigureAtPos (some k) c.1 c.2) a =
      .error .assertion := by
  intro cs
  induction cs with
  | nil => intro a _ _ _ h; obtain ⟨c, hc, _⟩ := h; cases hc
  | cons c cs ih =>
    intro a hlen hin hnd hocc
    have hc : a.InGrid c := hin c (List.mem_cons_self _ _)
    have hnd1 := List.nodup_cons.1 hnd
    rw [List.foldlM_cons, SetFigureAtPos_some hlen hc k]
    cases hs : a.slot c with
    | some j => rfl
    | none =>
      simp only [Option.isSome_none, Bool.false_eq_true, if_false, bind, Except.bind]
      obtain ⟨c', hc', hocc'⟩ := hocc
      have hc'cs : c' ∈ cs := by
        rcases List.mem_cons.1 hc' with h | h
        · subst h; exact absurd hs hocc'
        · exact h
      have hlen1 : (a.figure_by_pos.set (a.index c) (some k)).length =
          (a.width * a.length).toNat := by rw [List.length_set, hlen]
      apply ih { a with figure_by_pos := a.figure_by_pos.set (a.index c) (some k) } hlen1
        (fun d hd => hin d (List.mem_cons_of_mem _ hd)) hnd1.2
      refine ⟨c', hc'cs, ?_⟩
      have hdin : a.InGrid c' := hin c' hc'
      rw [slot_set hlen hc hdin, if_neg (by rintro rfl; exact hnd1.1 hc'cs)]
      exact hocc'

theorem footprint_nodup (figure : Figure) (h v : Int) : (footprint figure h v).Nodup :=
  cells_nodup ⟨figure, h, v⟩

/-- C10: For a board (its index has one slot per cell of the grid, and it holds
at most 12 pieces, as every board made by the constructor and `AddFigure` does)
and a placement whose footprint lies inside the grid, `AddFigure` fails, by an
assertion, if and only if the board already holds 12 pieces or the slot of at
least one cell of the footprint is occupied; otherwise it returns the board
with the piece appended and its cells marked. -/
theorem AddFigure_fails_iff (b : Board) (figure : Figure) (hor_pos vert_pos : Int)
    (hlen : b.figure_by_pos.length = (b.width * b.length).toNat)
    (hcap : b.figures.length ≤ kMaxFigures)
    (hin : ∀ c ∈ footprint figure hor_pos vert_pos, b.InGrid c) :
    (b.AddFigure figure hor_pos vert_pos = .error .assertion ↔
      b.figures.length = kMaxFigures ∨
        ∃ c ∈ footprint figure hor_pos vert_pos, b.slot c ≠ none) ∧
    (¬ (b.figures.length = kMaxFigures ∨
        ∃ c ∈ footprint figure hor_pos vert_pos, b.slot c ≠ none) →
      ∃ b', b.AddFigure figure hor_pos vert_pos = .ok b' ∧
        b'.width = b.width ∧ b'.length = b.length ∧
        b'.figures = b.figures ++ [⟨figure, hor_pos, vert_pos⟩] ∧
        ∀ c, b.InGrid c → b'.slot c =
          if c ∈ footprint figure hor_pos vert_pos then some b.figures.length
          else b.slot c) := by
  have hp : (b.figures ++ [(⟨figure, hor_pos, vert_pos⟩ : PlacedFigure)])[b.figures.length]? =
      some ⟨figure, hor_pos, vert_pos⟩ := by simp
  have hadd : b.figures.length < kMaxFigures →
      b.AddFigure figure hor_pos vert_pos =
        (footprint figure hor_pos vert_pos).foldlM
          (fun (acc : Board) c => acc.SetFigureAtPos (some b.figures.length) c.1 c.2)
          { b with figures := b.figures ++ [⟨figure, hor_pos, vert_pos⟩] } := by
    intro hlt
    rw [AddFigure, if_pos hlt,
      AddFigureToPos_eq (b := { b with figures := b.figures ++ [⟨figure, hor_pos, vert_pos⟩] })
        hp]
    rfl
  have hfull : b.figures.length = kMaxFigures →
      b.AddFigure figure hor_pos vert_pos = .error .assertion := by
    intro h
    rw [AddFigure, if_neg (by omega)]
  have hocc : b.figures.length < kMaxFigures →
      (∃ c ∈ footprint figure hor_pos vert_pos, b.slot c ≠ none) →
      b.AddFigure figure hor_pos vert_pos = .error .assertion := by
    intro hlt h
    rw [hadd hlt]
    exact mark_cells_occupied _ _
      { b with figures := b.figures ++ [⟨figure, hor_pos, vert_pos⟩] } hlen hin
      (footprint_nodup _ _ _) h
  have hfree : ¬ (b.figures.length = kMaxFigures ∨
        ∃ c ∈ footprint figure hor_pos vert_pos, b.slot c ≠ none) →
      ∃ b', b.AddFigure figure hor_pos vert_pos = .ok b' ∧
        b'.width = b.width ∧ b'.length = b.length ∧
        b'.figures = b.figures ++ [⟨figure, hor_pos, vert_pos⟩] ∧
        ∀ c, b.InGrid c → b'.slot c =
          if c ∈ footprint figure hor_pos vert_pos then some b.figures.length
          else b.slot c := by
    intro h
    simp only [not_or, not_exists, not_and, not_not] at h
    obtain ⟨F, hF, _, hslot⟩ := mark_cells b.figures.length (footprint figure hor_pos vert_pos)
      { b with figures := b.figures ++ [⟨figure, hor_pos, vert_pos⟩] } hlen hin
      (footprint_nodup _ _ _) h.2
    exact ⟨{ b with figures := b.figures ++ [⟨figure, hor_pos, vert_pos⟩], figure_by_pos := F },
      by rw [hadd (by omega)]; exact hF, rfl, rfl, rfl, hslot⟩
  refine ⟨⟨fun h => ?_, fun h => ?_⟩, hfree⟩
  · by_contra hcon
    obtain ⟨b', hb', _⟩ := hfree hcon
    rw [hb'] at h
    cases h
  · rcases h with h | h
    · exact hfull h
    · by_cases hlt : b.figures.length < kMaxFigures
      · exact hocc hlt h
      · exact hfull (by omega)

/-- The second `AddFigure` of `RunTest` succeeds, and adding the same piece once
more on the cells it now covers fails. -/
theorem AddFigure_fails_iff_witness :
    testBoardA.figure_by_pos.length = (testBoardA.width * testBoardA.length).toNat ∧
    testBoardA.figures.length ≤ kMaxFigures ∧
    (∀ c ∈ footprint testFigure2 2 0, testBoardA.InGrid c) ∧
    testBoardA.AddFigure testFigure2 2 0 = .ok testBoard ∧
    testBoard.AddFigure testFigure2 2 0 = .error .assertion ∧
    ((testBoardA.AddFigure testFigure2 2 0 = .error .assertion ↔
      testBoardA.figures.length = kMaxFigures ∨
        ∃ c ∈ footprint testFigure2 2 0, testBoardA.slot c ≠ none) ∧
    (¬ (testBoardA.figures.length = kMaxFigures ∨
        ∃ c ∈ footprint testFigure2 2 0, testBoardA.slot c ≠ none) →
      ∃ b', testBoardA.AddFigure testFigure2 2 0 = .ok b' ∧
        b'.width = testBoardA.width ∧ b'.length = testBoardA.length ∧
        b'.figures = testBoardA.figures ++ [⟨testFigure2, 2, 0⟩] ∧
        ∀ c, testBoardA.InGrid c → b'.slot c =
          if c ∈ footprint testFigure2 2 0 then some testBoardA.figures.length
          else testBoardA.slot c)) :=
  ⟨by decide, by decide, by decide, by decide, by decide,
    AddFigure_fails_iff testBoardA testFigure2 2 0 (by decide) (by decide) (by decide)⟩

/-! ## Placements that leave the grid -/

namespace Board

end Board

theorem cellAhead_ne_headCell {p : PlacedFigure} (h : 1 ≤ p.figure.length) :
    p.cellAhead ≠ p.headCell := by
  cases p with
  | mk f x y =>
    simp only at h
    by_cases ho : f.orient = .kHorizontal
    · simp only [PlacedFigure.cellAhead, PlacedFigure.headCell, ho, if_true, ne_eq,
        Prod.mk.injEq]
      omega
    · simp only [PlacedFigure.cellAhead, PlacedFigure.headCell, ho, if_false, ne_eq,
        Prod.mk.injEq]
      omega

/-- C12, as stated, fails: on the well-formed board `testBoardB3` piece A touches
the right edge, so `CanMoveForward(A)` is false; yet `MoveForward(A)` fails no
assertion: it completes and returns a modified board, on which A is stored at
`(3,0)` and holds the slot of the cell `(0,1)`. -/
theorem MoveForward_over_edge_completes :
    testBoardB3.WellFormed ∧ testBoardB3.CanMoveForward 0 = .ok false ∧
    testBoardB3.MoveForward 0 = .ok overEdgeBoard ∧ overEdgeBoard ≠ testBoardB3 := by
  decide

/-- C12, amended: on a well-formed board, for a piece whose cell ahead lies
inside the grid and is occupied, `CanMoveForward` is false and `MoveForward` is
fatal: the assertion of `SetFigureAtPos` fails and the call does not complete. -/
theorem MoveForward_blocked (b : Board) (hwf : b.WellFormed) (k : Nat) (p : PlacedFigure)
    (hp : b.figures[k]? = some p) (hin : b.InGrid p.cellAhead)
    (hocc : ¬ b.Free p.cellAhead) :
    b.CanMoveForward k = .ok false ∧ b.MoveForward k = .error .assertion := by
  obtain ⟨hg, _, hc, _⟩ := hwf
  obtain ⟨hl, hcells⟩ := hg p (List.getElem?_mem hp)
  have hs : b.slot p.cellAhead ≠ none := fun h => hocc ((hc.slot_eq_none hin).1 h)
  have hh : b.InGrid p.headCell := hcells _ (PlacedFigure.headCell_mem hl)
  have sh : b.slot p.headCell = some k :=
    (hc.slot_eq_some hh k).2 ⟨p, hp, PlacedFigure.headCell_mem hl⟩
  constructor
  · rw [CanMoveForward_eq hg hc hp]
    cases h : b.slot p.cellAhead with
    | none => exact absurd h hs
    | some j => simp
  · have hlen1 : (b.figure_by_pos.set (b.index p.headCell) none).length =
        (b.width * b.length).toNat := by rw [List.length_set, hc.1]
    have hne := cellAhead_ne_headCell hl
    have h1 := SetFigureAtPos_none hc.1 hh
    unfold MoveForward
    rw [hp]
    simp only [PlacedFigure.headCell] at hh sh h1 hne hlen1
    simp only [GetFigureAtPos_inGrid hc.1 hh, sh, bind, Except.bind, ne_eq, not_true_eq_false,
      if_false, h1]
    by_cases ho : p.figure.orient = .kHorizontal
    · simp only [PlacedFigure.cellAhead, ho, if_true] at hin hs hne ⊢
      rw [SetFigureAtPos_some
        (b := { b with figure_by_pos := b.figure_by_pos.set (b.index (p.hor_pos, p.vert_pos)) none })
        hlen1 hin k, slot_set hc.1 hh hin, if_neg hne]
      cases h : b.slot (p.hor_pos + p.figure.length, p.vert_pos) with
      | none => exact absurd h hs
      | some j => rfl
    · simp only [PlacedFigure.cellAhead, ho, if_false] at hin hs hne ⊢
      rw [SetFigureAtPos_some
        (b := { b with figure_by_pos := b.figure_by_pos.set (b.index (p.hor_pos, p.vert_pos)) none })
        hlen1 hin k, slot_set hc.1 hh hin, if_neg hne]
      cases h : b.slot (p.hor_pos, p.vert_pos + p.figure.length) with
      | none => exact absurd h hs
      | some j => rfl

/-- The amended C12 on the board of `RunTest`, where piece B blocks piece A. -/
theorem MoveForward_blocked_witness :
    testBoard.WellFormed ∧ testBoard.figures[0]? = some ⟨testFigure1, 0, 0⟩ ∧
    testBoard.InGrid (2, 0) ∧ ¬ testBoard.Free (2, 0) ∧
    testBoard.CanMoveForward 0 = .ok false ∧ testBoard.MoveForward 0 = .error .assertion :=
  have hocc : ¬ testBoard.Free (2, 0) := fun h =>
    h ⟨testFigure2, 2, 0⟩ (by decide) (by decide)
  ⟨by decide, by decide, by decide, hocc,
    MoveForward_blocked testBoard (by decide) 0 ⟨testFigure1, 0, 0⟩ (by decide) (by decide)
      hocc⟩

/-! ## The order on boards is lexicographic -/

theorem PlacedFigure.eq_iff_key (x y : PlacedFigure) : x.eq y = true ↔ x.key = y.key := by
  simp [PlacedFigure.eq, PlacedFigure.key, and_assoc]

theorem PlacedFigure.lt_iff_key (x y : PlacedFigure) : x.lt y = true ↔ keyLt x.key y.key := by
  simp only [PlacedFigure.lt, PlacedFigure.key, keyLt, ne_eq]
  by_cases h1 : x.figure.addr = y.figure.addr
  · by_cases h2 : x.hor_pos = y.hor_pos
    · by_cases h3 : x.vert_pos = y.vert_pos
      · simp [h1, h2, h3]
      · simp [h1, h2, h3]
    · simp [h1, h2]
  · simp [h1]

theorem lex_cons_inv {α : Type} {r : α → α → Prop} {a b : α} {l₁ l₂ : List α}
    (h : List.Lex r (a :: l₁) (b :: l₂)) : r a b ∨ (a = b ∧ List.Lex r l₁ l₂) := by
  cases h with
  | cons h => exact Or.inr ⟨rfl, h⟩
  | rel h => exact Or.inl h

theorem ltLoop_lex : ∀ (xs ys : List PlacedFigure), xs.length = ys.length →
    ∃ r, ltLoop xs ys = .ok r ∧
      (r = true ↔ List.Lex keyLt (xs.map PlacedFigure.key) (ys.map PlacedFigure.key)) := by
  intro xs
  induction xs with
  | nil =>
    intro ys h
    cases ys with
    | nil => exact ⟨false, rfl, by simp⟩
    | cons y ys => simp at h
  | cons x xs ih =>
    intro ys h
    cases ys with
    | nil => simp at h
    | cons y ys =>
      simp only [List.length_cons, Nat.add_right_cancel_iff] at h
      obtain ⟨r, h1, h2⟩ := ih ys h
      simp only [ltLoop, List.map_cons]
      by_cases hxy : x.eq y = true
      · have hk := (PlacedFigure.eq_iff_key x y).1 hxy
        refine ⟨r, by simp [hxy, h1], ?_⟩
        rw [h2, hk, List.Lex.cons_iff]
      · have hk : ¬ x.key = y.key := fun e => hxy ((PlacedFigure.eq_iff_key x y).2 e)
        by_cases hlt : x.lt y = true
        · refine ⟨true, by simp [hxy, hlt], ?_⟩
          simp only [true_iff]
          exact List.Lex.rel ((PlacedFigure.lt_iff_key x y).1 hlt)
        · refine ⟨false, by simp [hxy, hlt], ?_⟩
          simp only [Bool.false_eq_true, false_iff]
          intro hlex
          rcases lex_cons_inv hlex with hr | ⟨he, _⟩
          · exact hlt ((PlacedFigure.lt_iff_key x y).2 hr)
          · exact hk he

theorem eqLoop_keys : ∀ (xs ys : List PlacedFigure), xs.length = ys.length →
    ∃ r, eqLoop xs ys = .ok r ∧
      (r = true ↔ xs.map PlacedFigure.key = ys.map PlacedFigure.key) := by
  intro xs
  induction xs with
  | nil =>
    intro ys h
    cases ys with
    | nil => exact ⟨true, rfl, by simp⟩
    | cons y ys => simp at h
  | cons x xs ih =>
    intro ys h
    cases ys with
    | nil => simp at h
    | cons y ys =>
      simp only [List.length_cons, Nat.add_right_cancel_iff] at h
      obtain ⟨r, h1, h2⟩ := ih ys h
      simp only [eqLoop, List.map_cons, List.cons.injEq]
      by_cases hxy : x.eq y = true
      · have hk := (PlacedFigure.eq_iff_key x y).1 hxy
        exact ⟨r, by simp [hxy, h1], by rw [h2]; simp [hk]⟩
      · have hk : ¬ x.key = y.key := fun e => hxy ((PlacedFigure.eq_iff_key x y).2 e)
        exact ⟨false, by simp [hxy], by simp [hk]⟩

theorem Board.SameIdentity.length_eq {a b : Board} (h : SameIdentity a b) :
    a.figures.length = b.figures.length := by
  have := congrArg List.length h
  simpa using this

/-- C13: On boards holding the same number of pieces with the same figure
identity at each index, `operator<` and `operator==` of `Board` succeed and
depend on the piece sequences only, not on the grid dimensions or the occupancy
index; `operator==` holds exactly when the sequences are element-wise equal;
`operator<` is the lexicographic order of the sequences under the order of
`PlacedFigure` on (figure identity, `hor_pos`, `vert_pos`); it is irreflexive
and transitive, and of `a < b`, `b < a`, `a == b` exactly one holds. -/
theorem Board_order_strict_total (a b c : Board) (hab : SameIdentity a b)
    (hbc : SameIdentity b c) :
    (∀ a' b' : Board, a'.figures = a.figures → b'.figures = b.figures →
      a'.lt b' = a.lt b ∧ a'.eq b' = a.eq b) ∧
    (∃ r, a.eq b = .ok r ∧ (r = true ↔ a.keys = b.keys)) ∧
    (∃ r, a.lt b = .ok r ∧ (r = true ↔ List.Lex keyLt a.keys b.keys)) ∧
    a.lt a = .ok false ∧
    (a.lt b = .ok true → b.lt c = .ok true → a.lt c = .ok true) ∧
    (∃ r1 r2 r3, a.lt b = .ok r1 ∧ b.lt a = .ok r2 ∧ a.eq b = .ok r3 ∧
      ((r1 = true ∧ r2 = false ∧ r3 = false) ∨ (r1 = false ∧ r2 = true ∧ r3 = false) ∨
        (r1 = false ∧ r2 = false ∧ r3 = true))) := by
  have lab := hab.length_eq
  have lbc := hbc.length_eq
  obtain ⟨r1, h1, e1⟩ := ltLoop_lex a.figures b.figures lab
  obtain ⟨r2, h2, e2⟩ := ltLoop_lex b.figures a.figures lab.symm
  obtain ⟨r3, h3, e3⟩ := eqLoop_keys a.figures b.figures lab
  obtain ⟨r4, h4, e4⟩ := ltLoop_lex a.figures a.figures rfl
  obtain ⟨r5, h5, e5⟩ := ltLoop_lex b.figures c.figures lbc
  obtain ⟨r6, h6, e6⟩ := ltLoop_lex a.figures c.figures (lab.trans lbc)
  refine ⟨?_, ⟨r3, h3, e3⟩, ⟨r1, h1, e1⟩, ?_, ?_, ⟨r1, r2, r3, h1, h2, h3, ?_⟩⟩
  · intro a' b' ha hb
    simp only [Board.lt, Board.eq, ha, hb, and_self]
  · have : r4 = false := by
      cases r4 with
      | false => rfl
      | true => exact absurd (e4.1 rfl) (IsIrrefl.irrefl _)
    rw [Board.lt, h4, this]
  · intro hx hy
    rw [Board.lt, h1] at hx
    rw [Board.lt, h5] at hy
    cases hx
    cases hy
    have := IsTrans.trans _ _ _ (e1.1 rfl) (e5.1 rfl)
    rw [Board.lt, h6, e6.2 this]
  · have tri : List.Lex keyLt a.keys b.keys ∨ a.keys = b.keys ∨ List.Lex keyLt b.keys a.keys :=
      IsTrichotomous.trichotomous a.keys b.keys
    rcases tri with h | h | h
    · have x1 : r1 = true := e1.2 h
      have x2 : r2 = false := by
        cases r2 with
        | false => rfl
        | true => exact absurd (e2.1 rfl) (IsAsymm.asymm _ _ h)
      have x3 : r3 = false := by
        cases r3 with
        | false => rfl
        | true =>
          have := e3.1 rfl
          simp only [Board.keys] at h
          rw [this] at h
          exact absurd h (IsIrrefl.irrefl _)
      exact Or.inl ⟨x1, x2, x3⟩
    · have x3 : r3 = true := e3.2 h
      simp only [Board.keys] at h
      have x1 : r1 = false := by
        cases r1 with
        | false => rfl
        | true =>
          have := e1.1 rfl
          rw [h] at this
          exact absurd this (IsIrrefl.irrefl _)
      have x2 : r2 = false := by
        cases r2 with
        | false => rfl
        | true =>
          have := e2.1 rfl
          rw [h] at this
          exact absurd this (IsIrrefl.irrefl _)
      exact Or.inr (Or.inr ⟨x1, x2, x3⟩)
    · have x2 : r2 = true := e2.2 h
      have x1 : r1 = false := by
        cases r1 with
        | false => rfl
        | true => exact absurd (e1.1 rfl) (IsAsymm.asymm _ _ h)
      have x3 : r3 = false := by
        cases r3 with
        | false => rfl
        | true =>
          have := e3.1 rfl
          simp only [Board.keys] at h
          rw [this] at h
          exact absurd h (IsIrrefl.irrefl _)
      exact Or.inr (Or.inl ⟨x1, x2, x3⟩)

/-- The order on the boards `testBoard`, `testBoardB1` and `testBoardB2`, which
hold the same two pieces. -/
theorem Board_order_strict_total_witness :
    SameIdentity testBoard testBoardB1 ∧ SameIdentity testBoardB1 testBoardB2 ∧
    testBoard.lt testBoardB1 = .ok true ∧ testBoardB1.lt testBoardB2 = .ok true ∧
    ((∀ a' b' : Board, a'.figures = testBoard.figures → b'.figures = testBoardB1.figures →
      a'.lt b' = testBoard.lt testBoardB1 ∧ a'.eq b' = testBoard.eq testBoardB1) ∧
    (∃ r, testBoard.eq testBoardB1 = .ok r ∧ (r = true ↔ testBoard.keys = testBoardB1.keys)) ∧
    (∃ r, testBoard.lt testBoardB1 = .ok r ∧
      (r = true ↔ List.Lex keyLt testBoard.keys testBoardB1.keys)) ∧
    testBoard.lt testBoard = .ok false ∧
    (testBoard.lt testBoardB1 = .ok true → testBoardB1.lt testBoardB2 = .ok true →
      testBoard.lt testBoardB2 = .ok true) ∧
    (∃ r1 r2 r3, testBoard.lt testBoardB1 = .ok r1 ∧ testBoardB1.lt testBoard = .ok r2 ∧
      testBoard.eq testBoardB1 = .ok r3 ∧
      ((r1 = true ∧ r2 = false ∧ r3 = false) ∨ (r1 = false ∧ r2 = true ∧ r3 = false) ∨
        (r1 = false ∧ r2 = false ∧ r3 = true)))) :=
  ⟨by decide, by decide, by decide, by decide,
    Board_order_strict_total testBoard testBoardB1 testBoardB2 (by decide) (by decide)⟩

/-! ## Membership in the cache -/

theorem foldlM_invariant {α β : Type} (P : α → Prop) (f : α → β → Except Fault α)
    (hf : ∀ acc x acc', f acc x = .ok acc' → P acc → P acc') :
    ∀ (l : List β) (init r : α), P init → l.foldlM f init = .ok r → P r := by
  intro l
  induction l with
  | nil =>
    intro init r hi h
    simp only [List.foldlM_nil, pure, Except.pure, Except.ok.injEq] at h
    exact h ▸ hi
  | cons x l ih =>
    intro init r hi h
    rw [List.foldlM_cons] at h
    cases hx : f init x with
    | error e => rw [hx] at h; cases h
    | ok acc =>
      rw [hx] at h
      exact ih acc r (hf init x acc hx hi) h

theorem SetFigureAtPos_frame {b b' : Board} {o : Option Nat} {h v : Int}
    (hb : b.SetFigureAtPos o h v = .ok b') :
    b'.width = b.width ∧ b'.length = b.length ∧ b'.figures = b.figures := by
  unfold SetFigureAtPos at hb
  simp only [bind, Except.bind, pure, Except.pure] at hb
  split at hb
  · split at hb
    · cases hb
    · split at hb
      · cases hb
      · split at hb
        · cases hb; exact ⟨rfl, rfl, rfl⟩
        · cases hb
  · split at hb
    · cases hb; exact ⟨rfl, rfl, rfl⟩
    · cases hb

theorem AddFigureToPos_frame {b b' : Board} {k : Nat} (hb : b.AddFigureToPos k = .ok b') :
    b'.width = b.width ∧ b'.length = b.length ∧ b'.figures = b.figures := by
  unfold AddFigureToPos at hb
  cases hp : b.figures[k]? with
  | none => rw [hp] at hb; cases hb
  | some p =>
    rw [hp] at hb
    refine foldlM_invariant
      (fun acc => acc.width = b.width ∧ acc.length = b.length ∧ acc.figures = b.figures) _ ?_
      _ b b' ⟨rfl, rfl, rfl⟩ hb
    intro acc i acc' h hacc
    simp only at h
    split at h
    · obtain ⟨h1, h2, h3⟩ := SetFigureAtPos_frame h
      exact ⟨h1.trans hacc.1, h2.trans hacc.2.1, h3.trans hacc.2.2⟩
    · obtain ⟨h1, h2, h3⟩ := SetFigureAtPos_frame h
      exact ⟨h1.trans hacc.1, h2.trans hacc.2.1, h3.trans hacc.2.2⟩

theorem RecomputeFigureByPos_frame {b b' : Board} (hb : b.RecomputeFigureByPos = .ok b') :
    b'.width = b.width ∧ b'.length = b.length ∧ b'.figures = b.figures := by
  unfold RecomputeFigureByPos at hb
  split at hb
  · cases hb
  · refine foldlM_invariant
      (fun acc => acc.width = b.width ∧ acc.length = b.length ∧ acc.figures = b.figures) _ ?_
      _ _ b' ⟨rfl, rfl, rfl⟩ hb
    intro acc i acc' h hacc
    obtain ⟨h1, h2, h3⟩ := AddFigureToPos_frame h
    exact ⟨h1.trans hacc.1, h2.trans hacc.2.1, h3.trans hacc.2.2⟩

/-- A copy of a board has the grid and the pieces of the board. -/
theorem copy_frame {s s' : Board} (h : s.copy = .ok s') :
    s'.width = s.width ∧ s'.length = s.length ∧ s'.figures = s.figures :=
  RecomputeFigureByPos_frame h

/-- On boards with the same number of pieces, two keys are equivalent for the
map exactly when their sequences of triples are equal. -/
theorem equiv_keys {a b : Board} (h : a.figures.length = b.figures.length) :
    BoardCache.equiv a b = .ok (decide (a.keys = b.keys)) := by
  obtain ⟨r1, h1, e1⟩ := ltLoop_lex a.figures b.figures h
  obtain ⟨r2, h2, e2⟩ := ltLoop_lex b.figures a.figures h.symm
  simp only [BoardCache.equiv, Board.lt, h1, h2, bind, Except.bind, pure, Except.pure]
  congr 1
  have tri : List.Lex keyLt a.keys b.keys ∨ a.keys = b.keys ∨ List.Lex keyLt b.keys a.keys :=
    IsTrichotomous.trichotomous a.keys b.keys
  by_cases hk : a.keys = b.keys
  · have x1 : r1 = false := by
      cases r1 with
      | false => rfl
      | true =>
        have := e1.1 rfl
        simp only [Board.keys] at hk
        rw [hk] at this
        exact absurd this (IsIrrefl.irrefl _)
    have x2 : r2 = false := by
      cases r2 with
      | false => rfl
      | true =>
        have := e2.1 rfl
        simp only [Board.keys] at hk
        rw [hk] at this
        exact absurd this (IsIrrefl.irrefl _)
    simp [x1, x2, hk]
  · rcases tri with t | t | t
    · simp [e1.2 t, hk]
    · exact absurd t hk
    · simp [e2.2 t, hk]

theorem eq_keys {a b : Board} (h : a.figures.length = b.figures.length) :
    a.eq b = .ok (decide (a.keys = b.keys)) := by
  obtain ⟨r, h1, e1⟩ := eqLoop_keys a.figures b.figures h
  rw [Board.eq, h1]
  congr 1
  by_cases hk : a.keys = b.keys
  · simp [hk, e1.2 hk]
  · cases r with
    | false => simp [hk]
    | true => exact absurd (e1.1 rfl) hk

theorem findEntry_keys : ∀ (E : List (Board × Option Board)) (t : Board),
    (∀ e ∈ E, e.1.figures.length = t.figures.length) →
    BoardCache.findEntry E t = .ok (E.find? (fun e => decide (e.1.keys = t.keys))) := by
  intro E
  induction E with
  | nil => intro t _; rfl
  | cons e E ih =>
    intro t hE
    simp only [BoardCache.findEntry, equiv_keys (hE e (List.mem_cons_self _ _)), bind,
      Except.bind, pure, Except.pure, List.find?_cons]
    by_cases h : e.1.keys = t.keys
    · simp [h]
    · simp only [h, decide_False, Bool.false_eq_true, if_false]
      exact ih t (fun x hx => hE x (List.mem_cons_of_mem _ hx))

theorem assignEntry_absent : ∀ (E : List (Board × Option Board)) (s s' : Board)
    (q : Option Board), (∀ e ∈ E, e.1.figures.length = s.figures.length) →
    s.copy = .ok s' → (∀ e ∈ E, e.1.keys ≠ s.keys) →
    BoardCache.assignEntry E s q = .ok (E ++ [(s', q)]) := by
  intro E
  induction E with
  | nil =>
    intro s s' q _ hc _
    simp [BoardCache.assignEntry, hc, bind, Except.bind, pure, Except.pure]
  | cons e E ih =>
    intro s s' q hE hc hno
    have h : ¬ e.1.keys = s.keys := hno e (List.mem_cons_self _ _)
    simp only [BoardCache.assignEntry, equiv_keys (hE e (List.mem_cons_self _ _)), bind,
      Except.bind, pure, Except.pure, h, decide_False, Bool.false_eq_true, if_false]
    rw [ih s s' q (fun x hx => hE x (List.mem_cons_of_mem _ hx)) hc
      (fun x hx => hno x (List.mem_cons_of_mem _ hx))]
    rfl

theorem IsBoardPresent_keys (E : List (Board × Option Board)) (t : Board)
    (hE : ∀ e ∈ E, e.1.figures.length = t.figures.length) :
    BoardCache.IsBoardPresent ⟨E⟩ t = .ok (decide (t.keys ∈ E.map (fun e => e.1.keys))) := by
  simp only [BoardCache.IsBoardPresent, findEntry_keys E t hE, bind, Except.bind, pure,
    Except.pure]
  congr 1
  by_cases h : t.keys ∈ E.map (fun e => e.1.keys)
  · simp only [h, decide_True, List.find?_isSome]
    obtain ⟨e, he, hk⟩ := List.mem_map.1 h
    exact ⟨e, he, by simpa using hk⟩
  · simp only [h, decide_False]
    rw [Bool.eq_false_iff]
    intro hh
    obtain ⟨e, he, hk⟩ := List.find?_isSome.1 hh
    exact h (List.mem_map.2 ⟨e, he, by simpa using hk⟩)

/-- The keys of the cache after `AddBoard(s, q)` are the keys before and `s`. -/
theorem assignEntry_keys (E : List (Board × Option Board)) (s s' : Board) (q : Option Board)
    (hE : ∀ e ∈ E, e.1.figures.length = s.figures.length) (hc : s.copy = .ok s') :
    ∃ E', BoardCache.assignEntry E s q = .ok E' ∧
      (∀ e ∈ E', e.1.figures.length = s.figures.length) ∧
      ∀ k, k ∈ E'.map (fun e => e.1.keys) ↔ (k ∈ E.map (fun e => e.1.keys) ∨ k = s.keys) := by
  cases hf : E.find? (fun e => decide (e.1.keys = s.keys)) with
  | some e =>
    have hfe : BoardCache.findEntry E s = .ok (some e) := by rw [findEntry_keys E s hE, hf]
    obtain ⟨pre, post, h1, h2, _⟩ := assignEntry_present E s q e hfe
    have hek : e.1.keys = s.keys := by simpa using List.find?_some hf
    have hmem : e ∈ E := by rw [h1]; simp
    refine ⟨_, h2, ?_, ?_⟩
    · intro x hx
      simp only [List.mem_append, List.mem_cons] at hx
      rcases hx with h | h | h
      · exact hE x (by rw [h1]; simp [h])
      · rw [h]; exact hE e hmem
      · exact hE x (by rw [h1]; simp [h])
    · intro k
      rw [h1]
      simp only [List.map_append, List.map_cons, List.mem_append, List.mem_cons]
      constructor
      · intro h; exact Or.inl h
      · rintro (h | h)
        · exact h
        · right; left; rw [h, hek]
  | none =>
    have hno : ∀ e ∈ E, e.1.keys ≠ s.keys := by
      intro e he
      have := List.find?_eq_none.1 hf e he
      simpa using this
    refine ⟨_, assignEntry_absent E s s' q hE hc hno, ?_, ?_⟩
    · intro x hx
      rcases List.mem_append.1 hx with h | h
      · exact hE x h
      · simp only [List.mem_singleton] at h
        rw [h, (copy_frame hc).2.2]
    · intro k
      simp only [List.map_append, List.map_cons, List.map_nil, List.mem_append,
        List.mem_singleton, Board.keys, (copy_frame hc).2.2]

/-- C14, amended: for a cache and boards `s`, `t` all holding the same number
of pieces (boards of one puzzle instance), after `AddBoard(s, parent)` the test
`IsBoardPresent(t)` returns true for every `t` equal to `s` under
`operator==`, in particular for `s` and for a copy `s'` of `s`, and for every
`t` not equal to `s` it returns what it returned before the call. -/
theorem AddBoard_then_present (c : BoardCache) (s t : Board) (parent : Option Board)
    (hc : ∀ e ∈ c.cache_, e.1.figures.length = s.figures.length)
    (ht : t.figures.length = s.figures.length) (s' : Board) (hcopy : s.copy = .ok s') :
    ∃ c', c.AddBoard s parent = .ok c' ∧
      c'.IsBoardPresent s = .ok true ∧ c'.IsBoardPresent s' = .ok true ∧
      (t.eq s = .ok true → c'.IsBoardPresent t = .ok true) ∧
      (t.eq s = .ok false → c'.IsBoardPresent t = c.IsBoardPresent t) := by
  obtain ⟨E', h1, h2, h3⟩ := assignEntry_keys c.cache_ s s' parent hc hcopy
  have hs' : s'.figures = s.figures := (copy_frame hcopy).2.2
  have hpres : ∀ u : Board, u.figures.length = s.figures.length →
      BoardCache.IsBoardPresent ⟨E'⟩ u =
        .ok (decide (u.keys ∈ c.cache_.map (fun e => e.1.keys) ∨ u.keys = s.keys)) := by
    intro u hu
    rw [IsBoardPresent_keys E' u (fun e he => (h2 e he).trans hu.symm)]
    congr 1
    simp only [h3]
  refine ⟨⟨E'⟩, by simp [BoardCache.AddBoard, h1, bind, Except.bind, pure, Except.pure],
    ?_, ?_, ?_, ?_⟩
  · rw [hpres s rfl]; simp
  · rw [hpres s' (by rw [hs'])]; simp [Board.keys, hs']
  · intro he
    rw [eq_keys ht] at he
    simp only [Except.ok.injEq, decide_eq_true_eq] at he
    rw [hpres t ht]; simp [he]
  · intro he
    rw [eq_keys ht] at he
    simp only [Except.ok.injEq, decide_eq_false_iff_not] at he
    rw [hpres t ht, IsBoardPresent_keys c.cache_ t (fun e he => (hc e he).trans ht.symm)]
    simp [he]

/-- The cache test of `RunTest`: after `AddBoard(board, NULL)` on the empty
cache both `board` and its copy `board2` are present. -/
theorem AddBoard_then_present_witness :
    testBoard.copy = .ok testBoard ∧ testBoardB1.eq testBoard = .ok false ∧
    ∃ c', BoardCache.new.AddBoard testBoard none = .ok c' ∧
      c'.IsBoardPresent testBoard = .ok true ∧ c'.IsBoardPresent testBoard = .ok true ∧
      (testBoardB1.eq testBoard = .ok true → c'.IsBoardPresent testBoardB1 = .ok true) ∧
      (testBoardB1.eq testBoard = .ok false →
        c'.IsBoardPresent testBoardB1 = BoardCache.new.IsBoardPresent testBoardB1) :=
  ⟨by decide, by decide,
    AddBoard_then_present BoardCache.new testBoard testBoardB1 none (by decide) (by decide)
      testBoard (by decide)⟩

/-! ## The win test -/

/-- C15: On a well-formed board (whose first piece `p` is horizontal) `IsWin`
returns true exactly when `p` has reached the right edge of the grid: its
`hor_pos` equals `width` minus its length, which is the same as its last cell
lying in column `width - 1`.  The result is the same on every board of the same
width with the same first piece, whatever the other pieces are. -/
theorem IsWin_iff (b : Board) (hwf : b.WellFormed) :
    ∃ p r, b.figures[0]? = some p ∧ p.figure.orient = .kHorizontal ∧ b.IsWin = .ok r ∧
      (r = true ↔ p.hor_pos = b.width - p.figure.length) ∧
      (r = true ↔ p.tailCell.1 = b.width - 1) ∧
      ∀ b' : Board, b'.width = b.width → b'.figures[0]? = some p → b'.IsWin = .ok r := by
  obtain ⟨p, hp, ho⟩ := hwf.2.2.2
  rw [Option.mem_def] at hp
  refine ⟨p, decide (p.hor_pos = b.width - p.figure.length), hp, ho, ?_, ?_, ?_, ?_⟩
  · simp only [IsWin, hp]
  · simp
  · simp only [decide_eq_true_eq, PlacedFigure.tailCell, ho, if_true]
    omega
  · intro b' hw hp'
    simp only [IsWin, hp', hw]

/-- The win test on the boards of `RunTest`: false at the start, true once
piece A stands at column 2 of the grid of width 4. -/
theorem IsWin_iff_witness :
    testBoardB3.WellFormed ∧ testBoard.IsWin = .ok false ∧ testBoardB3.IsWin = .ok true ∧
    ∃ p r, testBoardB3.figures[0]? = some p ∧ p.figure.orient = .kHorizontal ∧
      testBoardB3.IsWin = .ok r ∧
      (r = true ↔ p.hor_pos = testBoardB3.width - p.figure.length) ∧
      (r = true ↔ p.tailCell.1 = testBoardB3.width - 1) ∧
      ∀ b' : Board, b'.width = testBoardB3.width → b'.figures[0]? = some p →
        b'.IsWin = .ok r :=
  ⟨by decide, by decide, by decide, IsWin_iff testBoardB3 (by decide)⟩

/-! ## Invariants of the board operations -/

namespace Board

theorem PiecesInGrid.cellsInGrid {b : Board} (h : b.PiecesInGrid) : b.CellsInGrid :=
  fun p hp => (h p hp).2

theorem SetFigureAtPos_length {b b' : Board} {o : Option Nat} {h v : Int}
    (hb : b.SetFigureAtPos o h v = .ok b') :
    b'.figure_by_pos.length = b.figure_by_pos.length := by
  unfold SetFigureAtPos at hb
  simp only [bind, Except.bind, pure, Except.pure] at hb
  split at hb
  · split at hb
    · cases hb
    · split at hb
      · cases hb
      · split at hb
        · cases hb; simp
        · cases hb
  · split at hb
    · cases hb; simp
    · cases hb

/-- What a completed `MoveForward` has read and written, on any board. -/
theorem MoveForward_inv {b t : Board} {k : Nat} (h : b.MoveForward k = .ok t) :
    ∃ p, b.figures[k]? = some p ∧
      b.GetFigureAtPos p.headCell.1 p.headCell.2 = .ok (some k) ∧
      t.width = b.width ∧ t.length = b.length ∧
      t.figure_by_pos.length = b.figure_by_pos.length ∧
      t.figures = b.figures.set k p.forward := by
  unfold MoveForward at h
  cases hp : b.figures[k]? with
  | none => rw [hp] at h; cases h
  | some p =>
    rw [hp] at h
    simp only [bind, Except.bind, pure, Except.pure] at h
    cases hget : b.GetFigureAtPos p.hor_pos p.vert_pos with
    | error e => rw [hget] at h; cases h
    | ok c =>
      rw [hget] at h
      simp only at h
      by_cases hck : c = some k
      · subst hck
        simp only [ne_eq, not_true_eq_false, if_false] at h
        cases h1 : b.SetFigureAtPos none p.hor_pos p.vert_pos with
        | error e => rw [h1] at h; cases h
        | ok b1 =>
          rw [h1] at h
          simp only at h
          obtain ⟨f1, f2, f3⟩ := SetFigureAtPos_frame h1
          have l1 := SetFigureAtPos_length h1
          refine ⟨p, rfl, hget, ?_⟩
          by_cases ho : p.figure.orient = .kHorizontal
          · simp only [ho, if_true] at h
            cases h2 : b1.SetFigureAtPos (some k) (p.hor_pos + p.figure.length) p.vert_pos with
            | error e => rw [h2] at h; cases h
            | ok b2 =>
              rw [h2] at h
              cases h
              obtain ⟨g1, g2, g3⟩ := SetFigureAtPos_frame h2
              have l2 := SetFigureAtPos_length h2
              refine ⟨g1.trans f1, g2.trans f2, l2.trans l1, ?_⟩
              simp only [moveFigureTo, PlacedFigure.forward, ho, if_true, g3, f3]
          · simp only [ho, if_false] at h
            cases h2 : b1.SetFigureAtPos (some k) p.hor_pos (p.vert_pos + p.figure.length) with
            | error e => rw [h2] at h; cases h
            | ok b2 =>
              rw [h2] at h
              cases h
              obtain ⟨g1, g2, g3⟩ := SetFigureAtPos_frame h2
              have l2 := SetFigureAtPos_length h2
              refine ⟨g1.trans f1, g2.trans f2, l2.trans l1, ?_⟩
              simp only [moveFigureTo, PlacedFigure.forward, ho, if_false, g3, f3]
      · simp only [ne_eq, hck, not_false_eq_true, if_true] at h
        cases h

/-- What a completed `MoveBack` has read and written, on any board. -/
theorem MoveBack_inv {b t : Board} {k : Nat} (h : b.MoveBack k = .ok t) :
    ∃ p, b.figures[k]? = some p ∧
      b.GetFigureAtPos p.tailCell.1 p.tailCell.2 = .ok (some k) ∧
      t.width = b.width ∧ t.length = b.length ∧
      t.figure_by_pos.length = b.figure_by_pos.length ∧
      t.figures = b.figures.set k p.back := by
  unfold MoveBack at h
  cases hp : b.figures[k]? with
  | none => rw [hp] at h; cases h
  | some p =>
    rw [hp] at h
    refine ⟨p, rfl, ?_⟩
    by_cases ho : p.figure.orient = .kHorizontal
    · simp only [bind, Except.bind, pure, Except.pure, ho, if_true] at h
      simp only [PlacedFigure.tailCell, ho, if_true]
      cases hget : b.GetFigureAtPos (p.hor_pos + p.figure.length - 1) p.vert_pos with
      | error e => rw [hget] at h; cases h
      | ok c =>
        rw [hget] at h
        simp only at h
        by_cases hck : c = some k
        · subst hck
          simp only [ne_eq, not_true_eq_false, if_false] at h
          cases h1 : b.SetFigureAtPos none (p.hor_pos + p.figure.length - 1) p.vert_pos with
          | error e => rw [h1] at h; cases h
          | ok b1 =>
            rw [h1] at h
            simp only at h
            obtain ⟨f1, f2, f3⟩ := SetFigureAtPos_frame h1
            have l1 := SetFigureAtPos_length h1
            cases h2 : b1.SetFigureAtPos (some k) (p.hor_pos - 1) p.vert_pos with
            | error e => rw [h2] at h; cases h
            | ok b2 =>
              rw [h2] at h
              cases h
              obtain ⟨g1, g2, g3⟩ := SetFigureAtPos_frame h2
              have l2 := SetFigureAtPos_length h2
              refine ⟨rfl, g1.trans f1, g2.trans f2, l2.trans l1, ?_⟩
              simp only [moveFigureTo, PlacedFigure.back, ho, if_true, g3, f3]
        · simp only [ne_eq, hck, not_false_eq_true, if_true] at h
          cases h
    · simp only [bind, Except.bind, pure, Except.pure, ho, if_false] at h
      simp only [PlacedFigure.tailCell, ho, if_false]
      cases hget : b.GetFigureAtPos p.hor_pos (p.vert_pos + p.figure.length - 1) with
      | error e => rw [hget] at h; cases h
      | ok c =>
        rw [hget] at h
        simp only at h
        by_cases hck : c = some k
        · subst hck
          simp only [ne_eq, not_true_eq_false, if_false] at h
          cases h1 : b.SetFigureAtPos none p.hor_pos (p.vert_pos + p.figure.length - 1) with
          | error e => rw [h1] at h; cases h
          | ok b1 =>
            rw [h1] at h
            simp only at h
            obtain ⟨f1, f2, f3⟩ := SetFigureAtPos_frame h1
            have l1 := SetFigureAtPos_length h1
            cases h2 : b1.SetFigureAtPos (some k) p.hor_pos (p.vert_pos - 1) with
            | error e => rw [h2] at h; cases h
            | ok b2 =>
              rw [h2] at h
              cases h
              obtain ⟨g1, g2, g3⟩ := SetFigureAtPos_frame h2
              have l2 := SetFigureAtPos_length h2
              refine ⟨rfl, g1.trans f1, g2.trans f2, l2.trans l1, ?_⟩
              simp only [moveFigureTo, PlacedFigure.back, ho, if_false, g3, f3]
        · simp only [ne_eq, hck, not_false_eq_true, if_true] at h
          cases h

/-- On a board with a consistent index, a read of the occupancy index that
returns piece `k` has read the slot of a cell of the grid that piece `k` covers. -/
theorem held_cell {b : Board} (hc : b.Consistent) (hw : 0 < b.width) {h v : Int} {k : Nat}
    (hget : b.GetFigureAtPos h v = .ok (some k)) :
    ∃ p c, b.figures[k]? = some p ∧ c ∈ p.cells ∧ b.InGrid c ∧
      c.2 * b.width + c.1 = v * b.width + h := by
  unfold GetFigureAtPos at hget
  simp only at hget
  split at hget
  · rename_i hr
    have ht : (v * b.width + h).toNat < (b.width * b.length).toNat := by
      rw [← hc.1]; omega
    obtain ⟨c, hcin, hci⟩ := exists_cell_of_index hw ht
    have hs : b.slot c = some k := by
      have := Except.ok.inj hget
      rw [← this]
      show b.figure_by_pos.getD (b.index c) none = _
      rw [hci]
    obtain ⟨p, hp, hcp⟩ := (hc.slot_eq_some hcin k).1 hs
    refine ⟨p, c, hp, hcp, hcin, ?_⟩
    have := (index_range hcin).1
    simp only [index] at hci
    omega
  · cases hget

/-- The bounds of a piece with at least one cell whose cells lie inside the grid. -/
theorem bounds_of_cells {b : Board} {p : PlacedFigure} (h1 : 1 ≤ p.figure.length)
    (h2 : ∀ c ∈ p.cells, b.InGrid c) :
    0 ≤ p.hor_pos ∧ 0 ≤ p.vert_pos ∧
      (if p.figure.orient = .kHorizontal then
        p.hor_pos + p.figure.length ≤ b.width ∧ p.vert_pos < b.length
      else p.hor_pos < b.width ∧ p.vert_pos + p.figure.length ≤ b.length) := by
  by_cases ho : p.figure.orient = .kHorizontal
  · have a1 := h2 (p.hor_pos, p.vert_pos) (by rw [mem_cells_mk, if_pos ho]; omega)
    have a2 := h2 (p.hor_pos + p.figure.length - 1, p.vert_pos)
      (by rw [mem_cells_mk, if_pos ho]; omega)
    simp only [InGrid] at a1 a2
    simp only [ho, if_true]
    omega
  · have a1 := h2 (p.hor_pos, p.vert_pos) (by rw [mem_cells_mk, if_neg ho]; omega)
    have a2 := h2 (p.hor_pos, p.vert_pos + p.figure.length - 1)
      (by rw [mem_cells_mk, if_neg ho]; omega)
    simp only [InGrid] at a1 a2
    simp only [ho, if_false]
    omega

/-- When `CanMoveForward` holds for a piece inside the grid, the cell ahead of it
is a cell of the grid and its slot is empty. -/
theorem CanMoveForward_ahead {b : Board} (hc : b.Consistent) {k : Nat} {p : PlacedFigure}
    (hp : b.figures[k]? = some p) (hl1 : 1 ≤ p.figure.length)
    (hcells : ∀ c ∈ p.cells, b.InGrid c) (hcan : b.CanMoveForward k = .ok true) :
    b.InGrid p.cellAhead ∧ b.slot p.cellAhead = none := by
  have hb := bounds_of_cells hl1 hcells
  unfold CanMoveForward at hcan
  rw [hp] at hcan
  by_cases ho : p.figure.orient = .kHorizontal
  · simp only [ho, if_true, PlacedFigure.cellAhead] at hb hcan ⊢
    by_cases hwd : p.hor_pos + p.figure.length ≥ b.width
    · rw [if_pos hwd] at hcan; cases hcan
    · have hin : b.InGrid (p.hor_pos + p.figure.length, p.vert_pos) := by
        simp only [InGrid]; omega
      rw [if_neg hwd, GetFigureAtPos_inGrid hc.1 hin] at hcan
      simp only [bind, Except.bind, pure, Except.pure, Except.ok.injEq,
        Option.isNone_iff_eq_none] at hcan
      exact ⟨hin, hcan⟩
  · simp only [ho, if_false, PlacedFigure.cellAhead] at hb hcan ⊢
    by_cases hwd : p.vert_pos + p.figure.length ≥ b.length
    · rw [if_pos hwd] at hcan; cases hcan
    · have hin : b.InGrid (p.hor_pos, p.vert_pos + p.figure.length) := by
        simp only [InGrid]; omega
      rw [if_neg hwd, GetFigureAtPos_inGrid hc.1 hin] at hcan
      simp only [bind, Except.bind, pure, Except.pure, Except.ok.injEq,
        Option.isNone_iff_eq_none] at hcan
      exact ⟨hin, hcan⟩

/-- When `CanMoveBack` holds for a piece inside the grid, the cell behind it is a
cell of the grid and its slot is empty. -/
theorem CanMoveBack_behind {b : Board} (hc : b.Consistent) {k : Nat} {p : PlacedFigure}
    (hp : b.figures[k]? = some p) (hl1 : 1 ≤ p.figure.length)
    (hcells : ∀ c ∈ p.cells, b.InGrid c) (hcan : b.CanMoveBack k = .ok true) :
    b.InGrid p.cellBehind ∧ b.slot p.cellBehind = none := by
  have hb := bounds_of_cells hl1 hcells
  unfold CanMoveBack at hcan
  rw [hp] at hcan
  by_cases ho : p.figure.orient = .kHorizontal
  · simp only [ho, if_true, PlacedFigure.cellBehind] at hb hcan ⊢
    by_cases hwd : p.hor_pos = 0
    · rw [if_pos hwd] at hcan; cases hcan
    · have hin : b.InGrid (p.hor_pos - 1, p.vert_pos) := by
        simp only [InGrid]; omega
      rw [if_neg hwd, GetFigureAtPos_inGrid hc.1 hin] at hcan
      simp only [bind, Except.bind, pure, Except.pure, Except.ok.injEq,
        Option.isNone_iff_eq_none] at hcan
      exact ⟨hin, hcan⟩
  · simp only [ho, if_false, PlacedFigure.cellBehind] at hb hcan ⊢
    by_cases hwd : p.vert_pos = 0
    · rw [if_pos hwd] at hcan; cases hcan
    · have hin : b.InGrid (p.hor_pos, p.vert_pos - 1) := by
        simp only [InGrid]; omega
      rw [if_neg hwd, GetFigureAtPos_inGrid hc.1 hin] at hcan
      simp only [bind, Except.bind, pure, Except.pure, Except.ok.injEq,
        Option.isNone_iff_eq_none] at hcan
      exact ⟨hin, hcan⟩

/-- A guarded `MoveForward` of a piece with at least one cell completes. -/
theorem MoveForward_completes {b : Board} (hg : b.CellsInGrid) (hc : b.Consistent) {k : Nat}
    {p : PlacedFigure} (hp : b.figures[k]? = some p) (hl1 : 1 ≤ p.figure.length)
    (hcan : b.CanMoveForward k = .ok true) :
    b.MoveForward k = .ok (b.relocate k p.headCell p.cellAhead p.forward) := by
  have hcells := hg p (List.getElem?_mem hp)
  obtain ⟨ha, sa⟩ := CanMoveForward_ahead hc hp hl1 hcells hcan
  have hh := hcells _ (PlacedFigure.headCell_mem hl1)
  exact MoveForward_of_slots hc.1 hp hh ha
    ((hc.slot_eq_some hh k).2 ⟨p, hp, PlacedFigure.headCell_mem hl1⟩) sa

/-- A guarded `MoveBack` of a piece with at least one cell completes. -/
theorem MoveBack_completes {b : Board} (hg : b.CellsInGrid) (hc : b.Consistent) {k : Nat}
    {p : PlacedFigure} (hp : b.figures[k]? = some p) (hl1 : 1 ≤ p.figure.length)
    (hcan : b.CanMoveBack k = .ok true) :
    b.MoveBack k = .ok (b.relocate k p.tailCell p.cellBehind p.back) := by
  have hcells := hg p (List.getElem?_mem hp)
  obtain ⟨ha, sa⟩ := CanMoveBack_behind hc hp hl1 hcells hcan
  have hh := hcells _ (PlacedFigure.tailCell_mem hl1)
  exact MoveBack_of_slots hc.1 hp hh ha
    ((hc.slot_eq_some hh k).2 ⟨p, hp, PlacedFigure.tailCell_mem hl1⟩) sa

/-- A piece without cells keeps none when it is moved. -/
theorem cells_moved_nil {p : PlacedFigure} (h : ¬ 1 ≤ p.figure.length) (c : Int × Int) :
    c ∉ p.forward.cells ∧ c ∉ p.back.cells := by
  constructor
  · intro hc
    rw [mem_cells_iff, PlacedFigure.forward_figure] at hc
    split at hc <;> omega
  · intro hc
    rw [mem_cells_iff, PlacedFigure.back_figure] at hc
    split at hc <;> omega

theorem relocate_cellsInGrid {b : Board} (hg : b.CellsInGrid) {k : Nat}
    {p q : PlacedFigure} (hp : b.figures[k]? = some p)
    {old new : Int × Int} (hn : b.InGrid new)
    (hcells : ∀ c, c ∈ q.cells ↔ (c ∈ p.cells ∧ c ≠ old) ∨ c = new) :
    (b.relocate k old new q).CellsInGrid := by
  intro r hr c hc
  rcases List.mem_or_eq_of_mem_set hr with h | h
  · exact hg r h c hc
  · subst h
    rcases (hcells c).1 hc with ⟨h3, _⟩ | h3
    · exact hg p (List.getElem?_mem hp) c h3
    · subst h3; exact hn

/-- Relocating a piece from a cell of the grid it covers to a free cell of the
grid keeps the occupancy index consistent. -/
theorem relocate_consistent_of_inGrid {b : Board} (hc : b.Consistent) {k : Nat}
    {p q : PlacedFigure} (hp : b.figures[k]? = some p)
    {old new : Int × Int} (ho : old ∈ p.cells) (hoin : b.InGrid old) (hn : b.InGrid new)
    (hfree : b.Free new)
    (hcells : ∀ c, c ∈ q.cells ↔ (c ∈ p.cells ∧ c ≠ old) ∨ c = new) :
    (b.relocate k old new q).Consistent := by
  have hk : k < b.figures.length := (List.getElem?_eq_some_iff.1 hp).1
  have hone : old ≠ new := by
    rintro rfl; exact hfree p (List.getElem?_mem hp) ho
  have sold : b.slot old = some k := (hc.slot_eq_some hoin k).2 ⟨p, hp, ho⟩
  rw [consistent_iff]
  refine ⟨by simp only [relocate, List.length_set]; exact hc.1, fun c hcin => ?_⟩
  have hcin0 : b.InGrid c := hcin
  have hs := relocate_slot hc.1 k hoin hn hcin0 q
  have hfigs : ∀ j, (b.relocate k old new q).figures[j]? =
      if k = j then some q else b.figures[j]? := by
    intro j
    simp only [relocate, List.getElem?_set, hk, if_true]
  refine ⟨?_, ?_⟩
  · intro j hj
    rw [hs] at hj
    simp only [relocate, List.length_set]
    by_cases h1 : c = new
    · rw [if_pos h1] at hj; cases hj; exact hk
    · rw [if_neg h1] at hj
      by_cases h2 : c = old
      · rw [if_pos h2] at hj; cases hj
      · rw [if_neg h2] at hj
        exact (hc.consistentAt hcin0).1 j hj
  · intro j _
    rw [hs, hfigs]
    simp only [Option.mem_def]
    by_cases hjk : k = j
    · subst hjk
      simp only [if_true, Option.some.injEq, exists_eq_left']
      rw [hcells]
      by_cases h1 : c = new
      · simp [h1]
      · simp only [if_neg h1, h1, or_false]
        by_cases h2 : c = old
        · simp [h2]
        · simp only [h2, ne_eq, not_false_eq_true, and_true, if_false]
          rw [hc.slot_eq_some hcin0 k]
          simp [hp]
    · simp only [if_neg hjk]
      by_cases h1 : c = new
      · subst h1
        simp only [if_true, Option.some.injEq, hjk, false_iff, not_exists, not_and]
        intro r hr
        exact hfree r (List.getElem?_mem hr)
      · rw [if_neg h1]
        by_cases h2 : c = old
        · subst h2
          rw [if_pos rfl]
          constructor
          · intro h; cases h
          · rintro ⟨r, hr, hcr⟩
            have e := (hc.slot_eq_some hoin j).2 ⟨r, hr, hcr⟩
            rw [sold] at e
            exact absurd (Option.some.inj e) hjk
        · rw [if_neg h2]
          exact hc.slot_eq_some hcin0 j

/-- Pieces inside the grid of a board with a consistent index do not overlap. -/
theorem Consistent.noOverlap_of_cells {b : Board} (hg : b.CellsInGrid) (hc : b.Consistent) :
    b.NoOverlap := by
  rw [NoOverlap, List.pairwise_iff_getElem]
  intro i j hi hj hij c h1 h2
  have hin : b.InGrid c := hg _ (List.getElem_mem hi) c h1
  have e1 := (hc.slot_eq_some hin i).2 ⟨_, List.getElem?_eq_getElem hi, h1⟩
  have e2 := (hc.slot_eq_some hin j).2 ⟨_, List.getElem?_eq_getElem hj, h2⟩
  rw [e1] at e2
  have := Option.some.inj e2
  omega

/-- On a grid without columns every board with the grid and the index length of a
consistent board is consistent, and its pieces have no cells if they had none. -/
theorem degenerate_keeps {b t : Board} (hg : b.CellsInGrid) (hc : b.Consistent)
    (hpos : ¬ 0 < b.width) (hw : t.width = b.width) (hl : t.length = b.length)
    (hlen : t.figure_by_pos.length = b.figure_by_pos.length) {k : Nat} {p q : PlacedFigure}
    (hp : b.figures[k]? = some p) (hfig : t.figures = b.figures.set k q)
    (hq : ∀ c, c ∈ q.cells → 1 ≤ p.figure.length) :
    t.CellsInGrid ∧ t.Consistent := by
  have hout : ∀ c, ¬ b.InGrid c := by
    intro c hcin
    simp only [InGrid] at hcin
    omega
  constructor
  · intro r hr c hcr
    rw [hfig] at hr
    rcases List.mem_or_eq_of_mem_set hr with h | h
    · exact absurd (hg r h c hcr) (hout c)
    · subst h
      exact absurd (hg p (List.getElem?_mem hp) _ (PlacedFigure.headCell_mem (hq c hcr)))
        (hout _)
  · refine ⟨by rw [hlen, hw, hl]; exact hc.1, fun x hx => ?_⟩
    rw [hw] at hx
    omega

/-- A completed `MoveForward` made when `CanMoveForward` holds keeps the pieces
inside the grid and the occupancy index consistent. -/
theorem MoveForward_keeps {b t : Board} (hg : b.CellsInGrid) (hc : b.Consistent) {k : Nat}
    (hcan : b.CanMoveForward k = .ok true) (hmv : b.MoveForward k = .ok t) :
    t.CellsInGrid ∧ t.Consistent := by
  obtain ⟨p, hp, hget, hw, hl, hlen, hfig⟩ := MoveForward_inv hmv
  by_cases hpos : 0 < b.width
  · obtain ⟨p', c, hp', hcp, hcin, hidx⟩ := held_cell hc hpos hget
    rw [hp] at hp'
    cases hp'
    have hhead : 1 ≤ p.figure.length ∧ c = p.headCell := by
      obtain ⟨x, y⟩ := c
      rw [mem_cells_mk] at hcp
      simp only [PlacedFigure.headCell] at hidx ⊢
      split at hcp
      · obtain ⟨rfl, h2, h3⟩ := hcp
        exact ⟨by omega, Prod.ext (by simp only; omega) rfl⟩
      · obtain ⟨rfl, h2, h3⟩ := hcp
        have e : (y - p.vert_pos) * b.width = 0 := by
          have : (y - p.vert_pos) * b.width = y * b.width - p.vert_pos * b.width := by ring
          omega
        rcases Int.mul_eq_zero.1 e with e | e
        · exact ⟨by omega, Prod.ext rfl (by simp only; omega)⟩
        · omega
    obtain ⟨hl1, rfl⟩ := hhead
    have hahead := CanMoveForward_ahead hc hp hl1 (hg p (List.getElem?_mem hp)) hcan
    obtain ⟨ha, sa⟩ := hahead
    have sh : b.slot p.headCell = some k := (hc.slot_eq_some hcin k).2 ⟨p, hp, hcp⟩
    rw [MoveForward_of_slots hc.1 hp hcin ha sh sa] at hmv
    cases hmv
    exact ⟨relocate_cellsInGrid hg hp ha (PlacedFigure.cells_forward hl1),
      relocate_consistent_of_inGrid hc hp hcp hcin ha ((hc.slot_eq_none ha).1 sa)
        (PlacedFigure.cells_forward hl1)⟩
  · refine degenerate_keeps hg hc hpos hw hl hlen hp hfig fun c hcq => ?_
    by_contra hl1
    exact (cells_moved_nil hl1 c).1 hcq

/-- A completed `MoveBack` made when `CanMoveBack` holds keeps the pieces inside
the grid and the occupancy index consistent. -/
theorem MoveBack_keeps {b t : Board} (hg : b.CellsInGrid) (hc : b.Consistent) {k : Nat}
    (hcan : b.CanMoveBack k = .ok true) (hmv : b.MoveBack k = .ok t) :
    t.CellsInGrid ∧ t.Consistent := by
  obtain ⟨p, hp, hget, hw, hl, hlen, hfig⟩ := MoveBack_inv hmv
  by_cases hpos : 0 < b.width
  · obtain ⟨p', c, hp', hcp, hcin, hidx⟩ := held_cell hc hpos hget
    rw [hp] at hp'
    cases hp'
    have htail : 1 ≤ p.figure.length ∧ c = p.tailCell := by
      obtain ⟨x, y⟩ := c
      rw [mem_cells_mk] at hcp
      by_cases ho : p.figure.orient = .kHorizontal
      · simp only [PlacedFigure.tailCell, ho, if_true] at hidx hcp ⊢
        obtain ⟨rfl, h2, h3⟩ := hcp
        exact ⟨by omega, Prod.ext (by simp only; omega) rfl⟩
      · simp only [PlacedFigure.tailCell, ho, if_false] at hidx hcp ⊢
        obtain ⟨rfl, h2, h3⟩ := hcp
        have e : (y - (p.vert_pos + p.figure.length - 1)) * b.width = 0 := by
          have : (y - (p.vert_pos + p.figure.length - 1)) * b.width =
              y * b.width - (p.vert_pos + p.figure.length - 1) * b.width := by ring
          omega
        rcases Int.mul_eq_zero.1 e with e | e
        · exact ⟨by omega, Prod.ext rfl (by simp only; omega)⟩
        · omega
    obtain ⟨hl1, rfl⟩ := htail
    have hbehind := CanMoveBack_behind hc hp hl1 (hg p (List.getElem?_mem hp)) hcan
    obtain ⟨ha, sa⟩ := hbehind
    have sh : b.slot p.tailCell = some k := (hc.slot_eq_some hcin k).2 ⟨p, hp, hcp⟩
    rw [MoveBack_of_slots hc.1 hp hcin ha sh sa] at hmv
    cases hmv
    exact ⟨relocate_cellsInGrid hg hp ha (PlacedFigure.cells_back hl1),
      relocate_consistent_of_inGrid hc hp hcp hcin ha ((hc.slot_eq_none ha).1 sa)
        (PlacedFigure.cells_back hl1)⟩
  · refine degenerate_keeps hg hc hpos hw hl hlen hp hfig fun c hcq => ?_
    by_contra hl1
    exact (cells_moved_nil hl1 c).2 hcq

end Board

/-- C17: On a board with a consistent occupancy index on which every cell of
every piece lies inside the grid (on such a board no two distinct pieces share
a cell, so that this need not be assumed separately), the board returned by
`MoveForward(k)` whenever `CanMoveForward(k)` holds, and the board returned by
`MoveBack(k)` whenever `CanMoveBack(k)` holds, has a consistent index again, no
two distinct pieces sharing a cell, and every cell of every piece inside the
grid, for every piece `k`; the guarded move of a piece that has at least one
cell does complete; hence the three properties hold for every state reachable
by legal moves from a well-formed initial board. -/
theorem moves_keep_noOverlap_inGrid (b : Board) (hc : b.Consistent) (hg : b.CellsInGrid) :
    (∀ k t, b.CanMoveForward k = .ok true → b.MoveForward k = .ok t →
      t.Consistent ∧ t.NoOverlap ∧ t.CellsInGrid) ∧
    (∀ k t, b.CanMoveBack k = .ok true → b.MoveBack k = .ok t →
      t.Consistent ∧ t.NoOverlap ∧ t.CellsInGrid) ∧
    (∀ k p, b.figures[k]? = some p → 1 ≤ p.figure.length →
      (b.CanMoveForward k = .ok true → ∃ t, b.MoveForward k = .ok t) ∧
      (b.CanMoveBack k = .ok true → ∃ t, b.MoveBack k = .ok t)) ∧
    (b.WellFormed → ∀ n t, Reach b n t → t.Consistent ∧ t.NoOverlap ∧ t.CellsInGrid) := by
  refine ⟨fun k t hcan hmv => ?_, fun k t hcan hmv => ?_, fun k p hp hl => ⟨fun hcan => ?_,
    fun hcan => ?_⟩, fun hwf n t hr => ?_⟩
  · obtain ⟨h1, h2⟩ := MoveForward_keeps hg hc hcan hmv
    exact ⟨h2, h2.noOverlap_of_cells h1, h1⟩
  · obtain ⟨h1, h2⟩ := MoveBack_keeps hg hc hcan hmv
    exact ⟨h2, h2.noOverlap_of_cells h1, h1⟩
  · exact ⟨_, MoveForward_completes hg hc hp hl hcan⟩
  · exact ⟨_, MoveBack_completes hg hc hp hl hcan⟩
  · have hgood : Good b t := by
      induction hr with
      | refl => exact Good.refl hwf
      | step _ hst ih => exact ih.step hst
    exact ⟨hgood.1.2.2.1, hgood.1.2.1, hgood.1.1.cellsInGrid⟩

/-- The board of `RunTest`: piece B can move forward, which gives the board
`testBoardB1`, and no other move is legal. -/
theorem moves_keep_noOverlap_inGrid_witness :
    testBoard.Consistent ∧ testBoard.CellsInGrid ∧
    testBoard.CanMoveForward 1 = .ok true ∧ testBoard.MoveForward 1 = .ok testBoardB1 ∧
    ((∀ k t, testBoard.CanMoveForward k = .ok true → testBoard.MoveForward k = .ok t →
      t.Consistent ∧ t.NoOverlap ∧ t.CellsInGrid) ∧
    (∀ k t, testBoard.CanMoveBack k = .ok true → testBoard.MoveBack k = .ok t →
      t.Consistent ∧ t.NoOverlap ∧ t.CellsInGrid) ∧
    (∀ k p, testBoard.figures[k]? = some p → 1 ≤ p.figure.length →
      (testBoard.CanMoveForward k = .ok true → ∃ t, testBoard.MoveForward k = .ok t) ∧
      (testBoard.CanMoveBack k = .ok true → ∃ t, testBoard.MoveBack k = .ok t)) ∧
    (testBoard.WellFormed → ∀ n t, Reach testBoard n t →
      t.Consistent ∧ t.NoOverlap ∧ t.CellsInGrid)) :=
  ⟨by decide, by decide, by decide, by decide,
    moves_keep_noOverlap_inGrid testBoard (by decide) (by decide)⟩

/-! ## No precondition is violated during the search -/

theorem expandFigureChecked_good {b0 parent s : Board} {E : List (Board × Option Board)}
    (hE : ∀ e ∈ E, Good b0 e.1) (hs : Good b0 s) {k : Nat} (hk : k < s.figures.length) :
    expandFigureChecked parent (SolveState.of s E) k =
      .ok (SolveState.of s ((s.moves k).foldl (visit parent) E)) := by
  have hp : s.figures[k]? = some s.figures[k] := List.getElem?_eq_getElem hk
  have hcf := CanMoveForward_eq hs.1.1 hs.1.2.2.1 hp
  have hcb := CanMoveBack_eq hs.1.1 hs.1.2.2.1 hp
  -- the forward half
  have half1 : ∃ E1, (∀ e ∈ E1, Good b0 e.1) ∧
      (do
        if ← (SolveState.of s E).board.CanMoveForward k then
          let b ← (SolveState.of s E).board.MoveForwardChecked k
          let st ← recordBoard parent { SolveState.of s E with board := b }
          let b ← st.board.MoveBackChecked k
          pure { st with board := b }
        else pure (SolveState.of s E) : Except Fault SolveState) = .ok (SolveState.of s E1) ∧
      E1 = (match s.CanMoveForward k, s.MoveForward k with
              | .ok true, .ok t => [t]
              | _, _ => []).foldl (visit parent) E := by
    cases hc : (decide (s.InGrid (s.figures[k]).cellAhead) &&
        (s.slot (s.figures[k]).cellAhead).isNone) with
    | false =>
      rw [hc] at hcf
      refine ⟨E, hE, ?_, ?_⟩
      · simp [SolveState.of, hcf, bind, Except.bind, pure, Except.pure]
      · simp [hcf]
    | true =>
      rw [hc] at hcf
      obtain ⟨f1, f2, f3, f4⟩ := forward_facts hs.1 hp hcf
      have hg := hs.forward hp hcf
      refine ⟨visit parent E _, visit_good hE hg, ?_, ?_⟩
      · have := recordBoard_good parent hE hg
        simp only [SolveState.of] at this
        simp only [SolveState.of, Board.MoveForwardChecked, Board.MoveBackChecked, hcf, f1, bind,
          Except.bind, pure, Except.pure, if_true, this, f3, f4]
      · simp [hcf, f1]
  obtain ⟨E1, hE1, h1, e1⟩ := half1
  have half2 : (do
        if ← (SolveState.of s E1).board.CanMoveBack k then
          let b ← (SolveState.of s E1).board.MoveBackChecked k
          let st ← recordBoard parent { SolveState.of s E1 with board := b }
          let b ← st.board.MoveForwardChecked k
          pure { st with board := b }
        else pure (SolveState.of s E1) : Except Fault SolveState) =
      .ok (SolveState.of s ((match s.CanMoveBack k, s.MoveBack k with
              | .ok true, .ok t => [t]
              | _, _ => []).foldl (visit parent) E1)) := by
    cases hc : (decide (s.InGrid (s.figures[k]).cellBehind) &&
        (s.slot (s.figures[k]).cellBehind).isNone) with
    | false =>
      rw [hc] at hcb
      simp [SolveState.of, hcb, bind, Except.bind, pure, Except.pure]
    | true =>
      rw [hc] at hcb
      obtain ⟨f1, f2, f3, f4⟩ := back_facts hs.1 hp hcb
      have hg := hs.back hp hcb
      have := recordBoard_good parent hE1 hg
      simp only [SolveState.of] at this
      simp only [SolveState.of, Board.MoveForwardChecked, Board.MoveBackChecked, hcb, f1, bind,
        Except.bind, pure, Except.pure, if_true, this, f3, f4, List.foldl_cons, List.foldl_nil]
  unfold expandFigureChecked
  rw [show (s.moves k).foldl (visit parent) E = (match s.CanMoveBack k, s.MoveBack k with
              | .ok true, .ok t => [t]
              | _, _ => []).foldl (visit parent) E1 by rw [e1, moves, List.foldl_append]; try rfl]
  rw [← half2]
  simp only [bind, Except.bind] at h1 ⊢
  rw [h1]

theorem expandFiguresChecked_good {b0 parent s : Board} (hs : Good b0 s) : ∀ (ks : List Nat)
    (E : List (Board × Option Board)), (∀ e ∈ E, Good b0 e.1) →
    (∀ k ∈ ks, k < s.figures.length) →
    ks.foldlM (expandFigureChecked parent) (SolveState.of s E) =
      .ok (SolveState.of s ((ks.flatMap s.moves).foldl (visit parent) E)) := by
  intro ks
  induction ks with
  | nil => intro E _ _; rfl
  | cons k ks ih =>
    intro E hE hks
    rw [List.foldlM_cons, expandFigureChecked_good hE hs (hks k (List.mem_cons_self _ _))]
    simp only [bind, Except.bind, List.flatMap_cons, List.foldl_append]
    exact ih _ (foldl_visit_good _ _ hE (moves_good hs k))
      (fun x hx => hks x (List.mem_cons_of_mem _ hx))

/-- On a well-formed state the inner loop with checked move calls runs as the
inner loop of `SolveBoard` does. -/
theorem expandBoardChecked_eq {b0 s : Board} (parent : Board) (hs : Good b0 s)
    {E : List (Board × Option Board)} (hE : ∀ e ∈ E, Good b0 e.1) :
    expandBoardChecked parent (SolveState.of s E) = expandBoard parent (SolveState.of s E) := by
  rw [expandBoard_good parent hs hE]
  exact expandFiguresChecked_good hs _ E hE (fun k hk => List.mem_range.1 hk)

namespace BoardCache

/-- Along a parent chain the loop of `BackTrace` can only fail for lack of fuel. -/
theorem BackTraceLoop_fault {c : BoardCache} {s : Board} {l : List Board}
    (h : ParentChain c s l) : ∀ (fuel : Nat) (m : Int) (e : Fault),
    c.BackTraceLoop fuel s m = .error e → e = .fuel := by
  induction h with
  | root hp =>
    intro fuel m e he
    cases fuel with
    | zero =>
      have he0 : (Except.error Fault.fuel : Except Fault (List Event × Int)) = .error e := he
      cases he0
      rfl
    | succ fuel =>
      simp [BackTraceLoop, hp, bind, Except.bind, pure, Except.pure] at he
  | link hp _ ih =>
    intro fuel m e he
    cases fuel with
    | zero =>
      have he0 : (Except.error Fault.fuel : Except Fault (List Event × Int)) = .error e := he
      cases he0
      rfl
    | succ fuel =>
      simp only [BackTraceLoop, hp, bind, Except.bind] at he
      cases hrec : c.BackTraceLoop fuel _ (m + 1) with
      | error e' =>
        rw [hrec] at he
        cases he
        exact ih fuel (m + 1) _ hrec
      | ok r =>
        rw [hrec] at he
        cases he

theorem BackTrace_fault {c : BoardCache} {s : Board} {l : List Board}
    (h : ParentChain c s l) (fuel : Nat) (e : Fault)
    (he : c.BackTrace fuel s = .error e) : e = .fuel := by
  simp only [BackTrace, bind, Except.bind] at he
  cases hrec : c.BackTraceLoop fuel s 0 with
  | error e' =>
    rw [hrec] at he
    cases he
    exact BackTraceLoop_fault h fuel 0 _ hrec
  | ok r =>
    rw [hrec] at he
    cases he

end BoardCache

/-- From a state satisfying the invariant, whatever the fuel, the outer loop with
checked move calls runs as the outer loop of `SolveBoard` does, and the only
fault either can end with is the lack of fuel. -/
theorem solveLoopChecked_eq {b0 : Board} (limit : Nat) : ∀ (fuel i : Nat)
    (E : List (Board × Option Board)) (d : Board → Nat) (brd : Board), SearchInv b0 i E d →
    solveLoopChecked limit fuel i (SolveState.of brd E) =
      solveLoop limit fuel i (SolveState.of brd E) ∧
    ∀ e, solveLoop limit fuel i (SolveState.of brd E) = .error e → e = .fuel := by
  intro fuel
  induction fuel with
  | zero =>
    intro i E d brd _
    refine ⟨rfl, fun e he => ?_⟩
    simp only [solveLoop] at he
    cases he
    rfl
  | succ fuel ih =>
    intro i E d brd inv
    cases hs : (E.map Prod.fst)[i]? with
    | none =>
      constructor
      · simp only [solveLoopChecked, solveLoop, SolveState.of, hs]
      · intro e he
        simp only [solveLoop, SolveState.of, hs] at he
        cases he
    | some s =>
      have hsmem : s ∈ E.map Prod.fst := List.getElem?_mem hs
      obtain ⟨e, he, he1⟩ := List.mem_map.1 hsmem
      have hgood : Good b0 s := he1 ▸ inv.good e he
      obtain ⟨r, hr⟩ := IsWin_ok hgood.1
      cases r with
      | true =>
        obtain ⟨path, c1, _⟩ := chain_of_inv inv (d s) s hsmem rfl
        constructor
        · simp only [solveLoopChecked, solveLoop, SolveState.of, hs, assign_eq brd hgood.1, bind,
            Except.bind, hr, if_true]
        · intro e' he'
          simp only [solveLoop, SolveState.of, hs, assign_eq brd hgood.1, bind, Except.bind, hr,
            if_true] at he'
          cases hbt : BoardCache.BackTrace ⟨E⟩ limit s with
          | error e'' =>
            rw [hbt] at he'
            cases he'
            exact BoardCache.BackTrace_fault c1 limit _ hbt
          | ok out =>
            rw [hbt] at he'
            cases he'
      | false =>
        obtain ⟨d', X, hv, inv'⟩ := expand_inv inv hs hr
        obtain ⟨h1, h2⟩ := ih (i + 1) (E ++ X) d' s inv'
        have hexp := expandBoard_good s hgood inv.good
        rw [hv] at hexp
        have hexpc := expandBoardChecked_eq s hgood inv.good
        rw [hexp] at hexpc
        have hbr := GetBoardRef_of_inv inv hsmem
        simp only [SolveState.of] at hs hexp hexpc h1 h2
        constructor
        · simp only [solveLoopChecked, solveLoop, SolveState.of, hs, assign_eq brd hgood.1, bind,
            Except.bind, hr, hbr, hexp, hexpc]
          exact h1
        · intro e' he'
          simp only [solveLoop, SolveState.of, hs, assign_eq brd hgood.1, bind, Except.bind, hr,
            hbr, hexp] at he'
          exact h2 e' he'

/-- For every well-formed initial board and every amount of fuel, the
statements of `SolveBoard` up to its closing brace run with checked move calls
(every `MoveForward` and `MoveBack` call, the undo calls included, first checks
that the matching `CanMove*` holds) as they run without the checks: no check
fails.  The only fault they can end with is the lack of fuel of the model: no
assertion of `MoveForward`, `MoveBack` or `SetFigureAtPos` fails, no access to
the occupancy index (or any other container) is out of range, and no allocation
fails; with enough fuel control arrives at the closing brace. -/
theorem SolveBoardBody_no_violation (b : Board) (hwf : b.WellFormed) (fuel : Nat) :
    SolveBoardBodyChecked fuel b = SolveBoardBody fuel b ∧
    (∀ e, SolveBoardBody fuel b = .error e → e = .fuel) ∧
    (b.placements + 1 ≤ fuel → ∃ r, SolveBoardBody fuel b = .ok r) := by
  have e : SolveBoardBody fuel b = solveLoop fuel fuel 0 (SolveState.of b [(b, none)]) := by
    simp [SolveBoardBody, BoardCache.AddBoard, BoardCache.new, BoardCache.assignEntry,
      copy_eq hwf, bind, Except.bind, pure, Except.pure, SolveState.of]
  have ec : SolveBoardBodyChecked fuel b =
      solveLoopChecked fuel fuel 0 (SolveState.of b [(b, none)]) := by
    simp [SolveBoardBodyChecked, BoardCache.AddBoard, BoardCache.new, BoardCache.assignEntry,
      copy_eq hwf, bind, Except.bind, pure, Except.pure, SolveState.of]
  obtain ⟨h1, h2⟩ := solveLoopChecked_eq fuel fuel 0 [(b, none)] (fun _ => 0) b (init_inv hwf)
  refine ⟨by rw [e, ec]; exact h1, fun e' he' => h2 e' (e ▸ he'), fun hf => ?_⟩
  obtain ⟨i', E', d', brd', out, h, _⟩ := SolveBoardBody_spec hwf hf
  exact ⟨_, h⟩

/-! ## The working board during and after the search -/

/-- Offering boards to the cache only appends entries. -/
theorem foldl_visit_append (parent : Board) : ∀ (ts : List Board)
    (E : List (Board × Option Board)), ∃ X, ts.foldl (visit parent) E = E ++ X := by
  intro ts
  induction ts with
  | nil => intro E; exact ⟨[], by simp⟩
  | cons t ts ih =>
    intro E
    obtain ⟨X, hX⟩ := ih (visit parent E t)
    rw [List.foldl_cons, hX]
    unfold visit
    split
    · exact ⟨X, rfl⟩
    · exact ⟨(t, some parent) :: X, by simp⟩

/-- C19: Let the working board `s` be a well-formed placement, and let the keys of
the cache be well-formed placements of the same pieces on the same grid, as
they are throughout a run of `SolveBoard`.  Then the body of the inner loop for
a piece `k` (the forward candidate move with its undo, then the back candidate
move with its undo) ends normally with the working board equal to `s`: same
grid, same piece positions, same occupancy index; and so does the whole inner
loop over all pieces.  Only the cache and the frontier may have changed, by
entries appended at their end. -/
theorem expansion_restores_board (b0 s parent : Board) (E : List (Board × Option Board))
    (hs : Good b0 s) (hE : ∀ e ∈ E, Good b0 e.1) :
    (∀ k, k < s.figures.length → ∃ st X, expandFigure parent (SolveState.of s E) k = .ok st ∧
      st.board = s ∧ st.cache = ⟨E ++ X⟩ ∧ st.states = E.map Prod.fst ++ X.map Prod.fst) ∧
    (∃ st X, expandBoard parent (SolveState.of s E) = .ok st ∧
      st.board = s ∧ st.cache = ⟨E ++ X⟩ ∧ st.states = E.map Prod.fst ++ X.map Prod.fst) := by
  constructor
  · intro k hk
    obtain ⟨X, hX⟩ := foldl_visit_append parent (s.moves k) E
    refine ⟨_, X, expandFigure_good hE hs hk, rfl, ?_, ?_⟩
    · simp only [SolveState.of, hX]
    · simp only [SolveState.of, hX, List.map_append]
  · obtain ⟨X, hX⟩ := foldl_visit_append parent s.successors E
    refine ⟨_, X, expandBoard_good parent hs hE, rfl, ?_, ?_⟩
    · simp only [SolveState.of, hX]
    · simp only [SolveState.of, hX, List.map_append]

/-- The first expansion of the search on the board of `RunTest`: the board after
`MoveForward(pfig2)` is recorded and the working board is the board of `RunTest`
again. -/
theorem expansion_restores_board_witness :
    Good testBoard testBoard ∧ (∀ e ∈ [(testBoard, (none : Option Board))], Good testBoard e.1) ∧
    expandBoard testBoard (SolveState.of testBoard [(testBoard, none)]) =
      .ok (SolveState.of testBoard [(testBoard, none), (testBoardB1, some testBoard)]) ∧
    ((∀ k, k < testBoard.figures.length → ∃ st X,
      expandFigure testBoard (SolveState.of testBoard [(testBoard, none)]) k = .ok st ∧
      st.board = testBoard ∧ st.cache = ⟨[(testBoard, none)] ++ X⟩ ∧
      st.states = [(testBoard, (none : Option Board))].map Prod.fst ++ X.map Prod.fst) ∧
    (∃ st X, expandBoard testBoard (SolveState.of testBoard [(testBoard, none)]) = .ok st ∧
      st.board = testBoard ∧ st.cache = ⟨[(testBoard, none)] ++ X⟩ ∧
      st.states = [(testBoard, (none : Option Board))].map Prod.fst ++ X.map Prod.fst)) :=
  ⟨Good.refl (by decide), fun e he => by
      rw [List.mem_singleton] at he
      subst he
      exact Good.refl (by decide),
    by decide,
    expansion_restores_board testBoard testBoard testBoard [(testBoard, none)]
      (Good.refl (by decide)) (fun e he => by
        rw [List.mem_singleton] at he
        subst he
        exact Good.refl (by decide))⟩

/-- A legal move changes the board. -/
theorem step_ne {s t : Board} (hwf : s.WellFormed) (h : Step s t) : t ≠ s := by
  obtain ⟨k, ⟨hc, hm⟩ | ⟨hc, hm⟩⟩ := h
  · obtain ⟨p, hp⟩ := figure_of_CanMoveForward hc
    obtain ⟨f1, _⟩ := forward_facts hwf hp hc
    rw [f1] at hm
    cases hm
    intro e
    have hk : k < s.figures.length := (List.getElem?_eq_some_iff.1 hp).1
    have h1 : (s.relocate k p.headCell p.cellAhead p.forward).figures[k]? = some p.forward := by
      simp [relocate, hk]
    rw [e, hp] at h1
    have h2 := Option.some.inj h1
    have h3 : p.hor_pos = p.forward.hor_pos ∧ p.vert_pos = p.forward.vert_pos := by
      rw [← h2]; exact ⟨rfl, rfl⟩
    simp only [PlacedFigure.forward, PlacedFigure.MoveTo] at h3
    split at h3 <;> simp only at h3 <;> omega
  · obtain ⟨p, hp⟩ := figure_of_CanMoveBack hc
    obtain ⟨f1, _⟩ := back_facts hwf hp hc
    rw [f1] at hm
    cases hm
    intro e
    have hk : k < s.figures.length := (List.getElem?_eq_some_iff.1 hp).1
    have h1 : (s.relocate k p.tailCell p.cellBehind p.back).figures[k]? = some p.back := by
      simp [relocate, hk]
    rw [e, hp] at h1
    have h2 := Option.some.inj h1
    have h3 : p.hor_pos = p.back.hor_pos ∧ p.vert_pos = p.back.vert_pos := by
      rw [← h2]; exact ⟨rfl, rfl⟩
    simp only [PlacedFigure.back, PlacedFigure.MoveTo] at h3
    split at h3 <;> simp only at h3 <;> omega

/-- From a board without legal move only the board itself is reached. -/
theorem reach_of_no_step {b t : Board} {n : Nat} (hno : ∀ t, ¬ Step b t) (h : Reach b n t) :
    t = b := by
  induction h with
  | refl => rfl
  | step _ hst ih => subst ih; exact absurd hst (hno _)

/-- Let control arrive at the closing brace of `SolveBoard` on a well-formed
initial board `b`, with `st.board` the board of the caller there.  If the
search succeeded (something was printed), `st.board` satisfies `IsWin`: it is
the winning state under the cursor, and the last state assigned to the board.
If the frontier was exhausted without a win (nothing was printed), `st.board`
is the last state of the frontier.  The board of the caller is the initial
board if and only if the initial board already wins or has no legal move. -/
theorem SolveBoardBody_final_board (b : Board) (hwf : b.WellFormed) (fuel : Nat)
    (st : SolveState) (out : List Event) (h : SolveBoardBody fuel b = .ok (st, out)) :
    (out ≠ [] → st.board.IsWin = .ok true ∧ st.board ∈ st.states) ∧
    (out = [] → st.states.getLast? = some st.board ∧
      ∀ s ∈ st.states, s.IsWin = .ok false) ∧
    (st.board = b ↔ (b.IsWin = .ok true ∨ ∀ t, ¬ Step b t)) := by
  have hmono := SolveBoardBody_mono (Nat.le_max_left fuel (b.placements + 1)) h
  obtain ⟨i', E', d', brd', out', h1, inv, h2⟩ :=
    SolveBoardBody_spec hwf (Nat.le_max_right fuel (b.placements + 1))
  rw [hmono] at h1
  simp only [Except.ok.injEq, Prod.mk.injEq] at h1
  obtain ⟨rfl, rfl⟩ := h1
  simp only [SolveState.of]
  have hroot : (E'.map Prod.fst)[0]? = some b := by
    rw [List.getElem?_map, inv.root]; rfl
  have hlen : 0 < E'.length := by
    have := (List.getElem?_eq_some_iff.1 inv.root).1
    exact this
  -- the final board is a key of the cache, at the last examined position
  have hkey : ∃ j, (E'.map Prod.fst)[j]? = some brd' ∧ (∀ m < j, ∀ x,
      (E'.map Prod.fst)[m]? = some x → x.IsWin = .ok false) ∧
      ((out = [] ∧ j + 1 = E'.length ∧ i' = E'.length) ∨ (out ≠ [] ∧ brd'.IsWin = .ok true)) := by
    rcases h2 with ⟨e1, e2, e3⟩ | ⟨e1, e2, path, _, _, _, _, e3⟩
    · refine ⟨i' - 1, e3 (i' - 1) (by omega), fun m hm x hx => inv.nowin m (by omega) x hx,
        Or.inl ⟨e2, by omega, e1⟩⟩
    · refine ⟨i', e1, fun m hm x hx => inv.nowin m hm x hx, Or.inr ⟨?_, e2⟩⟩
      rw [e3]; simp
  obtain ⟨j, hj, hnw, hcase⟩ := hkey
  have hmem : brd' ∈ E'.map Prod.fst := List.getElem?_mem hj
  refine ⟨fun hout => ?_, fun hout => ?_, ?_⟩
  · rcases hcase with ⟨e, _⟩ | ⟨_, e⟩
    · exact absurd e hout
    · exact ⟨e, hmem⟩
  · rcases hcase with ⟨_, e, e'⟩ | ⟨e, _⟩
    · constructor
      · rw [List.getLast?_eq_getElem?, List.length_map, ← hj]
        congr 1
        omega
      · intro s hs
        obtain ⟨m, hm, rfl⟩ := List.getElem_of_mem hs
        rw [List.length_map] at hm
        exact inv.nowin m (by omega) _ (List.getElem?_eq_getElem _)
    · exact absurd hout e
  · constructor
    · intro e
      subst e
      by_cases hw : brd'.IsWin = .ok true
      · exact Or.inl hw
      · right
        rcases hcase with ⟨_, e1, e2⟩ | ⟨_, e1⟩
        · have hj0 : j = 0 := by
            have hnd := inv.nodup
            have h3 := (List.getElem?_eq_some_iff.1 hj)
            have h4 := (List.getElem?_eq_some_iff.1 hroot)
            obtain ⟨l1, l2⟩ := h3
            obtain ⟨l3, l4⟩ := h4
            exact (List.Nodup.getElem_inj_iff hnd).1 (l2.trans l4.symm)
          intro t hst
          have hcl := (inv.closed 0 (by omega) brd' hroot t hst).1
          have hE1 : E'.length = 1 := by omega
          have : E'.map Prod.fst = [brd'] := by
            have hl : (E'.map Prod.fst).length = 1 := by rw [List.length_map]; exact hE1
            obtain ⟨x, hx⟩ := List.length_eq_one.1 hl
            rw [hx] at hroot
            simp only [List.getElem?_cons_zero, Option.some.injEq] at hroot
            rw [hx, hroot]
          rw [this, List.mem_singleton] at hcl
          exact step_ne hwf hst hcl
        · exact absurd e1 hw
    · rintro (hw | hno)
      · have hj0 : j = 0 := by
          by_contra hne
          have := hnw 0 (by omega) b hroot
          rw [hw] at this
          cases this
        subst hj0
        rw [hroot] at hj
        exact (Option.some.inj hj).symm
      · obtain ⟨e, he, he1⟩ := List.mem_map.1 hmem
        have := inv.reach e he
        rw [he1] at this
        exact reach_of_no_step hno this

/-! ## The end of `SolveBoard` -/

/-- Once control has arrived at the closing brace, `SolveBoard` flows off its end. -/
theorem SolveBoard_of_body {fuel : Nat} {b : Board} {r : SolveState × List Event}
    (h : SolveBoardBody fuel b = .ok r) : SolveBoard fuel b = .error .undefined := by
  simp only [SolveBoard, h, bind, Except.bind]
  rfl

/-- No run of `SolveBoard` returns. -/
theorem SolveBoard_ne_ok (fuel : Nat) (b : Board) (r : Int × Board) :
    SolveBoard fuel b ≠ .ok r := by
  intro h
  simp only [SolveBoard, bind, Except.bind] at h
  cases hb : SolveBoardBody fuel b with
  | error e => rw [hb] at h; cases h
  | ok x => rw [hb] at h; cases h

/-- C4, as stated, fails: on the locked 3x2 board, which is well-formed and from
which no winning state is reachable, the statements of `SolveBoard` arrive at
its closing brace having printed nothing at all, and no run of `SolveBoard`
returns an outcome: no report of the exhausted frontier is made. -/
theorem SolveBoard_unsolvable_not_reported :
    lockedBoard.WellFormed ∧
    (∀ n t, Reach lockedBoard n t → t.IsWin ≠ .ok true) ∧
    SolveBoardBody 3 lockedBoard =
      .ok (SolveState.of lockedBoard [(lockedBoard, none)], []) ∧
    (∀ fuel r, SolveBoard fuel lockedBoard ≠ .ok r) := by
  refine ⟨by decide, ?_, by decide, fun fuel r => SolveBoard_ne_ok fuel _ r⟩
  intro n t h
  rw [lockedBoard_reach h]
  decide

/-- The amended C4 on the locked board. -/
theorem SolveBoardBody_silent_iff_unsolvable_witness :
    lockedBoard.WellFormed ∧
    ∃ (st : SolveState) (out : List Event),
      (∀ fuel, lockedBoard.placements + 1 ≤ fuel →
        SolveBoardBody fuel lockedBoard = .ok (st, out)) ∧
      (out = [] ↔ ∀ n t, Reach lockedBoard n t → t.IsWin ≠ .ok true) ∧
      (out = [] → ∀ n t, Reach lockedBoard n t → t ∈ st.states) :=
  ⟨by decide, SolveBoardBody_silent_iff_unsolvable lockedBoard (by decide)⟩

/-- C5, on every well-formed board: the search loop of `SolveBoard` does end
(with fuel above the number of placements control arrives at the closing
brace), but `SolveBoard` does not return: it is declared `int` and has no
`return` statement, so control flows off its end, which is undefined behaviour.
No run of `SolveBoard` ends normally. -/
theorem SolveBoard_never_returns (b : Board) (hwf : b.WellFormed) :
    (∃ st out, ∀ fuel, b.placements + 1 ≤ fuel → SolveBoardBody fuel b = .ok (st, out)) ∧
    (∀ fuel, b.placements + 1 ≤ fuel → SolveBoard fuel b = .error .undefined) ∧
    (∀ fuel r, SolveBoard fuel b ≠ .ok r) := by
  obtain ⟨st, out, h, _⟩ := SolveBoardBody_terminates b hwf
  exact ⟨⟨st, out, h⟩, fun fuel hf => SolveBoard_of_body (h fuel hf),
    fun fuel r => SolveBoard_ne_ok fuel b r⟩

/-- The board of `RunTest` and the locked board: both calls of `SolveBoard` end
in undefined behaviour. -/
theorem SolveBoard_never_returns_witness :
    testBoard.WellFormed ∧ SolveBoard 10 testBoard = .error .undefined ∧
    SolveBoard 3 lockedBoard = .error .undefined ∧
    ((∃ st out, ∀ fuel, testBoard.placements + 1 ≤ fuel →
      SolveBoardBody fuel testBoard = .ok (st, out)) ∧
    (∀ fuel, testBoard.placements + 1 ≤ fuel → SolveBoard fuel testBoard = .error .undefined) ∧
    (∀ fuel r, SolveBoard fuel testBoard ≠ .ok r)) :=
  ⟨by decide, by decide, by decide, SolveBoard_never_returns testBoard (by decide)⟩

/-- C14, as stated, fails: the board of `RunTest` after its first `AddFigure`
equals the board of `RunTest` under `operator==`, which compares the pieces of
its left operand only; yet after `AddBoard` of the board of `RunTest` on the
empty cache, `IsBoardPresent` of the one-piece board does not return true: the
comparison `operator<` of the map reads the second piece of the one-piece
board, out of the range of `figures_`. -/
theorem IsBoardPresent_undefined_on_shorter_board :
    testBoardA.eq testBoard = .ok true ∧
    BoardCache.new.AddBoard testBoard none = .ok ⟨[(testBoard, none)]⟩ ∧
    BoardCache.IsBoardPresent ⟨[(testBoard, none)]⟩ testBoardA = .error .undefined := by
  decide

/-! ## Consistency of the occupancy index -/

end Park
